import Mathlib

/-!
GpuMemoryManager: a shallow embedding of `Source.cpp` and its verified properties.

The C++ program keeps a list of device memory segments (`availableMemory`), two lists of
pending tensor requests (`staticTensors`, `dynamicTensors`) and, in `Allocate`, runs an
exhaustive backtracking search (`allocateStatic`, `allocateDynamic`) followed by a
bump-pointer placement pass.

Modelling conventions.

* `size_t` values are natural numbers; every `size_t` addition, subtraction and multiplication
  of the source is performed modulo `2 ^ 64` (`sizeAdd`, `sizeSub`, `sizeMul`).
* The C++ type `float` is a parameter (`FloatOps`): the allocator only converts integers to
  `float`, divides, subtracts, adds and compares with `<`.  Two instances are given:
  `binary32` (IEEE 754 single precision, round to nearest, ties to even: the arithmetic the
  compiled program runs) and `exactRat` (ratios as exact rationals: the arithmetic the
  specification reasons with, used to say what a run would give without rounding).
* A `MemoryData*` is an index into `availableMemory`; `nullptr` and a pointer that was never
  assigned are `none`.  A `float*` is a 64-bit byte address, and adding `k` to a `float*`
  advances it by `4 * k` bytes modulo `2 ^ 64` (`ptrAdd`).  A `float**` output slot is an abstract slot number.
* A vector read or write outside the bounds, a null dereference, and running out of recursion
  fuel make the model return `none`; `FailIf` firing (the process exits with a message) is
  `Except.error message`.
* `printf` calls are dropped.  `staticCalls` and `dynamicCalls` are ghost counters of the
  invocations of `allocateStatic` and `allocateDynamic`, and `scored` is the ghost trace of the
  complete assignments that `allocateDynamic` scored.
* The CUDA runtime is a parameter of the constructor (`CudaRuntime`): the free byte count that
  `cudaMemGetInfo` reports and the outcome of every call of `cudaMalloc`.
-/

/-! ## `size_t` arithmetic -/

/-- The number of values of the 64-bit type `size_t`. -/
def sizeModulus : Nat := 18446744073709551616

/-- The C++ `a + b` on `size_t`. -/
def sizeAdd (a b : Nat) : Nat := (a + b) % sizeModulus

/-- The C++ `a - b` on `size_t`. -/
def sizeSub (a b : Nat) : Nat := (a + (sizeModulus - b % sizeModulus)) % sizeModulus

/-- The C++ `a * b` on `size_t`. -/
def sizeMul (a b : Nat) : Nat := (a * b) % sizeModulus

/-- The C++ `sizeof(float)`. -/
def sizeofFloat : Nat := 4

/-- The C++ `p + k` for `p` of type `float*`, as a byte address: pointers have 64 bits, and the
sum wraps around like `size_t`. -/
def ptrAdd (address k : Nat) : Nat := (address + sizeofFloat * k) % sizeModulus

/-! ## The arithmetic of `float` -/

/-- The operations on the C++ type `float` used by the allocator. -/
structure FloatOps where
  /-- The carrier of `float` values. -/
  F : Type
  /-- Conversion of an integer (`size_t` value or `int` literal) to `float`. -/
  ofInt : Int → F
  /-- The C++ `x / y` on `float`. -/
  div : F → F → F
  /-- The C++ `x - y` on `float`. -/
  sub : F → F → F
  /-- The C++ `x + y` on `float`. -/
  add : F → F → F
  /-- The C++ `x < y` on `float`. -/
  lt : F → F → Bool

/-- An IEEE 754 binary32 datum: not-a-number, a signed infinity, or the finite value
`± n * 2 ^ (-149)`.  Every finite binary32 number is of this shape, with `n = m * 2 ^ e`,
`m < 2 ^ 24` and `e ≤ 253`. -/
inductive Binary32 where
  | nan
  | inf (neg : Bool)
  | fin (neg : Bool) (n : Nat)
  deriving DecidableEq, Repr

namespace Binary32

/-- The position of the leading binary digit of `x` (0 for `x < 2`), by repeated halving;
`fuel` bounds the number of halvings and `floorLog2 x x` is exact. -/
def floorLog2 : Nat → Nat → Nat
  | 0, _ => 0
  | fuel + 1, x => if x < 2 then 0 else floorLog2 fuel (x / 2) + 1

/-- Rounds the rational `a / b` (with `0 < b`) to the nearest binary32 number, ties to the even
significand, overflowing to infinity. -/
def round (neg : Bool) (a b : Nat) : Binary32 :=
  let num := a * 2 ^ 149
  let e := floorLog2 (num / b) (num / b) - 23
  let den := b * 2 ^ e
  let q := num / den
  let r := num % den
  let m := if den < 2 * r ∨ (2 * r = den ∧ q % 2 = 1) then q + 1 else q
  let n := m * 2 ^ e
  if 2 ^ 277 ≤ n then inf neg else fin neg n

/-- Conversion of an integer to binary32. -/
def ofInt (i : Int) : Binary32 := round (decide (i < 0)) i.natAbs 1

/-- Negation. -/
def neg : Binary32 → Binary32
  | nan => nan
  | inf s => inf (!s)
  | fin s n => fin (!s) n

/-- Division. -/
def div : Binary32 → Binary32 → Binary32
  | nan, _ => nan
  | _, nan => nan
  | inf _, inf _ => nan
  | inf s, fin t _ => inf (xor s t)
  | fin s _, inf t => fin (xor s t) 0
  | fin s n, fin t k =>
    if k = 0 then (if n = 0 then nan else inf (xor s t)) else round (xor s t) n k

/-- Addition. -/
def add : Binary32 → Binary32 → Binary32
  | nan, _ => nan
  | _, nan => nan
  | inf s, inf t => if s = t then inf s else nan
  | inf s, fin _ _ => inf s
  | fin _ _, inf t => inf t
  | fin s n, fin t k =>
    if s = t then round s (n + k) (2 ^ 149)
    else if n = k then fin false 0
    else if k < n then round s (n - k) (2 ^ 149)
    else round t (k - n) (2 ^ 149)

/-- Subtraction. -/
def sub (x y : Binary32) : Binary32 := add x (neg y)

/-- The comparison `x < y`; false as soon as one side is not a number. -/
def lt : Binary32 → Binary32 → Bool
  | nan, _ => false
  | _, nan => false
  | inf s, inf t => s && !t
  | inf s, fin _ _ => s
  | fin _ _, inf t => !t
  | fin false n, fin false k => decide (n < k)
  | fin true n, fin true k => decide (k < n)
  | fin true n, fin false k => decide (n ≠ 0 ∨ k ≠ 0)
  | fin false _, fin true _ => false

end Binary32

/-- The arithmetic of `float` as IEEE 754 binary32. -/
@[reducible] def binary32 : FloatOps where
  F := Binary32
  ofInt := Binary32.ofInt
  div := Binary32.div
  sub := Binary32.sub
  add := Binary32.add
  lt := Binary32.lt

/-- The arithmetic of `float` idealised as exact rational arithmetic. -/
@[reducible] def exactRat : FloatOps where
  F := ℚ
  ofInt := fun i => (i : ℚ)
  div := fun x y => x / y
  sub := fun x y => x - y
  add := fun x y => x + y
  lt := fun x y => decide (x < y)

/-! ## The data model of `struct GpuMemoryManager` -/

/-- The C++ `struct MemoryData`: one discovered segment. -/
structure GpuMemoryManager.MemoryData (A : FloatOps) where
  /-- The `float*` base of the segment, as a byte address. -/
  address : Nat
  /-- The capacity in bytes; decremented and restored by the static pass of the search. -/
  size : Nat
  /-- The accumulator: per-batch bytes during the search, bytes used during placement. -/
  dynamicSize : Nat
  /-- The search score of the segment. -/
  ratio : A.F

/-- The C++ `struct TensorData`: one pending request. -/
structure GpuMemoryManager.TensorData (A : FloatOps) where
  /-- The `float**` output slot. -/
  address : Nat
  /-- Bytes for a static tensor, bytes per batch element for a dynamic tensor. -/
  size : Nat
  /-- The weight of the tensor. -/
  ratio : A.F
  /-- The segment the search currently gives the tensor. -/
  memoryPtr : Option Nat

/-- The C++ `struct GpuMemoryManager`. -/
structure GpuMemoryManager (A : FloatOps) where
  /-- The segments, in discovery order. -/
  availableMemory : List (GpuMemoryManager.MemoryData A)
  /-- The pending dynamic requests, in registration order. -/
  dynamicTensors : List (GpuMemoryManager.TensorData A)
  /-- The pending static requests, in registration order. -/
  staticTensors : List (GpuMemoryManager.TensorData A)

/-- The C++ `FailIf`: prints the message and exits the process when the condition holds. -/
def FailIf (condition : Bool) (message : String) : Except String Unit :=
  if condition then Except.error message else Except.ok ()

namespace GpuMemoryManager

variable {A : FloatOps}

/-- The state the constructor leaves for segments of the given base addresses and sizes:
`dynamicSize` is 0 (line 66), no request is pending; `ratio` is not initialised by the
constructor and is written by `Allocate` before it is read. -/
def fresh (A : FloatOps) (segments : List (Nat × Nat)) : GpuMemoryManager A where
  availableMemory := segments.map fun sg =>
    { address := sg.1, size := sg.2, dynamicSize := 0, ratio := A.ofInt 0 }
  dynamicTensors := []
  staticTensors := []

/-- The C++ `ManageStatic` (lines 84-91). -/
def ManageStatic (self : GpuMemoryManager A) (tensorPtr size : Nat) :
    Except String (GpuMemoryManager A) :=
  let tensorData : TensorData A :=
    { address := tensorPtr, size := size, ratio := A.ofInt 0, memoryPtr := none }
  let self1 := { self with staticTensors := self.staticTensors ++ [tensorData] }
  match FailIf (decide (tensorData.size ≤ 0)) "Static Tensor size is <= 0\n" with
  | Except.error e => Except.error e
  | Except.ok _ => Except.ok self1

/-- The C++ `ManageDynamic` (lines 93-100). -/
def ManageDynamic (self : GpuMemoryManager A) (tensorPtr size : Nat) :
    Except String (GpuMemoryManager A) :=
  let tensorData : TensorData A :=
    { address := tensorPtr, size := size, ratio := A.ofInt 0, memoryPtr := none }
  let self1 := { self with dynamicTensors := self.dynamicTensors ++ [tensorData] }
  match FailIf (decide (tensorData.size ≤ 0)) "Dynamic Tensor size is <= 0\n" with
  | Except.error e => Except.error e
  | Except.ok _ => Except.ok self1

/-- The manager together with the reference parameters of `allocateStatic` and
`allocateDynamic`, and the ghost call counters. -/
structure Search (A : FloatOps) extends GpuMemoryManager A where
  /-- The parameter `float& largestRatio`. -/
  largestRatio : A.F
  /-- The parameter `std::vector<MemoryData*>& bestCombination`. -/
  bestCombination : List (Option Nat)
  /-- The parameter `size_t& largestN`. -/
  largestN : Nat
  /-- Ghost: the number of invocations of `allocateStatic` so far. -/
  staticCalls : Nat
  /-- Ghost: the number of invocations of `allocateDynamic` so far. -/
  dynamicCalls : Nat
  /-- Ghost: the complete assignments scored so far, in the order they were scored; each is
  the list of the `memoryPtr` of the static tensors followed by those of the dynamic
  tensors. -/
  scored : List (List (Option Nat))

namespace Search

/-- Lines 123-132: the scan for the segment of smallest ratio among those whose accumulator is
positive; returns the locals `smallestRatio`, `size`, `dynamicSize`. -/
def smallest (s : Search A) : A.F × Nat × Nat :=
  s.availableMemory.foldl
    (fun acc memoryPtr =>
      if decide (memoryPtr.dynamicSize > 0) && A.lt memoryPtr.ratio acc.1 then
        (memoryPtr.ratio, memoryPtr.size, memoryPtr.dynamicSize)
      else acc)
    (A.ofInt 1, 0, 0)

/-- Lines 148-149: `bestCombination[i] = staticTensors[i]->memoryPtr` for every `i`. -/
def recordStatic (s : Search A) : Option (Search A) :=
  (List.range s.staticTensors.length).foldlM
    (fun (s : Search A) i =>
      match s.staticTensors[i]? with
      | none => none
      | some t =>
        if i < s.bestCombination.length then
          some { s with bestCombination := s.bestCombination.set i t.memoryPtr }
        else none)
    s

/-- Lines 150-151: `bestCombination[i + staticTensors.size()] = dynamicTensors[i]->memoryPtr`
for every `i`. -/
def recordDynamic (s : Search A) : Option (Search A) :=
  (List.range s.dynamicTensors.length).foldlM
    (fun (s : Search A) i =>
      match s.dynamicTensors[i]? with
      | none => none
      | some t =>
        if i + s.staticTensors.length < s.bestCombination.length then
          some { s with
            bestCombination := s.bestCombination.set (i + s.staticTensors.length) t.memoryPtr }
        else none)
    s

/-- The current `memoryPtr` of the static tensors followed by those of the dynamic tensors. -/
def pointers (s : Search A) : List (Option Nat) :=
  (s.staticTensors.map fun t => t.memoryPtr) ++ s.dynamicTensors.map fun t => t.memoryPtr

/-- Lines 121-153: the scoring of a complete assignment. -/
def score (s0 : Search A) : Option (Search A) :=
  let s : Search A := { s0 with scored := s0.scored ++ [s0.pointers] }
  let smallestRatio := s.smallest.1
  let size := s.smallest.2.1
  let dynamicSize := s.smallest.2.2
  if A.lt s.largestRatio smallestRatio then
    let s1 : Search A :=
      { s with
        largestN := if dynamicSize > 0 then size / dynamicSize else s.largestN
        largestRatio := smallestRatio }
    match recordStatic s1 with
    | none => none
    | some s2 => recordDynamic s2
  else some s

/-- Lines 157-159: give dynamic tensor `tensorIdx` the segment `p`. -/
def dynamicChoose (s : Search A) (tensorIdx p : Nat) : Option (Search A) :=
  match s.dynamicTensors[tensorIdx]?, s.availableMemory[p]? with
  | some t, some memoryPtr =>
    some { s with
      dynamicTensors := s.dynamicTensors.set tensorIdx { t with memoryPtr := some p }
      availableMemory := s.availableMemory.set p
        { memoryPtr with
          ratio := A.sub memoryPtr.ratio t.ratio
          dynamicSize := sizeAdd memoryPtr.dynamicSize t.size } }
  | _, _ => none

/-- Lines 161-162: undo the choice of segment `p` for dynamic tensor `tensorIdx`. -/
def dynamicUnchoose (s : Search A) (tensorIdx p : Nat) : Option (Search A) :=
  match s.dynamicTensors[tensorIdx]?, s.availableMemory[p]? with
  | some t, some memoryPtr =>
    some { s with
      availableMemory := s.availableMemory.set p
        { memoryPtr with
          ratio := A.add memoryPtr.ratio t.ratio
          dynamicSize := sizeSub memoryPtr.dynamicSize t.size } }
  | _, _ => none

/-- Line 108: the capacity filter `memoryPtr->size >= staticTensors[tensorIdx]->size`. -/
def staticFits (s : Search A) (tensorIdx p : Nat) : Option Bool :=
  match s.staticTensors[tensorIdx]?, s.availableMemory[p]? with
  | some t, some memoryPtr => some (decide (memoryPtr.size ≥ t.size))
  | _, _ => none

/-- Lines 110-112: give static tensor `tensorIdx` the segment `p`. -/
def staticChoose (s : Search A) (tensorIdx p : Nat) : Option (Search A) :=
  match s.staticTensors[tensorIdx]?, s.availableMemory[p]? with
  | some t, some memoryPtr =>
    some { s with
      staticTensors := s.staticTensors.set tensorIdx { t with memoryPtr := some p }
      availableMemory := s.availableMemory.set p
        { memoryPtr with
          ratio := A.sub memoryPtr.ratio t.ratio
          size := sizeSub memoryPtr.size t.size } }
  | _, _ => none

/-- Lines 114-115: undo the choice of segment `p` for static tensor `tensorIdx`. -/
def staticUnchoose (s : Search A) (tensorIdx p : Nat) : Option (Search A) :=
  match s.staticTensors[tensorIdx]?, s.availableMemory[p]? with
  | some t, some memoryPtr =>
    some { s with
      availableMemory := s.availableMemory.set p
        { memoryPtr with
          ratio := A.add memoryPtr.ratio t.ratio
          size := sizeAdd memoryPtr.size t.size } }
  | _, _ => none

end Search

/-- The C++ `allocateDynamic` (lines 119-164).  `fuel` bounds the recursion depth. -/
def allocateDynamic (A : FloatOps) : Nat → Nat → Search A → Option (Search A)
  | 0, _, _ => none
  | fuel + 1, tensorIdx, s0 =>
    let s : Search A := { s0 with dynamicCalls := s0.dynamicCalls + 1 }
    if tensorIdx = s.dynamicTensors.length then s.score
    else
      (List.range s.availableMemory.length).foldlM
        (fun (s : Search A) p =>
          match s.dynamicChoose tensorIdx p with
          | none => none
          | some s1 =>
            match allocateDynamic A fuel (tensorIdx + 1) s1 with
            | none => none
            | some s2 => s2.dynamicUnchoose tensorIdx p)
        s

/-- The C++ `allocateStatic` (lines 102-117).  `fuel` bounds the recursion depth. -/
def allocateStatic (A : FloatOps) : Nat → Nat → Search A → Option (Search A)
  | 0, _, _ => none
  | fuel + 1, tensorIdx, s0 =>
    let s : Search A := { s0 with staticCalls := s0.staticCalls + 1 }
    if tensorIdx = s.staticTensors.length then
      allocateDynamic A (s.dynamicTensors.length + 1) 0 s
    else
      (List.range s.availableMemory.length).foldlM
        (fun (s : Search A) p =>
          match s.staticFits tensorIdx p with
          | none => none
          | some false => some s
          | some true =>
            match s.staticChoose tensorIdx p with
            | none => none
            | some s1 =>
              match allocateStatic A fuel (tensorIdx + 1) s1 with
              | none => none
              | some s2 => s2.staticUnchoose tensorIdx p)
        s

/-- Lines 168-177: `fragSize`, the total capacity minus the static sizes, with the capacity
check on every static tensor. -/
def fragSizeOf (self : GpuMemoryManager A) : Except String Nat :=
  self.staticTensors.foldlM
    (fun fragSize tensor =>
      match FailIf (decide (tensor.size > fragSize))
          "Static tensor size is larger than total memory size\n" with
      | Except.error e => Except.error e
      | Except.ok _ => Except.ok (sizeSub fragSize tensor.size))
    (self.availableMemory.foldl (fun fragSize memoryPtr => sizeAdd fragSize memoryPtr.size) 0)

/-- Lines 178-179: `dynamicTensorSize`, the total of the per-batch sizes. -/
def dynamicTensorSizeOf (self : GpuMemoryManager A) : Nat :=
  self.dynamicTensors.foldl (fun dynamicTensorSize tensor => sizeAdd dynamicTensorSize tensor.size) 0

/-- Lines 181-190: the ratios of the segments and tensors, `largestN = 0`, `largestRatio = -1`
and a `bestCombination` of null pointers, one per pending request. -/
def searchInit (self : GpuMemoryManager A) (fragSize : Nat) : Search A where
  availableMemory := self.availableMemory.map fun memoryPtr =>
    { memoryPtr with ratio := A.div (A.ofInt memoryPtr.size) (A.ofInt fragSize) }
  staticTensors := self.staticTensors.map fun tensor =>
    { tensor with ratio := A.div (A.ofInt tensor.size) (A.ofInt fragSize) }
  dynamicTensors := self.dynamicTensors.map fun tensor =>
    { tensor with ratio := A.div (A.ofInt tensor.size) (A.ofInt self.dynamicTensorSizeOf) }
  largestN := 0
  largestRatio := A.ofInt (-1)
  bestCombination := List.replicate (self.staticTensors.length + self.dynamicTensors.length) none
  staticCalls := 0
  dynamicCalls := 0
  scored := []

/-- Lines 181-191: the search, started by `allocateStatic(0, ...)`. -/
def search (self : GpuMemoryManager A) (fragSize : Nat) : Option (Search A) :=
  allocateStatic A (self.staticTensors.length + 1) 0 (self.searchInit fragSize)

/-- One iteration of a placement loop (lines 201-203 and 208-210): the tensor `t`, whose
segment is `bestCombination[k]`, gets the address `memoryPtr->address + memoryPtr->dynamicSize`
and the accumulator of the segment advances by `advance`. -/
def placeStep (bestCombination : List (Option Nat)) (k : Nat) (t : TensorData A) (advance : Nat)
    (mw : List (MemoryData A) × List (Nat × Nat)) :
    Option (List (MemoryData A) × List (Nat × Nat)) :=
  match bestCombination[k]? with
  | some (some p) =>
    match mw.1[p]? with
    | some memoryPtr =>
      some (mw.1.set p { memoryPtr with dynamicSize := sizeAdd memoryPtr.dynamicSize advance },
        mw.2 ++ [(t.address, ptrAdd memoryPtr.address memoryPtr.dynamicSize)])
    | none => none
  | _ => none

/-- Lines 199-204: the placement of the static tensors. -/
def placeStatic (s : Search A) (mw : List (MemoryData A) × List (Nat × Nat)) :
    Option (List (MemoryData A) × List (Nat × Nat)) :=
  (List.range s.staticTensors.length).foldlM
    (fun mw i =>
      match s.staticTensors[i]? with
      | none => none
      | some t => placeStep s.bestCombination i t t.size mw)
    mw

/-- Lines 206-211: the placement of the dynamic tensors. -/
def placeDynamic (s : Search A) (mw : List (MemoryData A) × List (Nat × Nat)) :
    Option (List (MemoryData A) × List (Nat × Nat)) :=
  (List.range s.dynamicTensors.length).foldlM
    (fun mw i =>
      match s.dynamicTensors[i]? with
      | none => none
      | some t =>
        placeStep s.bestCombination (i + s.staticTensors.length) t (sizeMul t.size s.largestN) mw)
    mw

/-- What is known of a run that `FailIf` ended: the message printed before `exit`, and (ghost)
how many times `allocateStatic` and `allocateDynamic` had been invoked. -/
structure Exit where
  /-- The message printed by `FailIf`. -/
  message : String
  /-- Ghost: the number of invocations of `allocateStatic` before the exit. -/
  staticCalls : Nat
  /-- Ghost: the number of invocations of `allocateDynamic` before the exit. -/
  dynamicCalls : Nat
  deriving DecidableEq

/-- What a successful `Allocate` leaves behind. -/
structure AllocResult (A : FloatOps) where
  /-- The manager after the call. -/
  self : GpuMemoryManager A
  /-- The value of the reference parameter `largestN`. -/
  largestN : Nat
  /-- The writes `*tensor->address = ...` in program order, as (slot, byte address): first one
  per static tensor, then one per dynamic tensor. -/
  written : List (Nat × Nat)
  /-- Ghost: the local `bestCombination` the placement pass used. -/
  bestCombination : List (Option Nat)

/-- Lines 195-220: the placement pass and the clean-up. -/
def place (s : Search A) : Option (AllocResult A) :=
  match placeStatic s
      (s.availableMemory.map fun memoryPtr => { memoryPtr with dynamicSize := 0 }, []) with
  | none => none
  | some mw1 =>
    match placeDynamic s mw1 with
    | none => none
    | some mw2 =>
      some
        { self := { availableMemory := mw2.1, dynamicTensors := [], staticTensors := [] }
          largestN := s.largestN
          written := mw2.2
          bestCombination := s.bestCombination }

/-- The C++ `Allocate` (lines 166-221). -/
def Allocate (A : FloatOps) (self : GpuMemoryManager A) : Option (Except Exit (AllocResult A)) :=
  match self.fragSizeOf with
  | Except.error e => some (Except.error { message := e, staticCalls := 0, dynamicCalls := 0 })
  | Except.ok fragSize =>
    match self.search fragSize with
    | none => none
    | some s =>
      match s.bestCombination[0]? with
      | none => none
      | some none =>
        some (Except.error
          { message := "No combination found\n"
            staticCalls := s.staticCalls
            dynamicCalls := s.dynamicCalls })
      | some (some _) =>
        match place s with
        | none => none
        | some r => some (Except.ok r)

/-- A manager with the given segments (base address, size) as left by the constructor, after
`ManageStatic` and `ManageDynamic` calls registering the given (slot, size) requests. -/
def pending (A : FloatOps) (segments statics dynamics : List (Nat × Nat)) : GpuMemoryManager A where
  availableMemory := (fresh A segments).availableMemory
  staticTensors := statics.map fun r =>
    { address := r.1, size := r.2, ratio := A.ofInt 0, memoryPtr := none }
  dynamicTensors := dynamics.map fun r =>
    { address := r.1, size := r.2, ratio := A.ofInt 0, memoryPtr := none }

/-- The batch count of a run: `none` when the run has no defined result or exits in `FailIf`. -/
def batchesOf (r : Option (Except Exit (AllocResult A))) : Option Nat :=
  match r with
  | some (Except.ok x) => some x.largestN
  | _ => none

/-- The plan of a run. -/
def planOf (r : Option (Except Exit (AllocResult A))) : Option (List (Option Nat)) :=
  match r with
  | some (Except.ok x) => some x.bestCombination
  | _ => none

/-- The address writes of a run. -/
def writtenOf (r : Option (Except Exit (AllocResult A))) : Option (List (Nat × Nat)) :=
  match r with
  | some (Except.ok x) => some x.written
  | _ => none

/-- The (size, accumulator) pairs of the segments after a run. -/
def usedOf (r : Option (Except Exit (AllocResult A))) : Option (List (Nat × Nat)) :=
  match r with
  | some (Except.ok x) => some (x.self.availableMemory.map fun seg => (seg.size, seg.dynamicSize))
  | _ => none

/-- The result of a run that succeeds. -/
def resultOf (r : Option (Except Exit (AllocResult A))) : Option (AllocResult A) :=
  match r with
  | some (Except.ok x) => some x
  | _ => none

/-- One allocation round on a manager: the `ManageStatic` calls for `statics`, the
`ManageDynamic` calls for `dynamics` (each a (slot, size) pair), then `Allocate`; `none` unless
every call succeeds. -/
def allocationRound (A : FloatOps) (self : GpuMemoryManager A) (statics dynamics : List (Nat × Nat)) :
    Option (AllocResult A) :=
  match statics.foldlM (fun m r => ManageStatic m r.1 r.2) self with
  | Except.error _ => none
  | Except.ok m1 =>
    match dynamics.foldlM (fun m r => ManageDynamic m r.1 r.2) m1 with
    | Except.error _ => none
    | Except.ok m2 => resultOf (Allocate A m2)

/-- The `FailIf` message of a run that exits. -/
def messageOf (r : Option (Except Exit (AllocResult A))) : Option String :=
  match r with
  | some (Except.error e) => some e.message
  | _ => none

end GpuMemoryManager

/-! ## The vocabulary of the specification -/

namespace GpuMemoryManager

variable {A : FloatOps}

/-- The sum of the `sizes` of the tensors that `plan` gives to segment `p`. -/
def assignedSum (plan : List (Option Nat)) (sizes : List Nat) (p : Nat) : Nat :=
  (((plan.zip sizes).filter fun x => x.1 == some p).map fun x => x.2).sum

/-- The sizes of the pending static tensors. -/
def staticSizes (self : GpuMemoryManager A) : List Nat := self.staticTensors.map fun t => t.size

/-- The per-batch sizes of the pending dynamic tensors. -/
def dynamicSizes (self : GpuMemoryManager A) : List Nat := self.dynamicTensors.map fun t => t.size

/-- The static bytes a plan (one segment per static tensor, then one per dynamic tensor) gives
to segment `p`. -/
def staticOn (self : GpuMemoryManager A) (plan : List (Option Nat)) (p : Nat) : Nat :=
  assignedSum (plan.take self.staticTensors.length) self.staticSizes p

/-- The dynamic per-batch bytes a plan gives to segment `p`. -/
def dynamicOn (self : GpuMemoryManager A) (plan : List (Option Nat)) (p : Nat) : Nat :=
  assignedSum (plan.drop self.staticTensors.length) self.dynamicSizes p

/-- The capacity inequality of segment `p` for batch count `n` under a plan. -/
def capacityOk (self : GpuMemoryManager A) (plan : List (Option Nat)) (n p : Nat) : Bool :=
  match self.availableMemory[p]? with
  | some seg => decide (self.staticOn plan p + n * self.dynamicOn plan p ≤ seg.size)
  | none => true

/-- The capacity inequality of every segment for batch count `n` under a plan. -/
def capacityAll (self : GpuMemoryManager A) (plan : List (Option Nat)) (n : Nat) : Bool :=
  (List.range self.availableMemory.length).all fun p => self.capacityOk plan n p

/-- The byte lengths of the tensors for batch count `n`: the sizes of the static tensors, then
the per-batch sizes of the dynamic tensors times `n`. -/
def byteLengths (self : GpuMemoryManager A) (n : Nat) : List Nat :=
  self.staticSizes ++ self.dynamicSizes.map fun d => d * n

/-- The byte length of tensor `k` (static tensors first, then dynamic ones) for batch count
`n`. -/
def tensorLen (self : GpuMemoryManager A) (n k : Nat) : Nat :=
  (self.byteLengths n).getD k 0

/-- The output slots of the tensors, static tensors first. -/
def slots (self : GpuMemoryManager A) : List Nat :=
  (self.staticTensors.map fun t => t.address) ++ self.dynamicTensors.map fun t => t.address

/-- Containment of tensor `k`: the byte range written for it lies inside the segment the plan
gives it. -/
def containedAt (self : GpuMemoryManager A) (r : AllocResult A) (k : Nat) : Bool :=
  match r.bestCombination[k]?, r.written[k]? with
  | some (some p), some w =>
    match self.availableMemory[p]? with
    | some seg =>
      decide (seg.address ≤ w.2 ∧ w.2 + self.tensorLen r.largestN k ≤ seg.address + seg.size)
    | none => false
  | _, _ => false

end GpuMemoryManager

/-! ## The vocabulary of the proofs -/

namespace GpuMemoryManager

variable {A : FloatOps}

/-- One iteration of the loop of `allocateDynamic` (lines 157-162) for the segment `p`. -/
def dynamicIter (A : FloatOps) (fuel tensorIdx : Nat) (s : Search A) (p : Nat) :
    Option (Search A) :=
  match s.dynamicChoose tensorIdx p with
  | none => none
  | some s1 =>
    match allocateDynamic A fuel (tensorIdx + 1) s1 with
    | none => none
    | some s2 => s2.dynamicUnchoose tensorIdx p

/-- One iteration of the loop of `allocateStatic` (lines 108-116) for the segment `p`. -/
def staticIter (A : FloatOps) (fuel tensorIdx : Nat) (s : Search A) (p : Nat) :
    Option (Search A) :=
  match s.staticFits tensorIdx p with
  | none => none
  | some false => some s
  | some true =>
    match s.staticChoose tensorIdx p with
    | none => none
    | some s1 =>
      match allocateStatic A fuel (tensorIdx + 1) s1 with
      | none => none
      | some s2 => s2.staticUnchoose tensorIdx p

/-- Every `size_t` field of the segments holds a value of the type. -/
def SizesInRange (self : GpuMemoryManager A) : Prop :=
  ∀ m ∈ self.availableMemory, m.size < sizeModulus ∧ m.dynamicSize < sizeModulus

/-- The total capacity of the segments. -/
def totalCapacity (self : GpuMemoryManager A) : Nat :=
  (self.availableMemory.map fun m => m.size).sum

/-- The message of the capacity check. -/
def staticTooLarge : String := "Static tensor size is larger than total memory size\n"

/-- The message of the plan check. -/
def noCombination : String := "No combination found\n"

/-- The pointer of tensor `i` of a list, `none` outside the list. -/
def ptrAt (ts : List (TensorData A)) (i : Nat) : Option Nat :=
  match ts[i]? with
  | some t => t.memoryPtr
  | none => none

/-- How segment `p` in a state of the search relates to the same segment `m0` of the state the
search started from, when the static tensors placed so far went to `σ` and the dynamic ones to
`δ`. -/
structure SegRel (s0 : Search A) (σ δ : List Nat) (p : Nat) (m0 m : MemoryData A) : Prop where
  address : m.address = m0.address
  size : m.size + assignedSum (σ.map some) s0.staticSizes p = m0.size
  dynamicSize : m.dynamicSize
    = (m0.dynamicSize + assignedSum (δ.map some) s0.dynamicSizes p) % sizeModulus

/-- The invariant of the search that holds in every arithmetic: at the point where the static
tensors `0 .. σ.length - 1` have the segments `σ` and the dynamic tensors `0 .. δ.length - 1`
the segments `δ`, the state `s` differs from the initial state `s0` only in the ratios, in the
sizes and accumulators as `SegRel` says, in the current pointers, and in the result
parameters. -/
structure Core (s0 : Search A) (σ δ : List Nat) (s : Search A) : Prop where
  wf : ∀ m0 ∈ s0.availableMemory, m0.size < sizeModulus ∧ m0.dynamicSize < sizeModulus
  mem_len : s.availableMemory.length = s0.availableMemory.length
  seg : ∀ (p : Nat) (m : MemoryData A), s.availableMemory[p]? = some m →
    ∃ m0 : MemoryData A, s0.availableMemory[p]? = some m0 ∧ SegRel s0 σ δ p m0 m
  static_len : s.staticTensors.length = s0.staticTensors.length
  static_fixed : ∀ (i : Nat) (t : TensorData A), s.staticTensors[i]? = some t →
    ∃ t0 : TensorData A, s0.staticTensors[i]? = some t0 ∧ t.address = t0.address ∧ t.size = t0.size
      ∧ t.ratio = t0.ratio
  dynamic_len : s.dynamicTensors.length = s0.dynamicTensors.length
  dynamic_fixed : ∀ (i : Nat) (t : TensorData A), s.dynamicTensors[i]? = some t →
    ∃ t0 : TensorData A, s0.dynamicTensors[i]? = some t0 ∧ t.address = t0.address ∧ t.size = t0.size
      ∧ t.ratio = t0.ratio
  static_ptr : ∀ (i x : Nat), σ[i]? = some x →
    ∃ t : TensorData A, s.staticTensors[i]? = some t ∧ t.memoryPtr = some x
  dynamic_ptr : ∀ (i x : Nat), δ[i]? = some x →
    ∃ t : TensorData A, s.dynamicTensors[i]? = some t ∧ t.memoryPtr = some x
  best_len : s.bestCombination.length = s0.staticTensors.length + s0.dynamicTensors.length
  static_valid : ∀ x ∈ σ, x < s0.availableMemory.length
  dynamic_valid : ∀ x ∈ δ, x < s0.availableMemory.length

/-- The result of a run that succeeds, and an empty result otherwise. -/
def resultOr (x : Option (Except Exit (AllocResult A))) : AllocResult A :=
  (resultOf x).getD
    { self := { availableMemory := [], dynamicTensors := [], staticTensors := [] }
      largestN := 0
      written := []
      bestCombination := [] }

/-- The ratio of the only segment at the only complete assignment when one segment of `S`
bytes holds one static request of `a` bytes and one dynamic request of `d` bytes per batch. -/
def singleRatio (A : FloatOps) (S a d : Nat) : A.F :=
  A.sub
    (A.sub (A.div (A.ofInt (S : Nat)) (A.ofInt ((S - a : Nat) : Int)))
      (A.div (A.ofInt (a : Nat)) (A.ofInt ((S - a : Nat) : Int))))
    (A.div (A.ofInt (d : Nat)) (A.ofInt (d : Nat)))

/-- A static assignment: one segment per pending static tensor such that, for every segment,
the static sizes assigned to it sum to at most its size. -/
def StaticAssignment (self : GpuMemoryManager A) (σ : List Nat) : Prop :=
  σ.length = self.staticTensors.length ∧ (∀ x ∈ σ, x < self.availableMemory.length)
    ∧ ∀ (p : Nat) (seg : MemoryData A), self.availableMemory[p]? = some seg →
      assignedSum (σ.map some) self.staticSizes p ≤ seg.size

/-- Some static assignment exists. -/
def StaticFeasible (self : GpuMemoryManager A) : Prop := ∃ σ, StaticAssignment self σ

/-- The part of the invariant of the search that needs exact ratios: with `F = fragSize` and
`D = dynamicTensorSize`, the ratio of a segment is its current size over `F` minus its share of
the dynamic sizes placed so far over `D`, the weights of the tensors are their sizes over `F`
and over `D`, and the current sizes of the segments sum to `F` plus the static sizes not yet
placed. -/
structure Exact (F D : Nat) (s0 : Search exactRat) (σ δ : List Nat) (s : Search exactRat) :
    Prop where
  seg_ratio : ∀ (p : Nat) (m : MemoryData exactRat), s.availableMemory[p]? = some m →
    m.ratio = (m.size : ℚ) / (F : ℚ)
      - (assignedSum (δ.map some) s0.dynamicSizes p : ℚ) / (D : ℚ)
  static_ratio : ∀ (i : Nat) (t : TensorData exactRat), s.staticTensors[i]? = some t →
    t.ratio = (t.size : ℚ) / (F : ℚ)
  dynamic_ratio : ∀ (i : Nat) (t : TensorData exactRat), s.dynamicTensors[i]? = some t →
    t.ratio = (t.size : ℚ) / (D : ℚ)
  size_sum : (s.availableMemory.map fun m => m.size).sum + (s0.staticSizes.take σ.length).sum
    = F + s0.staticSizes.sum

/-- The invariant of the search with exact ratios: the core invariant, the exact part, and a
property `J` of the result parameters `bestCombination`, `largestRatio` and `largestN`. -/
structure ExactInv (F D : Nat) (J : List (Option Nat) → ℚ → Nat → Prop) (s0 : Search exactRat)
    (σ δ : List Nat) (s : Search exactRat) : Prop where
  core : Core s0 σ δ s
  exact : Exact F D s0 σ δ s
  result : J s.bestCombination s.largestRatio s.largestN

/-- A property `J` of the result parameters that every commit of a complete assignment keeps:
the hypothesis of the proof rules with exact ratios. -/
def CommitKeeps (F D : Nat) (J : List (Option Nat) → ℚ → Nat → Prop) (s0 : Search exactRat) :
    Prop :=
  ∀ σ δ (s : Search exactRat), Core s0 σ δ s → Exact F D s0 σ δ s →
    σ.length = s0.staticTensors.length → δ.length = s0.dynamicTensors.length →
    J s.bestCombination s.largestRatio s.largestN →
    exactRat.lt s.largestRatio s.smallest.1 = true →
    J (σ.map some ++ δ.map some) s.smallest.1
      (if s.smallest.2.2 > 0 then s.smallest.2.1 / s.smallest.2.2 else s.largestN)

/-- The plan `best` gives every tensor one of `n` segments. -/
def CommittedPlan (n : Nat) (best : List (Option Nat)) : Prop :=
  ∀ k, k < best.length → ∃ p, p < n ∧ best[k]? = some (some p)

/-- The result parameters before or after a commit: the plan is committed, or it still is the
initial plan of `len` null pointers and `largestRatio` still is -1. -/
def Untouched (n len : Nat) : List (Option Nat) → ℚ → Nat → Prop :=
  fun best ratio _ => CommittedPlan n best ∨ (best = List.replicate len none ∧ ratio = -1)

/-- The result parameters after a commit: the plan is committed. -/
def Settled (n : Nat) : List (Option Nat) → ℚ → Nat → Prop :=
  fun best _ _ => CommittedPlan n best

/-- The state of the placement pass after the tensors `0 .. k - 1` (static tensors first) have
been placed: every accumulator is the sum of the byte lengths placed in its segment, and every
address written is the base of the segment advanced, as a `float*`, by the accumulator at that
time. -/
structure Placed (mem0 : List (MemoryData A)) (best : List (Option Nat)) (lens slots : List Nat)
    (k : Nat) (mw : List (MemoryData A) × List (Nat × Nat)) : Prop where
  mem_len : mw.1.length = mem0.length
  seg : ∀ (p : Nat) (m : MemoryData A), mw.1[p]? = some m →
    ∃ m0 : MemoryData A, mem0[p]? = some m0 ∧ m.address = m0.address ∧ m.size = m0.size
      ∧ m.dynamicSize = assignedSum (best.take k) lens p
  written_len : mw.2.length = k
  written : ∀ (j : Nat) (w : Nat × Nat), mw.2[j]? = some w →
    ∃ (p : Nat) (m0 : MemoryData A) (slot : Nat), best[j]? = some (some p) ∧ mem0[p]? = some m0
      ∧ slots[j]? = some slot
      ∧ w = (slot, ptrAdd m0.address (assignedSum (best.take j) lens p))

end GpuMemoryManager

namespace GpuMemoryManager

/-- The ratio that the search with exact ratios gives segment `p` at the complete assignment
`(σ, δ)`: the remaining size over `F = fragSize` minus the dynamic share over
`D = dynamicTensorSize`. -/
def pathRatio (F D : Nat) (s0 : Search exactRat) (σ δ : List Nat) (p : Nat) : ℚ :=
  match s0.availableMemory[p]? with
  | some m0 =>
    ((m0.size - assignedSum (σ.map some) s0.staticSizes p : Nat) : ℚ) / (F : ℚ)
      - (assignedSum (δ.map some) s0.dynamicSizes p : ℚ) / (D : ℚ)
  | none => 0

/-- The result parameters are those of a commit of the complete assignment `(σ, δ)` whose
bottleneck is the segment `b`: `b` holds dynamic tensors, its ratio is least among the
segments that do and is `largestRatio`, and `largestN` is its remaining size divided by its
dynamic bytes per batch. -/
structure CommitOf (F D : Nat) (s0 : Search exactRat) (σ δ : List Nat) (b : Nat)
    (best : List (Option Nat)) (ratio : ℚ) (N : Nat) : Prop where
  plan : best = σ.map some ++ δ.map some
  static_len : σ.length = s0.staticTensors.length
  dynamic_len : δ.length = s0.dynamicTensors.length
  static_valid : ∀ x ∈ σ, x < s0.availableMemory.length
  dynamic_valid : ∀ x ∈ δ, x < s0.availableMemory.length
  fits : ∀ (p : Nat) (m0 : MemoryData exactRat), s0.availableMemory[p]? = some m0 →
    assignedSum (σ.map some) s0.staticSizes p ≤ m0.size
  seg : b < s0.availableMemory.length
  holds : 0 < assignedSum (δ.map some) s0.dynamicSizes b
  count : ∀ m0 : MemoryData exactRat, s0.availableMemory[b]? = some m0 →
    N = (m0.size - assignedSum (σ.map some) s0.staticSizes b)
      / assignedSum (δ.map some) s0.dynamicSizes b
  ratio_eq : ratio = pathRatio F D s0 σ δ b
  least : ∀ p, p < s0.availableMemory.length → 0 < assignedSum (δ.map some) s0.dynamicSizes p →
    ratio ≤ pathRatio F D s0 σ δ p

/-- The result parameters before or after a commit: the plan still is the initial plan of
`len` null pointers, or the parameters are those of a commit of some complete assignment. -/
def Bottlenecked (F D : Nat) (s0 : Search exactRat) (len : Nat) :
    List (Option Nat) → ℚ → Nat → Prop :=
  fun best ratio N => best = List.replicate len none ∨ ∃ σ δ b, CommitOf F D s0 σ δ b best ratio N

/-- The result parameters after the complete assignment `(σ, δ)` has been scored:
`largestRatio` is at least the ratio of a segment to which `δ` gives dynamic tensors. -/
def Dominates (F D : Nat) (s0 : Search exactRat) (σ δ : List Nat) :
    List (Option Nat) → ℚ → Nat → Prop :=
  fun _ ratio _ => ∃ p, p < s0.availableMemory.length
    ∧ 0 < assignedSum (δ.map some) s0.dynamicSizes p ∧ pathRatio F D s0 σ δ p ≤ ratio

/-- No constraint on the result parameters. -/
def Unconstrained : List (Option Nat) → ℚ → Nat → Prop := fun _ _ _ => True

/-- The ratio that `Allocate` with exact ratios gives segment `p` at the complete assignment
`plan`: the remaining size over `fragSize` minus the dynamic bytes per batch over
`dynamicTensorSize`. -/
def planRatio (self : GpuMemoryManager exactRat) (plan : List (Option Nat)) (p : Nat) : ℚ :=
  match self.availableMemory[p]? with
  | some seg =>
    ((seg.size - self.staticOn plan p : Nat) : ℚ)
        / ((self.totalCapacity - self.staticSizes.sum : Nat) : ℚ)
      - (self.dynamicOn plan p : ℚ) / (self.dynamicSizes.sum : ℚ)
  | none => 0

/-- The state of a freshly constructed manager (line 66): every accumulator is zero. -/
def Fresh {A : FloatOps} (self : GpuMemoryManager A) : Prop :=
  ∀ m ∈ self.availableMemory, m.dynamicSize = 0

end GpuMemoryManager

/-! ## The constructor -/

/-- The CUDA runtime as the constructor observes it.  The constructor is deterministic, so the
answers of any allocator, whatever state it keeps, are a function of the position of the call
in the run. -/
structure CudaRuntime where
  /-- The free byte count that `cudaMemGetInfo` stores in `freeMem` (line 44). -/
  freeMem : Nat
  /-- The outcome of call number `k` (counted from 0) of `cudaMalloc`, asked for `size` bytes:
  whether it returns `cudaSuccess`, and the pointer `*devPtr` holds after the call. -/
  cudaMalloc : Nat → Nat → Bool × Nat

namespace GpuMemoryManager

/-- Lines 53-59: the inner `do ... while (low <= high)` loop of the constructor, the binary
search for the largest size that can be allocated; returns `low` at the exit of the loop and
the number of `cudaMalloc` calls made so far.  `fuel` bounds the number of iterations. -/
def probeLoop (cuda : CudaRuntime) : Nat → Nat → Nat → Nat → Option (Nat × Nat)
  | 0, _, _, _ => none
  | fuel + 1, low, high, calls =>
    let guess := sizeAdd low high >>> 1
    let err := cuda.cudaMalloc calls guess
    let low1 := if err.1 then sizeAdd guess 1 else low
    let high1 := if err.1 then high else sizeSub guess 1
    if low1 ≤ high1 then probeLoop cuda fuel low1 high1 (calls + 1)
    else some (low1, calls + 1)

/-- Lines 49-70: the outer `do ... while (low > 0)` loop of the constructor, which discovers
one segment per iteration.  `fuel` bounds the number of iterations of this loop and of each
inner loop. -/
def discoverLoop (A : FloatOps) (cuda : CudaRuntime) :
    Nat → Nat → Nat → List (MemoryData A) → Option (List (MemoryData A))
  | 0, _, _, _ => none
  | fuel + 1, freeMem, calls, availableMemory =>
    match probeLoop cuda fuel 1 freeMem calls with
    | none => none
    | some (low0, calls1) =>
      let low := sizeSub low0 1
      if low > 0 then
        let err := cuda.cudaMalloc calls1 low
        discoverLoop A cuda fuel (sizeSub freeMem low) (calls1 + 1)
          (availableMemory
            ++ [{ address := err.2, size := low, dynamicSize := 0, ratio := A.ofInt 0 }])
      else some availableMemory

/-- The C++ constructor `GpuMemoryManager()` (lines 40-73); `ratio` is left uninitialised by
the constructor and is written by `Allocate` before it is read. -/
def construct (A : FloatOps) (cuda : CudaRuntime) (fuel : Nat) :
    Option (Except String (GpuMemoryManager A)) :=
  match discoverLoop A cuda fuel cuda.freeMem 0 [] with
  | none => none
  | some availableMemory =>
    match FailIf (decide (availableMemory.length ≤ 0)) "No available memory\n" with
    | Except.error e => some (Except.error e)
    | Except.ok _ =>
      some (Except.ok
        { availableMemory := availableMemory, dynamicTensors := [], staticTensors := [] })

/-- A runtime whose `cudaMalloc` succeeds exactly for the sizes that `ok` accepts, whatever came
before, and returns the address `base`. -/
def oracleRuntime (freeMem base : Nat) (ok : Nat → Bool) : CudaRuntime where
  freeMem := freeMem
  cudaMalloc := fun _ size => (ok size, base)

/-! ## The vocabulary of the trace of the search -/

/-- The result parameters of the search together with the ghost trace: what the scoring of a
complete assignment may change, and nothing else in the search does. -/
def Search.outcome {A : FloatOps} (s : Search A) :
    List (Option Nat) × A.F × Nat × List (List (Option Nat)) :=
  (s.bestCombination, s.largestRatio, s.largestN, s.scored)

/-- All the assignments of `k` dynamic tensors to the segments `0 .. n - 1`, in lexicographic
order: the first tensor varies slowest. -/
def dynamicOrder (n : Nat) : Nat → List (List Nat)
  | 0 => [[]]
  | k + 1 => (List.range n).flatMap fun p => (dynamicOrder n k).map fun δ => p :: δ

/-- The complete assignments in lexicographic order, one segment per tensor with the static
tensors first: the static tensors have the sizes `ts` and go to segments with the remaining
sizes `rem` that have room for them, the `k` dynamic tensors go anywhere. -/
def visitOrder (k : Nat) : List Nat → List Nat → List (List Nat)
  | [], rem => dynamicOrder rem.length k
  | t :: ts, rem =>
    (List.range rem.length).flatMap fun p =>
      if t ≤ rem.getD p 0 then
        (visitOrder k ts (rem.set p (rem.getD p 0 - t))).map fun π => p :: π
      else []

/-- The bottleneck ratio of a complete assignment: the minimum, over the segments to which the
plan gives a dynamic tensor, of the ratio of the segment; 1 if there is none. -/
def bottleneckRatio (self : GpuMemoryManager exactRat) (plan : List (Option Nat)) : ℚ :=
  match ((List.range self.availableMemory.length).filter fun p =>
      decide (0 < self.dynamicOn plan p)).map (planRatio self plan) with
  | [] => 1
  | r :: rs => rs.foldl min r

/-- The recorded plan is the first of the scored assignments whose bottleneck ratio is largest,
and `largestRatio` is that ratio. -/
def Selected (self : GpuMemoryManager exactRat) (best : List (Option Nat)) (ratio : ℚ)
    (scored : List (List (Option Nat))) : Prop :=
  ∃ i, scored[i]? = some best ∧ ratio = bottleneckRatio self best
    ∧ (∀ plan ∈ scored, bottleneckRatio self plan ≤ ratio)
    ∧ ∀ (j : Nat) (plan : List (Option Nat)), j < i → scored[j]? = some plan →
      bottleneckRatio self plan < ratio

/-- The result parameters and the trace during the search with exact ratios: nothing is
recorded yet and no scored assignment has a bottleneck ratio above the initial -1, or the
recorded plan is the first scored assignment of largest bottleneck ratio. -/
def Selection (self : GpuMemoryManager exactRat)
    (o : List (Option Nat) × ℚ × Nat × List (List (Option Nat))) : Prop :=
  (o.1 = List.replicate (self.staticTensors.length + self.dynamicTensors.length) none
      ∧ o.2.1 = -1 ∧ ∀ plan ∈ o.2.2.2, bottleneckRatio self plan ≤ -1)
    ∨ Selected self o.1 o.2.1 o.2.2.2

/-- The plan `best` still is the initial plan of null pointers, or it is a complete assignment
of the pending tensors of `s0` to segments whose static part fits: on every segment the sizes
of the static tensors the plan places there sum to at most the size of the segment. -/
def FittingPlan {A : FloatOps} (s0 : Search A) (best : List (Option Nat)) : Prop :=
  best = List.replicate (s0.staticTensors.length + s0.dynamicTensors.length) none
    ∨ ∃ σ δ : List Nat, best = σ.map some ++ δ.map some
      ∧ σ.length = s0.staticTensors.length ∧ δ.length = s0.dynamicTensors.length
      ∧ (∀ x ∈ σ, x < s0.availableMemory.length) ∧ (∀ x ∈ δ, x < s0.availableMemory.length)
      ∧ ∀ (p : Nat) (m0 : MemoryData A), s0.availableMemory[p]? = some m0 →
        assignedSum (σ.map some) s0.staticSizes p ≤ m0.size

end GpuMemoryManager

/-! ## Lemmas -/

/-! ## Basic facts -/

theorem sizeAdd_lt (a b : Nat) : sizeAdd a b < sizeModulus := by
  unfold sizeAdd sizeModulus; omega

theorem sizeSub_lt (a b : Nat) : sizeSub a b < sizeModulus := by
  unfold sizeSub sizeModulus; omega

theorem sizeAdd_of_lt {a b : Nat} (h : a + b < sizeModulus) : sizeAdd a b = a + b := by
  unfold sizeAdd; exact Nat.mod_eq_of_lt h

theorem sizeSub_of_le {a b : Nat} (hb : b ≤ a) (ha : a < sizeModulus) : sizeSub a b = a - b := by
  unfold sizeSub sizeModulus at *; omega

theorem sizeMul_of_lt {a b : Nat} (h : a * b < sizeModulus) : sizeMul a b = a * b := by
  unfold sizeMul; exact Nat.mod_eq_of_lt h

theorem sizeSub_sizeAdd {x d : Nat} (hx : x < sizeModulus) : sizeSub (sizeAdd x d) d = x := by
  unfold sizeSub sizeAdd sizeModulus at *; omega

theorem sizeAdd_sizeSub {x d : Nat} (hx : x < sizeModulus) : sizeAdd (sizeSub x d) d = x := by
  unfold sizeSub sizeAdd sizeModulus at *; omega

/-- A loop in the `Option` monad preserves an invariant that every iteration preserves. -/
theorem foldlM_option_inv {α β : Type} (f : β → α → Option β) (I : β → Prop) :
    ∀ (l : List α), (∀ x ∈ l, ∀ b b1, I b → f b x = some b1 → I b1) →
      ∀ b b1, I b → l.foldlM f b = some b1 → I b1
  | [], _, b, b1, hb, h => by
    simp only [List.foldlM_nil, pure, Option.some.injEq] at h
    exact h ▸ hb
  | x :: xs, hstep, b, b1, hb, h => by
    simp only [List.foldlM_cons, bind, Option.bind] at h
    cases hfx : f b x with
    | none => rw [hfx] at h; cases h
    | some b2 =>
      rw [hfx] at h
      exact foldlM_option_inv f I xs (fun y hy => hstep y (List.mem_cons_of_mem _ hy)) b2 b1
        (hstep x (List.mem_cons_self _ _) b b2 hb hfx) h

/-- A loop in the `Option` monad is defined when every iteration is, under an invariant. -/
theorem foldlM_option_total {α β : Type} (f : β → α → Option β) (I : β → Prop) :
    ∀ (l : List α), (∀ x ∈ l, ∀ b, I b → ∃ b1, f b x = some b1 ∧ I b1) →
      ∀ b, I b → ∃ b1, l.foldlM f b = some b1 ∧ I b1
  | [], _, b, hb => ⟨b, rfl, hb⟩
  | x :: xs, hstep, b, hb => by
    obtain ⟨b2, hfx, hb2⟩ := hstep x (List.mem_cons_self _ _) b hb
    obtain ⟨b3, h3, hb3⟩ :=
      foldlM_option_total f I xs (fun y hy => hstep y (List.mem_cons_of_mem _ hy)) b2 hb2
    refine ⟨b3, ?_, hb3⟩
    simp only [List.foldlM_cons, bind, Option.bind, hfx, h3]

namespace GpuMemoryManager

variable {A : FloatOps}

/-- The body of `allocateDynamic` with fuel left. -/
theorem allocateDynamic_succ (fuel tensorIdx : Nat) (s0 : Search A) :
    allocateDynamic A (fuel + 1) tensorIdx s0
      = if tensorIdx = s0.dynamicTensors.length then
          Search.score { s0 with dynamicCalls := s0.dynamicCalls + 1 }
        else
          (List.range s0.availableMemory.length).foldlM (dynamicIter A fuel tensorIdx)
            { s0 with dynamicCalls := s0.dynamicCalls + 1 } := rfl

/-- The body of `allocateStatic` with fuel left. -/
theorem allocateStatic_succ (fuel tensorIdx : Nat) (s0 : Search A) :
    allocateStatic A (fuel + 1) tensorIdx s0
      = if tensorIdx = s0.staticTensors.length then
          allocateDynamic A (s0.dynamicTensors.length + 1) 0
            { s0 with staticCalls := s0.staticCalls + 1 }
        else
          (List.range s0.availableMemory.length).foldlM (staticIter A fuel tensorIdx)
            { s0 with staticCalls := s0.staticCalls + 1 } := rfl

theorem dynamicIter_eq_some {fuel tensorIdx p : Nat} {b b1 : Search A}
    (h : dynamicIter A fuel tensorIdx b p = some b1) :
    ∃ c r, b.dynamicChoose tensorIdx p = some c
      ∧ allocateDynamic A fuel (tensorIdx + 1) c = some r
      ∧ r.dynamicUnchoose tensorIdx p = some b1 := by
  unfold dynamicIter at h
  cases hc : b.dynamicChoose tensorIdx p with
  | none => simp [hc] at h
  | some c =>
    simp only [hc] at h
    cases hr : allocateDynamic A fuel (tensorIdx + 1) c with
    | none => simp [hr] at h
    | some r =>
      simp only [hr] at h
      exact ⟨c, r, rfl, hr, h⟩

theorem staticIter_eq_some {fuel tensorIdx p : Nat} {b b1 : Search A}
    (h : staticIter A fuel tensorIdx b p = some b1) :
    (b.staticFits tensorIdx p = some false ∧ b1 = b)
      ∨ ∃ c r, b.staticFits tensorIdx p = some true ∧ b.staticChoose tensorIdx p = some c
        ∧ allocateStatic A fuel (tensorIdx + 1) c = some r
        ∧ r.staticUnchoose tensorIdx p = some b1 := by
  unfold staticIter at h
  cases hf : b.staticFits tensorIdx p with
  | none => simp [hf] at h
  | some fits =>
    cases fits with
    | false =>
      simp only [hf, Option.some.injEq] at h
      exact Or.inl ⟨rfl, h.symm⟩
    | true =>
      simp only [hf] at h
      cases hc : b.staticChoose tensorIdx p with
      | none => simp [hc] at h
      | some c =>
        simp only [hc] at h
        cases hr : allocateStatic A fuel (tensorIdx + 1) c with
        | none => simp [hr] at h
        | some r =>
          simp only [hr] at h
          exact Or.inr ⟨c, r, rfl, rfl, hr, h⟩

/-- Proof rule for `allocateDynamic`: a property `P δ s` of the search state `s`, indexed by the
list `δ` of the segments chosen for the dynamic tensors before `tensorIdx = δ.length`, holds
after the call when it holds before and is kept by the entry, the scoring of a complete
assignment, a choice and its undoing. -/
theorem allocateDynamic_rule (P : List Nat → Search A → Prop)
    (hcall : ∀ δ (s : Search A), P δ s → P δ { s with dynamicCalls := s.dynamicCalls + 1 })
    (hscore : ∀ δ (s s1 : Search A), P δ s → δ.length = s.dynamicTensors.length →
      s.score = some s1 → P δ s1)
    (hchoose : ∀ δ (s s1 : Search A) p, P δ s →
      s.dynamicChoose δ.length p = some s1 → P (δ ++ [p]) s1)
    (hunchoose : ∀ δ (s2 s3 : Search A) p, P (δ ++ [p]) s2 →
      s2.dynamicUnchoose δ.length p = some s3 → P δ s3) :
    ∀ fuel δ (s s1 : Search A), P δ s → allocateDynamic A fuel δ.length s = some s1 → P δ s1
  | 0, _, _, _, _, h => by simp [allocateDynamic] at h
  | fuel + 1, δ, s, s1, hP, h => by
    rw [allocateDynamic_succ] at h
    split at h
    · rename_i hlen
      exact hscore δ _ s1 (hcall δ s hP) hlen h
    · refine foldlM_option_inv _ (P δ) _ ?_ _ s1 (hcall δ s hP) h
      intro p _ b b1 hb hstep
      obtain ⟨c, r, hc, hr, hu⟩ := dynamicIter_eq_some hstep
      have hr1 : allocateDynamic A fuel (δ ++ [p]).length c = some r := by simpa using hr
      exact hunchoose δ r b1 p
        (allocateDynamic_rule P hcall hscore hchoose hunchoose fuel (δ ++ [p]) c r
          (hchoose δ b c p hb hc) hr1) hu

/-- One iteration of the loop of `allocateDynamic` keeps a property that the steps of the search
keep. -/
theorem allocateDynamic_iteration (P : List Nat → Search A → Prop)
    (hcall : ∀ δ (s : Search A), P δ s → P δ { s with dynamicCalls := s.dynamicCalls + 1 })
    (hscore : ∀ δ (s s1 : Search A), P δ s → δ.length = s.dynamicTensors.length →
      s.score = some s1 → P δ s1)
    (hchoose : ∀ δ (s s1 : Search A) p, P δ s →
      s.dynamicChoose δ.length p = some s1 → P (δ ++ [p]) s1)
    (hunchoose : ∀ δ (s2 s3 : Search A) p, P (δ ++ [p]) s2 →
      s2.dynamicUnchoose δ.length p = some s3 → P δ s3)
    (fuel : Nat) (δ : List Nat) (p : Nat) (b b1 : Search A) (hb : P δ b)
    (hstep : dynamicIter A fuel δ.length b p = some b1) : P δ b1 := by
  obtain ⟨c, r, hc, hr, hu⟩ := dynamicIter_eq_some hstep
  have hr1 : allocateDynamic A fuel (δ ++ [p]).length c = some r := by simpa using hr
  exact hunchoose δ r b1 p
    (allocateDynamic_rule P hcall hscore hchoose hunchoose fuel (δ ++ [p]) c r
      (hchoose δ b c p hb hc) hr1) hu

/-- Proof rule for `allocateStatic`: a property `P σ s`, indexed by the list `σ` of the segments
chosen for the static tensors before `tensorIdx = σ.length`, holds after the call when it holds
before and is kept by the entry, the dynamic pass under a complete static assignment, a choice
that passed the capacity filter and its undoing. -/
theorem allocateStatic_rule (P : List Nat → Search A → Prop)
    (hcall : ∀ σ (s : Search A), P σ s → P σ { s with staticCalls := s.staticCalls + 1 })
    (hdynamic : ∀ σ (s s1 : Search A), P σ s → σ.length = s.staticTensors.length →
      allocateDynamic A (s.dynamicTensors.length + 1) 0 s = some s1 → P σ s1)
    (hchoose : ∀ σ (s s1 : Search A) p, P σ s → s.staticFits σ.length p = some true →
      s.staticChoose σ.length p = some s1 → P (σ ++ [p]) s1)
    (hunchoose : ∀ σ (s2 s3 : Search A) p, P (σ ++ [p]) s2 →
      s2.staticUnchoose σ.length p = some s3 → P σ s3) :
    ∀ fuel σ (s s1 : Search A), P σ s → allocateStatic A fuel σ.length s = some s1 → P σ s1
  | 0, _, _, _, _, h => by simp [allocateStatic] at h
  | fuel + 1, σ, s, s1, hP, h => by
    rw [allocateStatic_succ] at h
    split at h
    · rename_i hlen
      exact hdynamic σ _ s1 (hcall σ s hP) hlen h
    · refine foldlM_option_inv _ (P σ) _ ?_ _ s1 (hcall σ s hP) h
      intro p _ b b1 hb hstep
      rcases staticIter_eq_some hstep with ⟨_, rfl⟩ | ⟨c, r, hf, hc, hr, hu⟩
      · exact hb
      · have hr1 : allocateStatic A fuel (σ ++ [p]).length c = some r := by simpa using hr
        exact hunchoose σ r b1 p
          (allocateStatic_rule P hcall hdynamic hchoose hunchoose fuel (σ ++ [p]) c r
            (hchoose σ b c p hb hf hc) hr1) hu

/-- One iteration of the loop of `allocateStatic` keeps a property that the steps of the search
keep. -/
theorem allocateStatic_iteration (P : List Nat → Search A → Prop)
    (hcall : ∀ σ (s : Search A), P σ s → P σ { s with staticCalls := s.staticCalls + 1 })
    (hdynamic : ∀ σ (s s1 : Search A), P σ s → σ.length = s.staticTensors.length →
      allocateDynamic A (s.dynamicTensors.length + 1) 0 s = some s1 → P σ s1)
    (hchoose : ∀ σ (s s1 : Search A) p, P σ s → s.staticFits σ.length p = some true →
      s.staticChoose σ.length p = some s1 → P (σ ++ [p]) s1)
    (hunchoose : ∀ σ (s2 s3 : Search A) p, P (σ ++ [p]) s2 →
      s2.staticUnchoose σ.length p = some s3 → P σ s3)
    (fuel : Nat) (σ : List Nat) (p : Nat) (b b1 : Search A) (hb : P σ b)
    (hstep : staticIter A fuel σ.length b p = some b1) : P σ b1 := by
  rcases staticIter_eq_some hstep with ⟨_, rfl⟩ | ⟨c, r, hf, hc, hr, hu⟩
  · exact hb
  · have hr1 : allocateStatic A fuel (σ ++ [p]).length c = some r := by simpa using hr
    exact hunchoose σ r b1 p
      (allocateStatic_rule P hcall hdynamic hchoose hunchoose fuel (σ ++ [p]) c r
        (hchoose σ b c p hb hf hc) hr1) hu

/-- A loop in the `Option` monad reaches `Q` when every iteration keeps `I`, the iteration for
some `x` of the list leads from `I` to `Q`, and every iteration keeps `Q`. -/
theorem foldlM_option_progress {α β : Type} (f : β → α → Option β) (I Q : β → Prop) (x : α) :
    ∀ (l : List α), x ∈ l → (∀ y ∈ l, ∀ b b1, I b → f b y = some b1 → I b1) →
      (∀ b b1, I b → f b x = some b1 → Q b1) →
      (∀ y ∈ l, ∀ b b1, Q b → f b y = some b1 → Q b1) →
      ∀ b b1, I b → l.foldlM f b = some b1 → Q b1
  | [], hx, _, _, _, _, _, _, _ => by simp at hx
  | y :: ys, hx, hI, hxQ, hQ, b, b1, hb, h => by
    simp only [List.foldlM_cons, bind, Option.bind] at h
    cases hfy : f b y with
    | none => rw [hfy] at h; cases h
    | some b2 =>
      rw [hfy] at h
      by_cases hxy : x = y
      · subst hxy
        exact foldlM_option_inv f Q ys (fun z hz => hQ z (List.mem_cons_of_mem _ hz)) b2 b1
          (hxQ b b2 hb hfy) h
      · have hx1 : x ∈ ys := by
          rcases List.mem_cons.mp hx with h1 | h1
          · exact absurd h1 hxy
          · exact h1
        exact foldlM_option_progress f I Q x ys hx1
          (fun z hz => hI z (List.mem_cons_of_mem _ hz)) hxQ
          (fun z hz => hQ z (List.mem_cons_of_mem _ hz)) b2 b1
          (hI y (List.mem_cons_self _ _) b b2 hb hfy) h

end GpuMemoryManager

namespace GpuMemoryManager

variable {A : FloatOps}

/-! ### Sums of assigned sizes -/

@[simp] theorem assignedSum_nil_left (sizes : List Nat) (p : Nat) : assignedSum [] sizes p = 0 := by
  simp [assignedSum]

@[simp] theorem assignedSum_nil_right (plan : List (Option Nat)) (p : Nat) :
    assignedSum plan [] p = 0 := by
  simp [assignedSum]

theorem assignedSum_cons (x : Option Nat) (plan : List (Option Nat)) (t : Nat) (ts : List Nat)
    (p : Nat) :
    assignedSum (x :: plan) (t :: ts) p = (if x = some p then t else 0) + assignedSum plan ts p := by
  by_cases h : x = some p
  · simp [assignedSum, List.filter_cons, h]
  · simp [assignedSum, List.filter_cons, h]

theorem assignedSum_append (l₁ l₂ : List (Option Nat)) (r₁ r₂ : List Nat) (p : Nat)
    (h : l₁.length = r₁.length) :
    assignedSum (l₁ ++ l₂) (r₁ ++ r₂) p = assignedSum l₁ r₁ p + assignedSum l₂ r₂ p := by
  simp [assignedSum, List.zip_append h]

theorem assignedSum_take (l : List (Option Nat)) (sizes : List Nat) (p : Nat) :
    assignedSum l (sizes.take l.length) p = assignedSum l sizes p := by
  induction l generalizing sizes with
  | nil => simp
  | cons x xs ih =>
    cases sizes with
    | nil => simp
    | cons t ts => simp [assignedSum_cons, ih]

/-- Extending a plan by one tensor adds the size of that tensor to the segment it goes to. -/
theorem assignedSum_snoc (l : List (Option Nat)) (x : Option Nat) (sizes : List Nat) (p t : Nat)
    (ht : sizes[l.length]? = some t) :
    assignedSum (l ++ [x]) sizes p = assignedSum l sizes p + (if x = some p then t else 0) := by
  obtain ⟨hlt, hget⟩ := List.getElem?_eq_some.mp ht
  have hsplit : sizes = sizes.take l.length ++ (t :: sizes.drop (l.length + 1)) := by
    rw [← hget, ← List.drop_eq_getElem_cons hlt, List.take_append_drop]
  have hlen : l.length = (sizes.take l.length).length := by
    simp [List.length_take]; omega
  conv_lhs => rw [hsplit]
  rw [assignedSum_append _ _ _ _ _ hlen, assignedSum_take, assignedSum_cons]
  simp

theorem assignedSum_le_sum (l : List (Option Nat)) (sizes : List Nat) (p : Nat) :
    assignedSum l sizes p ≤ sizes.sum := by
  induction l generalizing sizes with
  | nil => simp
  | cons x xs ih =>
    cases sizes with
    | nil => simp
    | cons t ts =>
      rw [assignedSum_cons, List.sum_cons]
      have := ih ts
      split <;> omega

end GpuMemoryManager

namespace GpuMemoryManager

variable {A : FloatOps}

/-! ### The steps of the search, field by field -/

namespace Search

theorem dynamicChoose_eq_some {s s1 : Search A} {i p : Nat} (h : s.dynamicChoose i p = some s1) :
    ∃ t m, s.dynamicTensors[i]? = some t ∧ s.availableMemory[p]? = some m ∧
      s1 = { s with
        dynamicTensors := s.dynamicTensors.set i { t with memoryPtr := some p }
        availableMemory := s.availableMemory.set p
          { m with ratio := A.sub m.ratio t.ratio, dynamicSize := sizeAdd m.dynamicSize t.size } } := by
  unfold dynamicChoose at h
  split at h
  · rename_i t m ht hm
    exact ⟨t, m, ht, hm, (Option.some.inj h).symm⟩
  · cases h

theorem dynamicUnchoose_eq_some {s s1 : Search A} {i p : Nat}
    (h : s.dynamicUnchoose i p = some s1) :
    ∃ t m, s.dynamicTensors[i]? = some t ∧ s.availableMemory[p]? = some m ∧
      s1 = { s with
        availableMemory := s.availableMemory.set p
          { m with ratio := A.add m.ratio t.ratio, dynamicSize := sizeSub m.dynamicSize t.size } } := by
  unfold dynamicUnchoose at h
  split at h
  · rename_i t m ht hm
    exact ⟨t, m, ht, hm, (Option.some.inj h).symm⟩
  · cases h

theorem staticFits_eq_some {s : Search A} {i p : Nat} {b : Bool} (h : s.staticFits i p = some b) :
    ∃ t m, s.staticTensors[i]? = some t ∧ s.availableMemory[p]? = some m ∧
      b = decide (m.size ≥ t.size) := by
  unfold staticFits at h
  split at h
  · rename_i t m ht hm
    exact ⟨t, m, ht, hm, (Option.some.inj h).symm⟩
  · cases h

theorem staticChoose_eq_some {s s1 : Search A} {i p : Nat} (h : s.staticChoose i p = some s1) :
    ∃ t m, s.staticTensors[i]? = some t ∧ s.availableMemory[p]? = some m ∧
      s1 = { s with
        staticTensors := s.staticTensors.set i { t with memoryPtr := some p }
        availableMemory := s.availableMemory.set p
          { m with ratio := A.sub m.ratio t.ratio, size := sizeSub m.size t.size } } := by
  unfold staticChoose at h
  split at h
  · rename_i t m ht hm
    exact ⟨t, m, ht, hm, (Option.some.inj h).symm⟩
  · cases h

theorem staticUnchoose_eq_some {s s1 : Search A} {i p : Nat}
    (h : s.staticUnchoose i p = some s1) :
    ∃ t m, s.staticTensors[i]? = some t ∧ s.availableMemory[p]? = some m ∧
      s1 = { s with
        availableMemory := s.availableMemory.set p
          { m with ratio := A.add m.ratio t.ratio, size := sizeAdd m.size t.size } } := by
  unfold staticUnchoose at h
  split at h
  · rename_i t m ht hm
    exact ⟨t, m, ht, hm, (Option.some.inj h).symm⟩
  · cases h

end Search

/-! ### Recording a complete assignment -/

/-- Writing `g n` at index `n + off` after the entries `off, ..., off + n - 1` have been
written. -/
theorem set_range_map {β : Type} (g : Nat → β) (off n : Nat) (l : List β)
    (h : off + n < l.length) :
    (l.take off ++ (List.range n).map g ++ l.drop (off + n)).set (n + off) (g n)
      = l.take off ++ (List.range (n + 1)).map g ++ l.drop (off + (n + 1)) := by
  have hlen : (l.take off ++ (List.range n).map g ++ l.drop (off + n)).length = l.length := by
    simp [List.length_take, List.length_drop]; omega
  apply List.ext_getElem?
  intro j
  rw [List.getElem?_set]
  by_cases hj : n + off = j
  · subst hj
    rw [if_pos rfl, if_pos (by rw [hlen]; omega)]
    rw [List.getElem?_append_left (by simp [List.length_take]; omega),
      List.getElem?_append_right (by simp [List.length_take])]
    simp [List.length_take, Nat.min_eq_left (show off ≤ l.length by omega), List.range_succ]
  · rw [if_neg hj]
    by_cases hj1 : j < off
    · rw [List.getElem?_append_left (by simp [List.length_take]; omega),
        List.getElem?_append_left (by simp [List.length_take]; omega),
        List.getElem?_append_left (by simp [List.length_take]; omega),
        List.getElem?_append_left (by simp [List.length_take]; omega)]
    · by_cases hj2 : j < off + n
      · rw [List.getElem?_append_left (by simp [List.length_take]; omega),
          List.getElem?_append_right (by simp [List.length_take]; omega),
          List.getElem?_append_left (by simp [List.length_take]; omega),
          List.getElem?_append_right (by simp [List.length_take]; omega)]
        simp only [List.length_take, Nat.min_eq_left (show off ≤ l.length by omega),
          List.range_succ, List.map_append]
        rw [List.getElem?_append_left (by simp; omega)]
      · rw [List.getElem?_append_right (by simp [List.length_take]; omega),
          List.getElem?_append_right (by simp [List.length_take]; omega)]
        simp only [List.length_append, List.length_take, List.length_map, List.length_range,
          Nat.min_eq_left (show off ≤ l.length by omega), List.getElem?_drop,
          List.length_cons, List.length_nil]
        congr 1
        omega

theorem map_ptrAt_range (ts : List (TensorData A)) :
    (List.range ts.length).map (ptrAt ts) = ts.map fun t => t.memoryPtr := by
  apply List.ext_getElem?
  intro j
  by_cases hj : j < ts.length
  · simp [ptrAt, List.getElem?_range hj, List.getElem?_eq_getElem hj]
  · rw [List.getElem?_eq_none (by simpa using hj), List.getElem?_eq_none (by simpa using hj)]

theorem recordStatic_loop (s : Search A) :
    ∀ n, n ≤ s.staticTensors.length → n ≤ s.bestCombination.length →
      (List.range n).foldlM
          (fun (s : Search A) i =>
            match s.staticTensors[i]? with
            | none => none
            | some t =>
              if i < s.bestCombination.length then
                some { s with bestCombination := s.bestCombination.set i t.memoryPtr }
              else none)
          s
        = some { s with
            bestCombination :=
              s.bestCombination.take 0 ++ (List.range n).map (ptrAt s.staticTensors)
                ++ s.bestCombination.drop (0 + n) }
  | 0, _, _ => by simp
  | n + 1, h1, h2 => by
    rw [List.range_succ, List.foldlM_append, recordStatic_loop s n (by omega) (by omega)]
    simp only [bind, Option.bind, List.foldlM_cons, List.foldlM_nil, pure]
    have hn : s.staticTensors[n]? = some (s.staticTensors[n]) := List.getElem?_eq_getElem h1
    have hlen : (s.bestCombination.take 0 ++ (List.range n).map (ptrAt s.staticTensors)
        ++ s.bestCombination.drop (0 + n)).length = s.bestCombination.length := by
      simp [List.length_drop]; omega
    simp only [hn]
    rw [if_pos (by rw [hlen]; omega)]
    show some _ = some _
    congr 1
    have hset := set_range_map (ptrAt s.staticTensors) 0 n s.bestCombination (by omega)
    simp only [Nat.add_zero] at hset
    have hp : ptrAt s.staticTensors n = (s.staticTensors[n]).memoryPtr := by
      simp [ptrAt, hn]
    rw [← hp, hset, ← List.range_succ]

/-- Lines 148-149 copy the pointers of the static tensors to the front of `bestCombination`. -/
theorem recordStatic_eq (s : Search A) (h : s.staticTensors.length ≤ s.bestCombination.length) :
    s.recordStatic = some { s with
      bestCombination := (s.staticTensors.map fun t => t.memoryPtr)
        ++ s.bestCombination.drop s.staticTensors.length } := by
  unfold Search.recordStatic
  refine (recordStatic_loop s s.staticTensors.length (Nat.le_refl _) h).trans ?_
  rw [map_ptrAt_range]
  simp

theorem recordDynamic_loop (s : Search A) :
    ∀ n, n ≤ s.dynamicTensors.length →
      s.staticTensors.length + n ≤ s.bestCombination.length →
      (List.range n).foldlM
          (fun (s : Search A) i =>
            match s.dynamicTensors[i]? with
            | none => none
            | some t =>
              if i + s.staticTensors.length < s.bestCombination.length then
                some { s with
                  bestCombination :=
                    s.bestCombination.set (i + s.staticTensors.length) t.memoryPtr }
              else none)
          s
        = some { s with
            bestCombination :=
              s.bestCombination.take s.staticTensors.length
                ++ (List.range n).map (ptrAt s.dynamicTensors)
                ++ s.bestCombination.drop (s.staticTensors.length + n) }
  | 0, _, _ => by simp
  | n + 1, h1, h2 => by
    rw [List.range_succ, List.foldlM_append, recordDynamic_loop s n (by omega) (by omega)]
    simp only [bind, Option.bind, List.foldlM_cons, List.foldlM_nil, pure]
    have hn : s.dynamicTensors[n]? = some (s.dynamicTensors[n]) := List.getElem?_eq_getElem h1
    have hlen : (s.bestCombination.take s.staticTensors.length
        ++ (List.range n).map (ptrAt s.dynamicTensors)
        ++ s.bestCombination.drop (s.staticTensors.length + n)).length
          = s.bestCombination.length := by
      simp [List.length_take, List.length_drop]; omega
    simp only [hn]
    rw [if_pos (by rw [hlen]; omega)]
    show some _ = some _
    congr 1
    have hset := set_range_map (ptrAt s.dynamicTensors) s.staticTensors.length n
      s.bestCombination (by omega)
    have hp : ptrAt s.dynamicTensors n = (s.dynamicTensors[n]).memoryPtr := by
      simp [ptrAt, hn]
    rw [← hp, hset, ← List.range_succ]

/-- Lines 150-151 copy the pointers of the dynamic tensors behind those of the static ones. -/
theorem recordDynamic_eq (s : Search A)
    (h : s.staticTensors.length + s.dynamicTensors.length ≤ s.bestCombination.length) :
    s.recordDynamic = some { s with
      bestCombination := s.bestCombination.take s.staticTensors.length
        ++ (s.dynamicTensors.map fun t => t.memoryPtr)
        ++ s.bestCombination.drop (s.staticTensors.length + s.dynamicTensors.length) } := by
  unfold Search.recordDynamic
  refine (recordDynamic_loop s s.dynamicTensors.length (Nat.le_refl _) h).trans ?_
  rw [map_ptrAt_range]

/-- The scoring of a complete assignment (lines 121-153), in closed form: when the scanned
ratio beats `largestRatio`, the batch count, the ratio and the whole plan are replaced. -/
theorem score_eq (s : Search A)
    (h : s.bestCombination.length = s.staticTensors.length + s.dynamicTensors.length) :
    s.score = some
      (if A.lt s.largestRatio s.smallest.1 then
        { s with
          largestN := if s.smallest.2.2 > 0 then s.smallest.2.1 / s.smallest.2.2 else s.largestN
          largestRatio := s.smallest.1
          bestCombination := (s.staticTensors.map fun t => t.memoryPtr)
            ++ (s.dynamicTensors.map fun t => t.memoryPtr)
          scored := s.scored ++ [s.pointers] }
      else { s with scored := s.scored ++ [s.pointers] }) := by
  unfold Search.score
  have hsm : Search.smallest { s with scored := s.scored ++ [s.pointers] } = s.smallest := rfl
  simp only [hsm]
  by_cases hlt : A.lt s.largestRatio s.smallest.1 = true
  · simp only [hlt, if_true]
    rw [recordStatic_eq _ (by simp only []; omega)]
    simp only []
    rw [recordDynamic_eq _ (by simp [List.length_drop]; omega)]
    simp only [Option.some.injEq]
    congr 1
    simp [List.take_append_eq_append_take, List.drop_append_eq_append_drop, h,
      List.take_of_length_le, List.drop_of_length_le]
  · simp only [hlt]
    simp

end GpuMemoryManager

namespace GpuMemoryManager

variable {A : FloatOps}

/-! ### The core invariant of the search -/

namespace Core

variable {s0 s : Search A} {σ δ : List Nat}

theorem static_size_at (h : Core s0 σ δ s) {i : Nat} {t : TensorData A}
    (ht : s.staticTensors[i]? = some t) : s0.staticSizes[i]? = some t.size := by
  obtain ⟨t0, h0, _, hs, _⟩ := h.static_fixed i t ht
  simp [staticSizes, h0, hs]

theorem dynamic_size_at (h : Core s0 σ δ s) {i : Nat} {t : TensorData A}
    (ht : s.dynamicTensors[i]? = some t) : s0.dynamicSizes[i]? = some t.size := by
  obtain ⟨t0, h0, _, hs, _⟩ := h.dynamic_fixed i t ht
  simp [dynamicSizes, h0, hs]

theorem static_sum_snoc (h : Core s0 σ δ s) (τ : List Nat) {t : TensorData A} (p q : Nat)
    (ht : s.staticTensors[τ.length]? = some t) :
    assignedSum ((τ ++ [p]).map some) s0.staticSizes q
      = assignedSum (τ.map some) s0.staticSizes q + (if p = q then t.size else 0) := by
  have := assignedSum_snoc (τ.map some) (some p) s0.staticSizes q t.size
    (by simpa using h.static_size_at ht)
  simpa using this

theorem dynamic_sum_snoc (h : Core s0 σ δ s) (τ : List Nat) {t : TensorData A} (p q : Nat)
    (ht : s.dynamicTensors[τ.length]? = some t) :
    assignedSum ((τ ++ [p]).map some) s0.dynamicSizes q
      = assignedSum (τ.map some) s0.dynamicSizes q + (if p = q then t.size else 0) := by
  have := assignedSum_snoc (τ.map some) (some p) s0.dynamicSizes q t.size
    (by simpa using h.dynamic_size_at ht)
  simpa using this

theorem size_lt (h : Core s0 σ δ s) {p : Nat} {m : MemoryData A}
    (hm : s.availableMemory[p]? = some m) : m.size < sizeModulus := by
  obtain ⟨m0, h0, hrel⟩ := h.seg p m hm
  have := (h.wf m0 (List.getElem?_mem h0)).1
  have := hrel.size
  omega

/-- Entering `allocateDynamic` keeps the invariant. -/
theorem dynamicCall (h : Core s0 σ δ s) :
    Core s0 σ δ { s with dynamicCalls := s.dynamicCalls + 1 } :=
  { h with }

/-- Entering `allocateStatic` keeps the invariant. -/
theorem staticCall (h : Core s0 σ δ s) :
    Core s0 σ δ { s with staticCalls := s.staticCalls + 1 } :=
  { h with }

/-- Scoring a complete assignment keeps the invariant. -/
theorem score (h : Core s0 σ δ s) {s1 : Search A} (hs : s.score = some s1) : Core s0 σ δ s1 := by
  rw [score_eq s (by rw [h.best_len, h.static_len, h.dynamic_len])] at hs
  have hs1 := (Option.some.inj hs).symm
  split at hs1
  · subst hs1
    exact { h with
      best_len := by
        simp only [List.length_append, List.length_map]
        rw [h.static_len, h.dynamic_len] }
  · subst hs1
    exact { h with }

/-- Choosing segment `p` for the next dynamic tensor keeps the invariant, with `δ` extended. -/
theorem dynamicChoose (h : Core s0 σ δ s) {s1 : Search A} {p : Nat}
    (hc : s.dynamicChoose δ.length p = some s1) : Core s0 σ (δ ++ [p]) s1 := by
  obtain ⟨t, m, ht, hm, rfl⟩ := Search.dynamicChoose_eq_some hc
  have hp : p < s.availableMemory.length := (List.getElem?_eq_some.mp hm).1
  have hi : δ.length < s.dynamicTensors.length := (List.getElem?_eq_some.mp ht).1
  refine
    { wf := h.wf
      mem_len := by simp [h.mem_len]
      seg := ?_
      static_len := h.static_len
      static_fixed := h.static_fixed
      dynamic_len := by simp [h.dynamic_len]
      dynamic_fixed := ?_
      static_ptr := h.static_ptr
      dynamic_ptr := ?_
      best_len := h.best_len
      static_valid := h.static_valid
      dynamic_valid := ?_ }
  · intro q mq hq
    simp only [List.getElem?_set] at hq
    by_cases hpq : p = q
    · subst hpq
      rw [if_pos rfl, if_pos hp] at hq
      obtain ⟨m0, h0, hrel⟩ := h.seg p m hm
      refine ⟨m0, h0, ?_⟩
      have hsum := h.dynamic_sum_snoc δ p p ht
      rw [if_pos rfl] at hsum
      cases hq
      refine ⟨hrel.address, hrel.size, ?_⟩
      simp only [hsum, hrel.dynamicSize, sizeAdd, sizeModulus]
      omega
    · rw [if_neg hpq] at hq
      obtain ⟨m0, h0, hrel⟩ := h.seg q mq hq
      refine ⟨m0, h0, ?_⟩
      have hsum := h.dynamic_sum_snoc δ p q ht
      rw [if_neg hpq] at hsum
      exact ⟨hrel.address, hrel.size, by rw [hsum]; exact hrel.dynamicSize⟩
  · intro i ti hti
    simp only [List.getElem?_set] at hti
    by_cases hii : δ.length = i
    · subst hii
      rw [if_pos rfl, if_pos hi] at hti
      cases hti
      exact h.dynamic_fixed _ t ht
    · rw [if_neg hii] at hti
      exact h.dynamic_fixed i ti hti
  · intro i x hx
    by_cases hii : i < δ.length
    · rw [List.getElem?_append_left hii] at hx
      obtain ⟨ti, hti, hptr⟩ := h.dynamic_ptr i x hx
      refine ⟨ti, ?_, hptr⟩
      simp only [List.getElem?_set]
      rw [if_neg (by omega)]
      exact hti
    · rw [List.getElem?_append_right (by omega)] at hx
      have hi0 : i = δ.length := by
        by_contra hne
        have : i - δ.length ≠ 0 := by omega
        obtain ⟨k, hk⟩ := Nat.exists_eq_succ_of_ne_zero this
        rw [hk] at hx
        simp at hx
      subst hi0
      simp only [Nat.sub_self, List.getElem?_cons_zero, Option.some.injEq] at hx
      subst hx
      refine ⟨{ t with memoryPtr := some p }, ?_, rfl⟩
      simp only [List.getElem?_set]
      simp [hi]
  · intro x hx
    rcases List.mem_append.mp hx with hx | hx
    · exact h.dynamic_valid x hx
    · simp only [List.mem_singleton] at hx
      subst hx
      rw [← h.mem_len]
      exact hp

/-- Undoing the choice of segment `p` for a dynamic tensor keeps the invariant, with `δ`
shortened. -/
theorem dynamicUnchoose {s2 s3 : Search A} {p : Nat} (h : Core s0 σ (δ ++ [p]) s2)
    (hu : s2.dynamicUnchoose δ.length p = some s3) : Core s0 σ δ s3 := by
  obtain ⟨t, m, ht, hm, rfl⟩ := Search.dynamicUnchoose_eq_some hu
  have hp : p < s2.availableMemory.length := (List.getElem?_eq_some.mp hm).1
  refine
    { wf := h.wf
      mem_len := by simp [h.mem_len]
      seg := ?_
      static_len := h.static_len
      static_fixed := h.static_fixed
      dynamic_len := h.dynamic_len
      dynamic_fixed := h.dynamic_fixed
      static_ptr := h.static_ptr
      dynamic_ptr := ?_
      best_len := h.best_len
      static_valid := h.static_valid
      dynamic_valid := fun x hx => h.dynamic_valid x (List.mem_append_left _ hx) }
  · intro q mq hq
    simp only [List.getElem?_set] at hq
    by_cases hpq : p = q
    · subst hpq
      rw [if_pos rfl, if_pos hp] at hq
      obtain ⟨m0, h0, hrel⟩ := h.seg p m hm
      refine ⟨m0, h0, ?_⟩
      have hsum := h.dynamic_sum_snoc δ p p ht
      rw [if_pos rfl] at hsum
      cases hq
      refine ⟨hrel.address, hrel.size, ?_⟩
      have hd := hrel.dynamicSize
      rw [hsum] at hd
      simp only [hd, sizeSub, sizeModulus]
      omega
    · rw [if_neg hpq] at hq
      obtain ⟨m0, h0, hrel⟩ := h.seg q mq hq
      refine ⟨m0, h0, ?_⟩
      have hsum := h.dynamic_sum_snoc δ p q ht
      rw [if_neg hpq] at hsum
      rw [Nat.add_zero] at hsum
      exact ⟨hrel.address, hrel.size, by rw [← hsum]; exact hrel.dynamicSize⟩
  · intro i x hx
    have hi : i < δ.length := (List.getElem?_eq_some.mp hx).1
    exact h.dynamic_ptr i x (by rw [List.getElem?_append_left hi]; exact hx)

/-- Choosing a segment `p` that passed the capacity filter for the next static tensor keeps the
invariant, with `σ` extended. -/
theorem staticChoose (h : Core s0 σ δ s) {s1 : Search A} {p : Nat}
    (hf : s.staticFits σ.length p = some true)
    (hc : s.staticChoose σ.length p = some s1) : Core s0 (σ ++ [p]) δ s1 := by
  obtain ⟨t, m, ht, hm, rfl⟩ := Search.staticChoose_eq_some hc
  obtain ⟨t', m', ht', hm', hfit⟩ := Search.staticFits_eq_some hf
  rw [ht] at ht'
  rw [hm] at hm'
  cases ht'
  cases hm'
  have hge : t.size ≤ m.size := by simpa using hfit.symm
  have hp : p < s.availableMemory.length := (List.getElem?_eq_some.mp hm).1
  have hi : σ.length < s.staticTensors.length := (List.getElem?_eq_some.mp ht).1
  refine
    { wf := h.wf
      mem_len := by simp [h.mem_len]
      seg := ?_
      static_len := by simp [h.static_len]
      static_fixed := ?_
      dynamic_len := h.dynamic_len
      dynamic_fixed := h.dynamic_fixed
      static_ptr := ?_
      dynamic_ptr := h.dynamic_ptr
      best_len := h.best_len
      static_valid := ?_
      dynamic_valid := h.dynamic_valid }
  · intro q mq hq
    simp only [List.getElem?_set] at hq
    by_cases hpq : p = q
    · subst hpq
      rw [if_pos rfl, if_pos hp] at hq
      obtain ⟨m0, h0, hrel⟩ := h.seg p m hm
      refine ⟨m0, h0, ?_⟩
      have hsum := h.static_sum_snoc σ p p ht
      rw [if_pos rfl] at hsum
      cases hq
      refine ⟨hrel.address, ?_, hrel.dynamicSize⟩
      have hsz := hrel.size
      have hlt := h.size_lt hm
      simp only [hsum, sizeSub_of_le hge hlt]
      omega
    · rw [if_neg hpq] at hq
      obtain ⟨m0, h0, hrel⟩ := h.seg q mq hq
      refine ⟨m0, h0, ?_⟩
      have hsum := h.static_sum_snoc σ p q ht
      rw [if_neg hpq] at hsum
      exact ⟨hrel.address, by rw [hsum]; exact hrel.size, hrel.dynamicSize⟩
  · intro i ti hti
    simp only [List.getElem?_set] at hti
    by_cases hii : σ.length = i
    · subst hii
      rw [if_pos rfl, if_pos hi] at hti
      cases hti
      exact h.static_fixed _ t ht
    · rw [if_neg hii] at hti
      exact h.static_fixed i ti hti
  · intro i x hx
    by_cases hii : i < σ.length
    · rw [List.getElem?_append_left hii] at hx
      obtain ⟨ti, hti, hptr⟩ := h.static_ptr i x hx
      refine ⟨ti, ?_, hptr⟩
      simp only [List.getElem?_set]
      rw [if_neg (by omega)]
      exact hti
    · rw [List.getElem?_append_right (by omega)] at hx
      have hi0 : i = σ.length := by
        by_contra hne
        have : i - σ.length ≠ 0 := by omega
        obtain ⟨k, hk⟩ := Nat.exists_eq_succ_of_ne_zero this
        rw [hk] at hx
        simp at hx
      subst hi0
      simp only [Nat.sub_self, List.getElem?_cons_zero, Option.some.injEq] at hx
      subst hx
      refine ⟨{ t with memoryPtr := some p }, ?_, rfl⟩
      simp only [List.getElem?_set]
      simp [hi]
  · intro x hx
    rcases List.mem_append.mp hx with hx | hx
    · exact h.static_valid x hx
    · simp only [List.mem_singleton] at hx
      subst hx
      rw [← h.mem_len]
      exact hp

/-- Undoing the choice of segment `p` for a static tensor keeps the invariant, with `σ`
shortened. -/
theorem staticUnchoose {s2 s3 : Search A} {p : Nat} (h : Core s0 (σ ++ [p]) δ s2)
    (hu : s2.staticUnchoose σ.length p = some s3) : Core s0 σ δ s3 := by
  obtain ⟨t, m, ht, hm, rfl⟩ := Search.staticUnchoose_eq_some hu
  have hp : p < s2.availableMemory.length := (List.getElem?_eq_some.mp hm).1
  refine
    { wf := h.wf
      mem_len := by simp [h.mem_len]
      seg := ?_
      static_len := h.static_len
      static_fixed := h.static_fixed
      dynamic_len := h.dynamic_len
      dynamic_fixed := h.dynamic_fixed
      static_ptr := ?_
      dynamic_ptr := h.dynamic_ptr
      best_len := h.best_len
      static_valid := fun x hx => h.static_valid x (List.mem_append_left _ hx)
      dynamic_valid := h.dynamic_valid }
  · intro q mq hq
    simp only [List.getElem?_set] at hq
    by_cases hpq : p = q
    · subst hpq
      rw [if_pos rfl, if_pos hp] at hq
      obtain ⟨m0, h0, hrel⟩ := h.seg p m hm
      refine ⟨m0, h0, ?_⟩
      have hsum := h.static_sum_snoc σ p p ht
      rw [if_pos rfl] at hsum
      cases hq
      refine ⟨hrel.address, ?_, hrel.dynamicSize⟩
      have hsz := hrel.size
      rw [hsum] at hsz
      have hwf := (h.wf m0 (List.getElem?_mem h0)).1
      simp only [sizeAdd_of_lt (show m.size + t.size < sizeModulus by omega)]
      omega
    · rw [if_neg hpq] at hq
      obtain ⟨m0, h0, hrel⟩ := h.seg q mq hq
      refine ⟨m0, h0, ?_⟩
      have hsum := h.static_sum_snoc σ p q ht
      rw [if_neg hpq] at hsum
      rw [Nat.add_zero] at hsum
      exact ⟨hrel.address, by rw [← hsum]; exact hrel.size, hrel.dynamicSize⟩
  · intro i x hx
    have hi : i < σ.length := (List.getElem?_eq_some.mp hx).1
    exact h.static_ptr i x (by rw [List.getElem?_append_left hi]; exact hx)

end Core

end GpuMemoryManager

namespace GpuMemoryManager

variable {A : FloatOps}

namespace Core

variable {s0 s : Search A} {σ δ : List Nat}

theorem static_le (h : Core s0 σ δ s) : σ.length ≤ s.staticTensors.length := by
  cases hσ : σ.length with
  | zero => omega
  | succ k =>
    have hk : k < σ.length := by omega
    obtain ⟨t, ht, _⟩ := h.static_ptr k (σ[k]) (List.getElem?_eq_getElem hk)
    have := (List.getElem?_eq_some.mp ht).1
    omega

theorem dynamic_le (h : Core s0 σ δ s) : δ.length ≤ s.dynamicTensors.length := by
  cases hδ : δ.length with
  | zero => omega
  | succ k =>
    have hk : k < δ.length := by omega
    obtain ⟨t, ht, _⟩ := h.dynamic_ptr k (δ[k]) (List.getElem?_eq_getElem hk)
    have := (List.getElem?_eq_some.mp ht).1
    omega

/-- The invariant holds at the start of the search. -/
theorem init (s0 : Search A)
    (hwf : ∀ m0 ∈ s0.availableMemory, m0.size < sizeModulus ∧ m0.dynamicSize < sizeModulus)
    (hbest : s0.bestCombination.length = s0.staticTensors.length + s0.dynamicTensors.length) :
    Core s0 [] [] s0 where
  wf := hwf
  mem_len := rfl
  seg := fun p m hm =>
    ⟨m, hm, rfl, by simp, by
      simp only [List.map_nil, assignedSum_nil_left, Nat.add_zero]
      exact (Nat.mod_eq_of_lt (hwf m (List.getElem?_mem hm)).2).symm⟩
  static_len := rfl
  static_fixed := fun _ t ht => ⟨t, ht, rfl, rfl, rfl⟩
  dynamic_len := rfl
  dynamic_fixed := fun _ t ht => ⟨t, ht, rfl, rfl, rfl⟩
  static_ptr := fun i x hx => by simp at hx
  dynamic_ptr := fun i x hx => by simp at hx
  best_len := hbest
  static_valid := fun x hx => by simp at hx
  dynamic_valid := fun x hx => by simp at hx

end Core

/-- `allocateDynamic` keeps the core invariant. -/
theorem allocateDynamic_core {s0 : Search A} {σ : List Nat} (fuel : Nat) (δ : List Nat)
    (s s1 : Search A) (h : Core s0 σ δ s) (hr : allocateDynamic A fuel δ.length s = some s1) :
    Core s0 σ δ s1 :=
  allocateDynamic_rule (fun δ s => Core s0 σ δ s)
    (fun _ _ h => h.dynamicCall)
    (fun _ _ _ h _ hs => h.score hs)
    (fun _ _ _ _ h hc => h.dynamicChoose hc)
    (fun _ _ _ _ h hu => h.dynamicUnchoose hu)
    fuel δ s s1 h hr

/-- `allocateStatic` keeps the core invariant. -/
theorem allocateStatic_core {s0 : Search A} (fuel : Nat) (σ : List Nat)
    (s s1 : Search A) (h : Core s0 σ [] s) (hr : allocateStatic A fuel σ.length s = some s1) :
    Core s0 σ [] s1 :=
  allocateStatic_rule (fun σ s => Core s0 σ [] s)
    (fun _ _ h => h.staticCall)
    (fun _ s s1 h _ hd => allocateDynamic_core (s.dynamicTensors.length + 1) [] s s1 h hd)
    (fun _ _ _ _ h hf hc => h.staticChoose hf hc)
    (fun _ _ _ _ h hu => h.staticUnchoose hu)
    fuel σ s s1 h hr

namespace Search

theorem dynamicChoose_defined (s : Search A) {i p : Nat} (hi : i < s.dynamicTensors.length)
    (hp : p < s.availableMemory.length) : ∃ s1, s.dynamicChoose i p = some s1 := by
  simp [dynamicChoose, List.getElem?_eq_getElem hi, List.getElem?_eq_getElem hp]

theorem dynamicUnchoose_defined (s : Search A) {i p : Nat} (hi : i < s.dynamicTensors.length)
    (hp : p < s.availableMemory.length) : ∃ s1, s.dynamicUnchoose i p = some s1 := by
  simp [dynamicUnchoose, List.getElem?_eq_getElem hi, List.getElem?_eq_getElem hp]

theorem staticFits_defined (s : Search A) {i p : Nat} (hi : i < s.staticTensors.length)
    (hp : p < s.availableMemory.length) : ∃ b, s.staticFits i p = some b := by
  simp [staticFits, List.getElem?_eq_getElem hi, List.getElem?_eq_getElem hp]

theorem staticChoose_defined (s : Search A) {i p : Nat} (hi : i < s.staticTensors.length)
    (hp : p < s.availableMemory.length) : ∃ s1, s.staticChoose i p = some s1 := by
  simp [staticChoose, List.getElem?_eq_getElem hi, List.getElem?_eq_getElem hp]

theorem staticUnchoose_defined (s : Search A) {i p : Nat} (hi : i < s.staticTensors.length)
    (hp : p < s.availableMemory.length) : ∃ s1, s.staticUnchoose i p = some s1 := by
  simp [staticUnchoose, List.getElem?_eq_getElem hi, List.getElem?_eq_getElem hp]

end Search

/-- With fuel for the remaining dynamic tensors, `allocateDynamic` returns. -/
theorem allocateDynamic_total {s0 : Search A} {σ : List Nat} :
    ∀ (fuel : Nat) (δ : List Nat) (s : Search A), Core s0 σ δ s →
      s0.dynamicTensors.length - δ.length < fuel →
      ∃ s1, allocateDynamic A fuel δ.length s = some s1
  | 0, _, _, _, hf => by omega
  | fuel + 1, δ, s, h, hf => by
    rw [allocateDynamic_succ]
    split
    · rw [score_eq _ (by simp only []; rw [h.best_len, h.static_len, h.dynamic_len])]
      exact ⟨_, rfl⟩
    · rename_i hne
      have hlt : δ.length < s0.dynamicTensors.length := by
        have := h.dynamic_le
        have := h.dynamic_len
        omega
      have hstep : ∀ p ∈ List.range s.availableMemory.length, ∀ b : Search A, Core s0 σ δ b →
          ∃ b1, dynamicIter A fuel δ.length b p = some b1 ∧ Core s0 σ δ b1 := by
        intro p hp b hb
        have hp1 : p < b.availableMemory.length := by
          have := List.mem_range.mp hp
          rw [hb.mem_len, ← h.mem_len]
          exact this
        have hi1 : δ.length < b.dynamicTensors.length := by rw [hb.dynamic_len]; exact hlt
        obtain ⟨c, hc⟩ := b.dynamicChoose_defined hi1 hp1
        have hcore := hb.dynamicChoose hc
        obtain ⟨r, hr⟩ := allocateDynamic_total fuel (δ ++ [p]) c hcore
          (by simp only [List.length_append, List.length_singleton]; omega)
        have hr1 : allocateDynamic A fuel (δ.length + 1) c = some r := by simpa using hr
        have hrc := allocateDynamic_core fuel (δ ++ [p]) c r hcore hr
        have hp2 : p < r.availableMemory.length := by rw [hrc.mem_len, ← hb.mem_len]; exact hp1
        have hi2 : δ.length < r.dynamicTensors.length := by rw [hrc.dynamic_len]; exact hlt
        obtain ⟨u, hu⟩ := r.dynamicUnchoose_defined hi2 hp2
        refine ⟨u, ?_, hrc.dynamicUnchoose hu⟩
        simp only [dynamicIter, hc, hr1, hu]
      obtain ⟨s1, hs1, _⟩ := foldlM_option_total _ (fun b => Core s0 σ δ b)
        (List.range s.availableMemory.length) hstep _ h.dynamicCall
      exact ⟨s1, hs1⟩

/-- With fuel for the remaining static tensors, `allocateStatic` returns. -/
theorem allocateStatic_total {s0 : Search A} :
    ∀ (fuel : Nat) (σ : List Nat) (s : Search A), Core s0 σ [] s →
      s0.staticTensors.length - σ.length < fuel →
      ∃ s1, allocateStatic A fuel σ.length s = some s1
  | 0, _, _, _, hf => by omega
  | fuel + 1, σ, s, h, hf => by
    rw [allocateStatic_succ]
    split
    · exact allocateDynamic_total (s.dynamicTensors.length + 1) [] _ h.staticCall
        (by simp only [List.length_nil]; rw [h.dynamic_len]; omega)
    · rename_i hne
      have hlt : σ.length < s0.staticTensors.length := by
        have := h.static_le
        have := h.static_len
        omega
      have hstep : ∀ p ∈ List.range s.availableMemory.length, ∀ b : Search A, Core s0 σ [] b →
          ∃ b1, staticIter A fuel σ.length b p = some b1 ∧ Core s0 σ [] b1 := by
        intro p hp b hb
        have hp1 : p < b.availableMemory.length := by
          have := List.mem_range.mp hp
          rw [hb.mem_len, ← h.mem_len]
          exact this
        have hi1 : σ.length < b.staticTensors.length := by rw [hb.static_len]; exact hlt
        obtain ⟨fits, hfits⟩ := b.staticFits_defined hi1 hp1
        cases fits with
        | false => exact ⟨b, by simp only [staticIter, hfits], hb⟩
        | true =>
          obtain ⟨c, hc⟩ := b.staticChoose_defined hi1 hp1
          have hcore := hb.staticChoose hfits hc
          obtain ⟨r, hr⟩ := allocateStatic_total fuel (σ ++ [p]) c hcore
            (by simp only [List.length_append, List.length_singleton]; omega)
          have hr1 : allocateStatic A fuel (σ.length + 1) c = some r := by simpa using hr
          have hrc := allocateStatic_core fuel (σ ++ [p]) c r hcore hr
          have hp2 : p < r.availableMemory.length := by rw [hrc.mem_len, ← hb.mem_len]; exact hp1
          have hi2 : σ.length < r.staticTensors.length := by rw [hrc.static_len]; exact hlt
          obtain ⟨u, hu⟩ := r.staticUnchoose_defined hi2 hp2
          refine ⟨u, ?_, hrc.staticUnchoose hu⟩
          simp only [staticIter, hfits, hc, hr1, hu]
      obtain ⟨s1, hs1, _⟩ := foldlM_option_total _ (fun b => Core s0 σ [] b)
        (List.range s.availableMemory.length) hstep _ h.staticCall
      exact ⟨s1, hs1⟩

end GpuMemoryManager

namespace GpuMemoryManager

variable {A : FloatOps}

/-! ### The capacity check before the search -/

theorem foldl_sizeAdd (l : List (MemoryData A)) (acc : Nat) :
    l.foldl (fun fragSize memoryPtr => sizeAdd fragSize memoryPtr.size) acc % sizeModulus
      = (acc + (l.map fun m => m.size).sum) % sizeModulus := by
  induction l generalizing acc with
  | nil => simp
  | cons m ms ih =>
    simp only [List.foldl_cons, List.map_cons, List.sum_cons]
    rw [ih (sizeAdd acc m.size), sizeAdd, Nat.mod_add_mod, Nat.add_assoc]

theorem foldl_sizeAdd_lt (l : List (MemoryData A)) (acc : Nat) (h : acc < sizeModulus) :
    l.foldl (fun fragSize memoryPtr => sizeAdd fragSize memoryPtr.size) acc < sizeModulus := by
  induction l generalizing acc with
  | nil => simpa using h
  | cons m ms ih =>
    simp only [List.foldl_cons]
    exact ih _ (sizeAdd_lt _ _)

/-- Lines 171-172 compute the total capacity when it fits `size_t`. -/
theorem foldl_capacity (self : GpuMemoryManager A) (h : self.totalCapacity < sizeModulus) :
    self.availableMemory.foldl (fun fragSize memoryPtr => sizeAdd fragSize memoryPtr.size) 0
      = self.totalCapacity := by
  have h1 := foldl_sizeAdd self.availableMemory 0
  have h2 := foldl_sizeAdd_lt self.availableMemory 0 (by simp [sizeModulus])
  rw [Nat.mod_eq_of_lt h2, Nat.zero_add] at h1
  rw [h1]
  exact Nat.mod_eq_of_lt h

/-- Lines 173-177 from a running value `F`: the loop exits in `FailIf` exactly when the static
sizes exceed `F` in total, and otherwise leaves the difference. -/
theorem static_check_loop (ts : List (TensorData A)) :
    ∀ F : Nat, F < sizeModulus →
      ts.foldlM
          (fun fragSize (tensor : TensorData A) =>
            match FailIf (decide (tensor.size > fragSize)) staticTooLarge with
            | Except.error e => Except.error e
            | Except.ok _ => Except.ok (sizeSub fragSize tensor.size))
          F
        = if (ts.map fun t => t.size).sum ≤ F then
            Except.ok (F - (ts.map fun t => t.size).sum)
          else Except.error staticTooLarge := by
  induction ts with
  | nil => intro F _; simp [pure, Except.pure]
  | cons t ts ih =>
    intro F hF
    simp only [List.foldlM_cons, List.map_cons, List.sum_cons]
    by_cases ht : t.size > F
    · have hhead : FailIf (decide (t.size > F)) staticTooLarge = Except.error staticTooLarge := by
        simp [FailIf, ht]
      simp only [hhead, bind, Except.bind]
      rw [if_neg (by omega)]
    · have hle : t.size ≤ F := by omega
      have hhead : FailIf (decide (t.size > F)) staticTooLarge = Except.ok () := by
        simp [FailIf, ht]
      simp only [hhead, bind, Except.bind]
      rw [sizeSub_of_le hle hF, ih (F - t.size) (by omega)]
      by_cases hs : (ts.map fun t => t.size).sum ≤ F - t.size
      · rw [if_pos hs, if_pos (by omega)]
        congr 1
        omega
      · rw [if_neg hs, if_neg (by omega)]

/-- Lines 168-177: `fragSizeOf` exits exactly when the static sizes exceed the capacity. -/
theorem fragSizeOf_eq (self : GpuMemoryManager A) (h : self.totalCapacity < sizeModulus) :
    self.fragSizeOf
      = if self.staticSizes.sum ≤ self.totalCapacity then
          Except.ok (self.totalCapacity - self.staticSizes.sum)
        else Except.error staticTooLarge := by
  unfold fragSizeOf
  rw [foldl_capacity self h]
  exact static_check_loop self.staticTensors self.totalCapacity h

end GpuMemoryManager

namespace GpuMemoryManager

variable {A : FloatOps}

/-- When the capacity check fails, `Allocate` exits at once. -/
theorem Allocate_of_too_large (self : GpuMemoryManager A) (h : self.totalCapacity < sizeModulus)
    (hgt : self.totalCapacity < self.staticSizes.sum) :
    Allocate A self = some (Except.error
      { message := staticTooLarge, staticCalls := 0, dynamicCalls := 0 }) := by
  unfold Allocate
  rw [fragSizeOf_eq self h, if_neg (by omega)]

/-- When the capacity check passes, an exit of `Allocate` carries the other message. -/
theorem Allocate_message_of_fits (self : GpuMemoryManager A) (h : self.totalCapacity < sizeModulus)
    (hle : self.staticSizes.sum ≤ self.totalCapacity) (e : Exit)
    (he : Allocate A self = some (Except.error e)) : e.message = noCombination := by
  unfold Allocate at he
  rw [fragSizeOf_eq self h, if_pos hle] at he
  simp only [] at he
  split at he
  · cases he
  · split at he
    · cases he
    · simp only [Option.some.injEq, Except.error.injEq] at he
      rw [← he]
      rfl
    · split at he
      · cases he
      · cases he

theorem single_le_sum (self : GpuMemoryManager A) (t : TensorData A) (ht : t ∈ self.staticTensors) :
    t.size ≤ self.staticSizes.sum := by
  unfold staticSizes
  exact List.single_le_sum (fun _ _ => Nat.zero_le _) _ (List.mem_map_of_mem _ ht)

end GpuMemoryManager

namespace GpuMemoryManager

variable {A : FloatOps}

/-! ### The placement pass -/

theorem assignedSum_take_succ (best : List (Option Nat)) (lens : List Nat) (k p q a : Nat)
    (hb : best[k]? = some (some p)) (ha : lens[k]? = some a) :
    assignedSum (best.take (k + 1)) lens q
      = assignedSum (best.take k) lens q + (if p = q then a else 0) := by
  have hk : k < best.length := (List.getElem?_eq_some.mp hb).1
  rw [List.take_succ, hb]
  have hlen : (best.take k).length = k := by simp [List.length_take]; omega
  have := assignedSum_snoc (best.take k) (some p) lens q a (by rw [hlen]; exact ha)
  simpa using this

theorem assignedSum_take_mono (best : List (Option Nat)) (lens : List Nat) (q : Nat) :
    ∀ (j k : Nat), j ≤ k → assignedSum (best.take j) lens q ≤ assignedSum (best.take k) lens q := by
  intro j k hjk
  induction k with
  | zero =>
    have : j = 0 := by omega
    subst this
    exact Nat.le_refl _
  | succ k ih =>
    by_cases hj : j = k + 1
    · subst hj; exact Nat.le_refl _
    · have h1 := ih (by omega)
      refine Nat.le_trans h1 ?_
      by_cases hk : k < best.length
      · by_cases hl : k < lens.length
        · cases hbk : best[k] with
          | none =>
            rw [List.take_succ, List.getElem?_eq_getElem hk, hbk]
            have hlen : (best.take k).length = k := by simp [List.length_take]; omega
            have := assignedSum_snoc (best.take k) none lens q (lens[k])
              (by rw [hlen]; exact List.getElem?_eq_getElem hl)
            simp only [Option.toList_some]
            rw [this]
            simp
          | some p =>
            rw [assignedSum_take_succ best lens k p q (lens[k])
              (by rw [List.getElem?_eq_getElem hk, hbk]) (List.getElem?_eq_getElem hl)]
            omega
        · have e1 := assignedSum_take (best.take (k + 1)) lens q
          have e2 := assignedSum_take (best.take k) lens q
          have hl1 : lens.take (best.take (k + 1)).length = lens := by
            apply List.take_of_length_le
            simp [List.length_take]; omega
          have hl2 : lens.take (best.take k).length = lens := by
            apply List.take_of_length_le
            simp [List.length_take]; omega
          rw [List.take_succ, List.getElem?_eq_getElem hk]
          simp only [Option.toList_some]
          have hsplit : lens = lens ++ [] := by simp
          have hz : assignedSum (best.take k ++ [best[k]]) lens q
              = assignedSum (best.take k) lens q := by
            unfold assignedSum
            rw [List.zip_eq_zip_take_min]
            conv_rhs => rw [List.zip_eq_zip_take_min]
            have hm1 : min (best.take k ++ [best[k]]).length lens.length = lens.length := by
              simp [List.length_take]; omega
            have hm2 : min (best.take k).length lens.length = lens.length := by
              simp [List.length_take]; omega
            rw [hm1, hm2, List.take_append_of_le_length (by simp [List.length_take]; omega)]
          rw [hz]
      · rw [List.take_of_length_le (by omega), List.take_of_length_le (by omega)]

/-- One placement step extends the placement invariant by one tensor, when the byte lengths do
not overflow `size_t` in total. -/
theorem Placed.step {mem0 : List (MemoryData A)} {best : List (Option Nat)}
    {lens slots : List Nat} {k : Nat} {mw mw1 : List (MemoryData A) × List (Nat × Nat)}
    (h : Placed mem0 best lens slots k mw) (hsum : lens.sum < sizeModulus)
    {t : TensorData A} {a : Nat} (ha : lens[k]? = some a) (hslot : slots[k]? = some t.address)
    (hstep : placeStep best k t a mw = some mw1) :
    Placed mem0 best lens slots (k + 1) mw1 := by
  unfold placeStep at hstep
  split at hstep
  · rename_i p hb
    split at hstep
    · rename_i m hm
      have hmw1 := (Option.some.inj hstep).symm
      subst hmw1
      obtain ⟨m0, h0, haddr, hsize, hdyn⟩ := h.seg p m hm
      have hp : p < mw.1.length := (List.getElem?_eq_some.mp hm).1
      have hnext := assignedSum_take_succ best lens k p p a hb ha
      rw [if_pos rfl] at hnext
      have hbound : assignedSum (best.take (k + 1)) lens p ≤ lens.sum :=
        assignedSum_le_sum _ _ _
      refine ⟨by simp [h.mem_len], ?_, by simp [h.written_len], ?_⟩
      · intro q mq hq
        simp only [List.getElem?_set] at hq
        by_cases hpq : p = q
        · subst hpq
          rw [if_pos rfl, if_pos hp] at hq
          cases hq
          refine ⟨m0, h0, haddr, hsize, ?_⟩
          simp only [hdyn, hnext]
          exact sizeAdd_of_lt (by omega)
        · rw [if_neg hpq] at hq
          obtain ⟨mq0, hq0, hqa, hqs, hqd⟩ := h.seg q mq hq
          refine ⟨mq0, hq0, hqa, hqs, ?_⟩
          rw [assignedSum_take_succ best lens k p q a hb ha, if_neg hpq, Nat.add_zero]
          exact hqd
      · intro j w hj
        by_cases hjk : j < k
        · rw [List.getElem?_append_left (by rw [h.written_len]; exact hjk)] at hj
          exact h.written j w hj
        · rw [List.getElem?_append_right (by rw [h.written_len]; omega), h.written_len] at hj
          have hj0 : j = k := by
            by_contra hne
            have : j - k ≠ 0 := by omega
            obtain ⟨i, hi⟩ := Nat.exists_eq_succ_of_ne_zero this
            rw [hi] at hj
            simp at hj
          subst hj0
          simp only [Nat.sub_self, List.getElem?_cons_zero, Option.some.injEq] at hj
          exact ⟨p, m0, t.address, hb, h0, hslot, by rw [← hj, haddr, hdyn]⟩
    · cases hstep
  · cases hstep

/-- A placement loop over the tensors `ts`, which are the tensors `off, off + 1, ...` of the
plan, extends the placement invariant by `ts.length` tensors. -/
theorem Placed.loop {mem0 : List (MemoryData A)} {best : List (Option Nat)}
    {lens slots : List Nat} (hsum : lens.sum < sizeModulus) (ts : List (TensorData A))
    (f : TensorData A → Nat) (off : Nat)
    (hts : ∀ (i : Nat) (t : TensorData A), ts[i]? = some t →
      lens[i + off]? = some (f t) ∧ slots[i + off]? = some t.address) :
    ∀ (n : Nat) (mw mw1 : List (MemoryData A) × List (Nat × Nat)),
      Placed mem0 best lens slots off mw →
      (List.range n).foldlM
          (fun mw i =>
            match ts[i]? with
            | none => none
            | some t => placeStep best (i + off) t (f t) mw)
          mw = some mw1 →
      Placed mem0 best lens slots (off + n) mw1
  | 0, mw, mw1, h, hrun => by
    simp only [List.range_zero, List.foldlM_nil, pure, Option.some.injEq] at hrun
    exact hrun ▸ h
  | n + 1, mw, mw1, h, hrun => by
    rw [List.range_succ, List.foldlM_append] at hrun
    simp only [bind, Option.bind, List.foldlM_cons, List.foldlM_nil, pure] at hrun
    cases hmwn : (List.range n).foldlM
        (fun mw i =>
          match ts[i]? with
          | none => none
          | some t => placeStep best (i + off) t (f t) mw) mw with
    | none => rw [hmwn] at hrun; cases hrun
    | some mwn =>
      rw [hmwn] at hrun
      have hn := Placed.loop hsum ts f off hts n mw mwn h hmwn
      cases ht : ts[n]? with
      | none => simp [ht] at hrun
      | some t =>
        simp only [ht] at hrun
        cases hstep : placeStep best (n + off) t (f t) mwn with
        | none => simp [hstep] at hrun
        | some mwn1 =>
          simp only [hstep, Option.some.injEq] at hrun
          subst hrun
          obtain ⟨hlen, hslot⟩ := hts n t ht
          exact hn.step hsum (by rw [Nat.add_comm]; exact hlen)
            (by rw [Nat.add_comm]; exact hslot) (by rw [Nat.add_comm]; exact hstep)

end GpuMemoryManager

namespace GpuMemoryManager

variable {A : FloatOps}

/-! ### From a run of `Allocate` to its stages -/

/-- A successful run of `Allocate` went through the capacity check, the search, the plan check
and the placement pass. -/
theorem Allocate_ok {self : GpuMemoryManager A} {r : AllocResult A}
    (h : Allocate A self = some (Except.ok r)) :
    ∃ fragSize s p, self.fragSizeOf = Except.ok fragSize ∧ self.search fragSize = some s
      ∧ s.bestCombination[0]? = some (some p) ∧ place s = some r := by
  unfold Allocate at h
  split at h
  · cases h
  · rename_i fragSize hF
    split at h
    · cases h
    · rename_i s hs
      split at h
      · cases h
      · cases h
      · rename_i p hp
        split at h
        · cases h
        · rename_i r1 hr
          simp only [Option.some.injEq, Except.ok.injEq] at h
          subst h
          exact ⟨fragSize, s, p, hF, hs, hp, hr⟩

theorem searchInit_staticSizes (self : GpuMemoryManager A) (F : Nat) :
    (self.searchInit F).staticSizes = self.staticSizes := by
  simp [searchInit, staticSizes, Function.comp_def]

theorem searchInit_dynamicSizes (self : GpuMemoryManager A) (F : Nat) :
    (self.searchInit F).dynamicSizes = self.dynamicSizes := by
  simp [searchInit, dynamicSizes, Function.comp_def]

theorem searchInit_slots (self : GpuMemoryManager A) (F : Nat) :
    (self.searchInit F).slots = self.slots := by
  simp [searchInit, slots, Function.comp_def]

/-- The invariant holds for the state `Allocate` starts the search from. -/
theorem searchInit_core (self : GpuMemoryManager A) (F : Nat)
    (hwf : ∀ m ∈ self.availableMemory, m.size < sizeModulus ∧ m.dynamicSize < sizeModulus) :
    Core (self.searchInit F) [] [] (self.searchInit F) := by
  apply Core.init
  · intro m0 hm0
    simp only [searchInit, List.mem_map] at hm0
    obtain ⟨m, hm, rfl⟩ := hm0
    exact hwf m hm
  · simp [searchInit]

/-- The search returns, in a state that satisfies the core invariant. -/
theorem search_total (self : GpuMemoryManager A) (F : Nat)
    (hwf : ∀ m ∈ self.availableMemory, m.size < sizeModulus ∧ m.dynamicSize < sizeModulus) :
    ∃ s, self.search F = some s ∧ Core (self.searchInit F) [] [] s := by
  have hcore := searchInit_core self F hwf
  obtain ⟨s, hs⟩ := allocateStatic_total (self.staticTensors.length + 1) [] _ hcore
    (by simp [searchInit])
  exact ⟨s, hs, allocateStatic_core _ [] _ s hcore hs⟩

theorem search_core {self : GpuMemoryManager A} {F : Nat} {s : Search A}
    (hwf : ∀ m ∈ self.availableMemory, m.size < sizeModulus ∧ m.dynamicSize < sizeModulus)
    (hs : self.search F = some s) : Core (self.searchInit F) [] [] s :=
  allocateStatic_core _ [] _ s (searchInit_core self F hwf) hs

namespace Core

variable {s0 s : Search A} {σ δ : List Nat}

theorem staticSizes_eq (h : Core s0 σ δ s) : s.staticSizes = s0.staticSizes := by
  apply List.ext_getElem?
  intro i
  by_cases hi : i < s.staticTensors.length
  · rw [h.static_size_at (List.getElem?_eq_getElem hi)]
    simp [staticSizes, List.getElem?_eq_getElem hi]
  · rw [List.getElem?_eq_none (by simp [staticSizes]; omega),
      List.getElem?_eq_none (by simp [staticSizes]; rw [← h.static_len]; omega)]

theorem dynamicSizes_eq (h : Core s0 σ δ s) : s.dynamicSizes = s0.dynamicSizes := by
  apply List.ext_getElem?
  intro i
  by_cases hi : i < s.dynamicTensors.length
  · rw [h.dynamic_size_at (List.getElem?_eq_getElem hi)]
    simp [dynamicSizes, List.getElem?_eq_getElem hi]
  · rw [List.getElem?_eq_none (by simp [dynamicSizes]; omega),
      List.getElem?_eq_none (by simp [dynamicSizes]; rw [← h.dynamic_len]; omega)]

theorem slots_eq (h : Core s0 σ δ s) : s.slots = s0.slots := by
  unfold slots
  congr 1
  · apply List.ext_getElem?
    intro i
    by_cases hi : i < s.staticTensors.length
    · obtain ⟨t0, h0, ha, _, _⟩ := h.static_fixed i _ (List.getElem?_eq_getElem hi)
      simp [List.getElem?_eq_getElem hi, h0, ha]
    · rw [List.getElem?_eq_none (by simp; omega),
        List.getElem?_eq_none (by simp; rw [← h.static_len]; omega)]
  · apply List.ext_getElem?
    intro i
    by_cases hi : i < s.dynamicTensors.length
    · obtain ⟨t0, h0, ha, _, _⟩ := h.dynamic_fixed i _ (List.getElem?_eq_getElem hi)
      simp [List.getElem?_eq_getElem hi, h0, ha]
    · rw [List.getElem?_eq_none (by simp; omega),
        List.getElem?_eq_none (by simp; rw [← h.dynamic_len]; omega)]

end Core

/-- The placement pass, started with every accumulator at 0, places all the tensors of the plan
according to the placement invariant, when the byte lengths do not overflow `size_t` in
total. -/
theorem place_placed {s : Search A} {r : AllocResult A} (hr : place s = some r)
    (hsum : (s.byteLengths s.largestN).sum < sizeModulus) :
    Placed (s.availableMemory.map fun m => { m with dynamicSize := 0 }) s.bestCombination
        (s.byteLengths s.largestN) s.slots (s.staticTensors.length + s.dynamicTensors.length)
        (r.self.availableMemory, r.written)
      ∧ r.largestN = s.largestN ∧ r.bestCombination = s.bestCombination := by
  unfold place at hr
  cases h1 : placeStatic s
      (s.availableMemory.map fun memoryPtr => { memoryPtr with dynamicSize := 0 }, []) with
  | none => simp [h1] at hr
  | some mw1 =>
    simp only [h1] at hr
    cases h2 : placeDynamic s mw1 with
    | none => simp [h2] at hr
    | some mw2 =>
      simp only [h2, Option.some.injEq] at hr
      subst hr
      refine ⟨?_, rfl, rfl⟩
      have h0 : Placed (s.availableMemory.map fun m => { m with dynamicSize := 0 })
          s.bestCombination (s.byteLengths s.largestN) s.slots 0
          (s.availableMemory.map fun m => { m with dynamicSize := 0 }, []) := by
        refine ⟨rfl, ?_, rfl, ?_⟩
        · intro p m hm
          refine ⟨m, hm, rfl, rfl, ?_⟩
          simp only [List.getElem?_map, Option.map_eq_some'] at hm
          obtain ⟨m1, _, rfl⟩ := hm
          simp
        · intro j w hj
          simp at hj
      have hts1 : ∀ (i : Nat) (t : TensorData A), s.staticTensors[i]? = some t →
          (s.byteLengths s.largestN)[i + 0]? = some ((fun t : TensorData A => t.size) t)
            ∧ s.slots[i + 0]? = some t.address := by
        intro i t ht
        have hi : i < s.staticTensors.length := (List.getElem?_eq_some.mp ht).1
        constructor
        · simp only [byteLengths, Nat.add_zero]
          rw [List.getElem?_append_left (by simp [staticSizes]; exact hi)]
          simp [staticSizes, ht]
        · simp only [slots, Nat.add_zero]
          rw [List.getElem?_append_left (by simp; exact hi)]
          simp [ht]
      have hts2 : ∀ (i : Nat) (t : TensorData A), s.dynamicTensors[i]? = some t →
          (s.byteLengths s.largestN)[i + s.staticTensors.length]?
              = some ((fun t : TensorData A => sizeMul t.size s.largestN) t)
            ∧ s.slots[i + s.staticTensors.length]? = some t.address := by
        intro i t ht
        have hi : i < s.dynamicTensors.length := (List.getElem?_eq_some.mp ht).1
        have hget : (s.byteLengths s.largestN)[i + s.staticTensors.length]?
            = some (t.size * s.largestN) := by
          simp only [byteLengths]
          rw [List.getElem?_append_right (by simp [staticSizes])]
          simp [staticSizes, dynamicSizes, ht]
        constructor
        · rw [hget]
          have hle : t.size * s.largestN ≤ (s.byteLengths s.largestN).sum :=
            List.single_le_sum (fun _ _ => Nat.zero_le _) _ (List.getElem?_mem hget)
          show some _ = some (sizeMul t.size s.largestN)
          rw [sizeMul_of_lt (show t.size * s.largestN < sizeModulus by omega)]
        · simp only [slots]
          rw [List.getElem?_append_right (by simp)]
          simp [ht]
      have hA := Placed.loop hsum s.staticTensors (fun t => t.size) 0 hts1
        s.staticTensors.length _ mw1 h0 h1
      have hB := Placed.loop hsum s.dynamicTensors (fun t => sizeMul t.size s.largestN)
        s.staticTensors.length hts2 s.dynamicTensors.length mw1 mw2 (by simpa using hA) h2
      exact hB

end GpuMemoryManager

namespace GpuMemoryManager

variable {A : FloatOps}

theorem resultOf_eq_some {x : Option (Except Exit (AllocResult A))} {r : AllocResult A}
    (h : resultOf x = some r) : x = some (Except.ok r) := by
  unfold resultOf at h
  split at h
  · rename_i y
    simp only [Option.some.injEq] at h
    rw [h]
  · cases h

/-- The run of `Allocate` that `resultOr` reports. -/
theorem Allocate_of_isSome {self : GpuMemoryManager A}
    (h : (resultOf (Allocate A self)).isSome = true) :
    Allocate A self = some (Except.ok (resultOr (Allocate A self))) := by
  apply resultOf_eq_some
  unfold resultOr
  cases hx : resultOf (Allocate A self) with
  | none => rw [hx] at h; cases h
  | some r => rfl

/-- What a successful `Allocate` writes, when the byte lengths of the tensors do not overflow
`size_t` in total: there is one write per pending tensor, tensor `j` has a segment `p` in the
plan, and its address is the base of `p` advanced, as a `float*`, by the byte lengths of the
earlier tensors of the plan in `p`. -/
theorem Allocate_written {self : GpuMemoryManager A} {r : AllocResult A}
    (hwf : ∀ m ∈ self.availableMemory, m.size < sizeModulus ∧ m.dynamicSize < sizeModulus)
    (hrun : Allocate A self = some (Except.ok r))
    (hno : (self.byteLengths r.largestN).sum < sizeModulus) :
    r.written.length = self.staticTensors.length + self.dynamicTensors.length
      ∧ ∀ j, j < self.staticTensors.length + self.dynamicTensors.length →
        ∃ p seg slot, r.bestCombination[j]? = some (some p) ∧ self.availableMemory[p]? = some seg
          ∧ self.slots[j]? = some slot
          ∧ r.written[j]? = some (slot, ptrAdd seg.address
              (assignedSum (r.bestCombination.take j) (self.byteLengths r.largestN) p)) := by
  obtain ⟨F, s, p0, _, hs, _, hr⟩ := Allocate_ok hrun
  have hcore := search_core hwf hs
  have hS : s.staticSizes = self.staticSizes := by
    rw [hcore.staticSizes_eq, searchInit_staticSizes]
  have hD : s.dynamicSizes = self.dynamicSizes := by
    rw [hcore.dynamicSizes_eq, searchInit_dynamicSizes]
  have hslots : s.slots = self.slots := by rw [hcore.slots_eq, searchInit_slots]
  have hnS : s.staticTensors.length = self.staticTensors.length := by
    rw [hcore.static_len]; simp [searchInit]
  have hnD : s.dynamicTensors.length = self.dynamicTensors.length := by
    rw [hcore.dynamic_len]; simp [searchInit]
  have hN : r.largestN = s.largestN := by
    unfold place at hr
    split at hr
    · cases hr
    · split at hr
      · cases hr
      · simp only [Option.some.injEq] at hr
        rw [← hr]
  have hlens : s.byteLengths s.largestN = self.byteLengths r.largestN := by
    unfold byteLengths
    rw [hS, hD, hN]
  obtain ⟨hpl, _, hbest⟩ := place_placed hr (by rw [hlens]; exact hno)
  rw [hlens, hslots, hnS, hnD, ← hbest] at hpl
  refine ⟨hpl.written_len, ?_⟩
  intro j hj
  have hjw : j < r.written.length := by rw [hpl.written_len]; exact hj
  obtain ⟨p, m0, slot, hb, hm0, hsl, hw⟩ := hpl.written j _ (List.getElem?_eq_getElem hjw)
  simp only [List.getElem?_map, Option.map_eq_some'] at hm0
  obtain ⟨m, hm, rfl⟩ := hm0
  obtain ⟨mi, hmi, hrel⟩ := hcore.seg p m hm
  simp only [searchInit, List.getElem?_map, Option.map_eq_some'] at hmi
  obtain ⟨seg, hseg, rfl⟩ := hmi
  refine ⟨p, seg, slot, hb, hseg, hsl, ?_⟩
  rw [List.getElem?_eq_getElem hjw, hw]
  simp only [hrel.address]

end GpuMemoryManager

namespace GpuMemoryManager

variable {A : FloatOps}

theorem byteLengths_length (self : GpuMemoryManager A) (n : Nat) :
    (self.byteLengths n).length = self.staticTensors.length + self.dynamicTensors.length := by
  simp [byteLengths, staticSizes, dynamicSizes]

theorem tensorLen_eq (self : GpuMemoryManager A) (n k : Nat)
    (hk : k < self.staticTensors.length + self.dynamicTensors.length) :
    (self.byteLengths n)[k]? = some (self.tensorLen n k) := by
  have hk1 : k < (self.byteLengths n).length := by rw [byteLengths_length]; exact hk
  simp [tensorLen, List.getD_eq_getElem?_getD, List.getElem?_eq_getElem hk1]

/-- In one segment, the accumulator before a later tensor covers the earlier tensor. -/
theorem assignedSum_before (best : List (Option Nat)) (lens : List Nat) (k1 k2 p a : Nat)
    (hlt : k1 < k2) (hb : best[k1]? = some (some p)) (ha : lens[k1]? = some a) :
    assignedSum (best.take k1) lens p + a ≤ assignedSum (best.take k2) lens p := by
  have h1 := assignedSum_take_succ best lens k1 p p a hb ha
  rw [if_pos rfl] at h1
  have h2 := assignedSum_take_mono best lens p (k1 + 1) k2 (by omega)
  omega

/-- Two tensors of one segment, the first earlier in the plan: the range of the first ends
before the second starts. -/
theorem ranges_ordered {self : GpuMemoryManager A} {r : AllocResult A}
    (hwf : ∀ m ∈ self.availableMemory, m.size < sizeModulus ∧ m.dynamicSize < sizeModulus)
    (hrun : Allocate A self = some (Except.ok r))
    (hno : (self.byteLengths r.largestN).sum < sizeModulus)
    (hptr : ∀ (p : Nat) (seg : MemoryData A), self.availableMemory[p]? = some seg →
      seg.address + sizeofFloat * assignedSum r.bestCombination (self.byteLengths r.largestN) p
        < sizeModulus)
    (k1 k2 p : Nat) (w1 w2 : Nat × Nat) (hlt : k1 < k2)
    (hb1 : r.bestCombination[k1]? = some (some p)) (hb2 : r.bestCombination[k2]? = some (some p))
    (hw1 : r.written[k1]? = some w1) (hw2 : r.written[k2]? = some w2) :
    w1.2 + self.tensorLen r.largestN k1 ≤ w2.2
      ∧ w1.2 + sizeofFloat * self.tensorLen r.largestN k1 ≤ w2.2 := by
  obtain ⟨hlen, hall⟩ := Allocate_written hwf hrun hno
  have hk2 : k2 < self.staticTensors.length + self.dynamicTensors.length := by
    rw [← hlen]; exact (List.getElem?_eq_some.mp hw2).1
  have hk1 : k1 < self.staticTensors.length + self.dynamicTensors.length := by omega
  obtain ⟨p1, seg1, slot1, hp1, hseg1, _, hwr1⟩ := hall k1 hk1
  obtain ⟨p2, seg2, slot2, hp2, hseg2, _, hwr2⟩ := hall k2 hk2
  rw [hb1] at hp1
  rw [hb2] at hp2
  simp only [Option.some.injEq] at hp1 hp2
  subst hp1
  subst hp2
  rw [hseg1] at hseg2
  simp only [Option.some.injEq] at hseg2
  subst hseg2
  rw [hw1] at hwr1
  rw [hw2] at hwr2
  simp only [Option.some.injEq] at hwr1 hwr2
  subst hwr1
  subst hwr2
  have hb := assignedSum_before r.bestCombination (self.byteLengths r.largestN) k1 k2 p
    (self.tensorLen r.largestN k1) hlt hb1 (tensorLen_eq self _ k1 hk1)
  have hfull : ∀ k, assignedSum (r.bestCombination.take k) (self.byteLengths r.largestN) p
      ≤ assignedSum r.bestCombination (self.byteLengths r.largestN) p := by
    intro k
    rcases Nat.le_total k r.bestCombination.length with hk | hk
    · have := assignedSum_take_mono r.bestCombination (self.byteLengths r.largestN) p k
        r.bestCombination.length hk
      rwa [List.take_length] at this
    · rw [List.take_of_length_le hk]
  have hp := hptr p seg1 hseg1
  have h1 := hfull k1
  have h2 := hfull k2
  simp only [sizeofFloat] at hp
  have e1 : ptrAdd seg1.address
      (assignedSum (r.bestCombination.take k1) (self.byteLengths r.largestN) p)
      = seg1.address
        + 4 * assignedSum (r.bestCombination.take k1) (self.byteLengths r.largestN) p := by
    simp only [ptrAdd, sizeofFloat]
    exact Nat.mod_eq_of_lt (by omega)
  have e2 : ptrAdd seg1.address
      (assignedSum (r.bestCombination.take k2) (self.byteLengths r.largestN) p)
      = seg1.address
        + 4 * assignedSum (r.bestCombination.take k2) (self.byteLengths r.largestN) p := by
    simp only [ptrAdd, sizeofFloat]
    exact Nat.mod_eq_of_lt (by omega)
  simp only [e1, e2, sizeofFloat]
  omega

/-- Non-overlap when no address wraps around: after a successful `Allocate`, when every pending
static size is at least 1, the byte lengths of the tensors do not overflow `size_t` in total and
in every segment the base advanced by 4 times the bytes placed there stays below `2 ^ 64`, the
byte ranges written for two distinct tensors that the plan places in one segment are disjoint,
and a static tensor has a lower address than a dynamic tensor of the same segment; every pending
tensor has a segment and an address. -/
theorem non_overlap_of_no_wrap (A : FloatOps) (self : GpuMemoryManager A) (r : AllocResult A)
    (hwf : ∀ m ∈ self.availableMemory, m.size < sizeModulus ∧ m.dynamicSize < sizeModulus)
    (hpos : ∀ t ∈ self.staticTensors, 1 ≤ t.size)
    (hrun : Allocate A self = some (Except.ok r))
    (hno : (self.byteLengths r.largestN).sum < sizeModulus)
    (hptr : ∀ (p : Nat) (seg : MemoryData A), self.availableMemory[p]? = some seg →
      seg.address + sizeofFloat * assignedSum r.bestCombination (self.byteLengths r.largestN) p
        < sizeModulus) :
    (∀ (k1 k2 p : Nat) (w1 w2 : Nat × Nat), k1 ≠ k2 →
        r.bestCombination[k1]? = some (some p) → r.bestCombination[k2]? = some (some p) →
        r.written[k1]? = some w1 → r.written[k2]? = some w2 →
        w1.2 + self.tensorLen r.largestN k1 ≤ w2.2 ∨ w2.2 + self.tensorLen r.largestN k2 ≤ w1.2)
      ∧ (∀ (i j p : Nat) (w1 w2 : Nat × Nat), i < self.staticTensors.length →
        r.bestCombination[i]? = some (some p) →
        r.bestCombination[self.staticTensors.length + j]? = some (some p) →
        r.written[i]? = some w1 → r.written[self.staticTensors.length + j]? = some w2 →
        w1.2 < w2.2)
      ∧ (∀ k, k < self.staticTensors.length + self.dynamicTensors.length →
        ∃ p w, p < self.availableMemory.length ∧ r.bestCombination[k]? = some (some p)
          ∧ r.written[k]? = some w) := by
  refine ⟨?_, ?_, ?_⟩
  · intro k1 k2 p w1 w2 hne hb1 hb2 hw1 hw2
    rcases Nat.lt_or_gt_of_ne hne with hlt | hgt
    · exact Or.inl (ranges_ordered hwf hrun hno hptr k1 k2 p w1 w2 hlt hb1 hb2 hw1 hw2).1
    · exact Or.inr (ranges_ordered hwf hrun hno hptr k2 k1 p w2 w1 hgt hb2 hb1 hw2 hw1).1
  · intro i j p w1 w2 hi hb1 hb2 hw1 hw2
    have h := (ranges_ordered hwf hrun hno hptr i (self.staticTensors.length + j) p w1 w2
      (by omega) hb1 hb2 hw1 hw2).1
    have hlen : 1 ≤ self.tensorLen r.largestN i := by
      have hget := tensorLen_eq self r.largestN i (by omega)
      simp only [byteLengths] at hget
      rw [List.getElem?_append_left (by simp [staticSizes]; exact hi)] at hget
      simp only [staticSizes, List.getElem?_map, Option.map_eq_some'] at hget
      obtain ⟨t, ht, hts⟩ := hget
      rw [← hts]
      exact hpos t (List.getElem?_mem ht)
    omega
  · intro k hk
    obtain ⟨_, hall⟩ := Allocate_written hwf hrun hno
    obtain ⟨p, seg, slot, hb, hseg, _, hw⟩ := hall k hk
    exact ⟨p, _, (List.getElem?_eq_some.mp hseg).1, hb, hw⟩

/-- Non-overlap at a concrete input: one segment of 100 bytes, static requests of 10 and 20
bytes and a dynamic request of 5 bytes per batch. -/
theorem non_overlap_example :
    ∃ r, Allocate binary32 (pending binary32 [(1000, 100)] [(0, 10), (1, 20)] [(2, 5)])
        = some (Except.ok r)
      ∧ r.largestN = 14 ∧ r.written = [(0, 1000), (1, 1040), (2, 1120)]
      ∧ (∀ (k1 k2 p : Nat) (w1 w2 : Nat × Nat), k1 ≠ k2 →
          r.bestCombination[k1]? = some (some p) → r.bestCombination[k2]? = some (some p) →
          r.written[k1]? = some w1 → r.written[k2]? = some w2 →
          w1.2 + (pending binary32 [(1000, 100)] [(0, 10), (1, 20)] [(2, 5)]).tensorLen
              r.largestN k1 ≤ w2.2
            ∨ w2.2 + (pending binary32 [(1000, 100)] [(0, 10), (1, 20)] [(2, 5)]).tensorLen
              r.largestN k2 ≤ w1.2) :=
  ⟨resultOr (Allocate binary32 (pending binary32 [(1000, 100)] [(0, 10), (1, 20)] [(2, 5)])),
    Allocate_of_isSome (by decide!), by decide!, by decide!,
    (non_overlap_of_no_wrap binary32 _ _ (by decide!) (by decide!)
      (Allocate_of_isSome (by decide!)) (by decide!)
      (by
        intro p seg hseg
        match p, hseg with
        | 0, hseg =>
          cases hseg
          decide!)).1⟩

end GpuMemoryManager

namespace GpuMemoryManager

variable {A : FloatOps}

theorem single_search (A : FloatOps) (base slotA slotD S a d : Nat)
    (haS : a < S) (hS : S < sizeModulus) (hd : 0 < d) (hdM : d < sizeModulus)
    (h1 : A.lt (singleRatio A S a d) (A.ofInt 1) = true)
    (h2 : A.lt (A.ofInt (-1)) (singleRatio A S a d) = true) :
    ∃ r, Allocate A (pending A [(base, S)] [(slotA, a)] [(slotD, d)]) = some (Except.ok r)
      ∧ r.largestN = (S - a) / d := by
  have hF : (pending A [(base, S)] [(slotA, a)] [(slotD, d)]).fragSizeOf = Except.ok (S - a) := by
    rw [fragSizeOf_eq _ (by simpa [totalCapacity, pending, fresh] using hS)]
    simp [totalCapacity, pending, fresh, staticSizes]
    omega
  have hD : (pending A [(base, S)] [(slotA, a)] [(slotD, d)]).dynamicTensorSizeOf = d := by
    simp [dynamicTensorSizeOf, pending, sizeAdd, Nat.mod_eq_of_lt hdM]
  unfold Allocate
  rw [hF]
  simp only [search, searchInit, hD]
  simp only [pending, fresh, List.map_cons, List.map_nil, List.length_cons, List.length_nil]
  have e1 : sizeSub S a = S - a := sizeSub_of_le (by omega) hS
  have e2 : sizeAdd 0 d = d := by simp [sizeAdd, Nat.mod_eq_of_lt hdM]
  have e3 : sizeAdd (S - a) a = S := by rw [sizeAdd_of_lt (by omega)]; omega
  have e4 : sizeSub d d = 0 := by rw [sizeSub_of_le (Nat.le_refl _) hdM]; omega
  have e5 : a ≤ S := by omega
  have r1 : List.range 1 = [0] := rfl
  simp only [singleRatio, Nat.cast_sub e5] at h1 h2
  simp [allocateStatic, allocateDynamic, Search.staticFits, Search.staticChoose,
    Search.staticUnchoose, Search.dynamicChoose, Search.dynamicUnchoose, Search.score,
    Search.smallest, Search.recordStatic, Search.recordDynamic, r1, e1, e2, e3, e4, e5,
    h1, h2, hd, place, placeStatic, placeDynamic, placeStep]

theorem singleRatio_exact (S a d : Nat) (haS : a < S) (hd : 0 < d) :
    singleRatio exactRat S a d = (0 : ℚ) := by
  have hF : ((S : ℚ) - (a : ℚ)) ≠ 0 := by
    have : (a : ℚ) < (S : ℚ) := by exact_mod_cast haS
    linarith
  have hD : (d : ℚ) ≠ 0 := by
    have : (0 : ℚ) < (d : ℚ) := by exact_mod_cast hd
    linarith
  simp only [singleRatio, Nat.cast_sub (Nat.le_of_lt haS)]
  show ((S : ℤ) : ℚ) / (((S : ℤ) - (a : ℤ) : ℤ) : ℚ) - ((a : ℤ) : ℚ) / (((S : ℤ) - (a : ℤ) : ℤ) : ℚ)
    - ((d : ℤ) : ℚ) / ((d : ℤ) : ℚ) = 0
  push_cast
  field_simp

/-- The single-segment scenario: with one segment of `S` bytes, one static request of
`a` bytes and one dynamic request of `d` bytes per batch on a fresh manager, `a < S < 2 ^ 64`
and `0 < d < 2 ^ 64`, `Allocate` succeeds and returns the floor of `(S - a) / d` whenever the
ratio `r = (S / F - a / F) - d / d` that the code computes for the segment, `F = S - a`, lies
strictly between -1 and 1 in the arithmetic of `float`; with exact rationals `r = 0` and the
result always holds. -/
theorem single_segment_batches (A : FloatOps) (base slotA slotD S a d : Nat)
    (haS : a < S) (hS : S < sizeModulus) (hd : 0 < d) (hdM : d < sizeModulus) :
    (A.lt (singleRatio A S a d) (A.ofInt 1) = true →
      A.lt (A.ofInt (-1)) (singleRatio A S a d) = true →
      ∃ r, Allocate A (pending A [(base, S)] [(slotA, a)] [(slotD, d)]) = some (Except.ok r)
        ∧ r.largestN = (S - a) / d)
      ∧ ∃ r, Allocate exactRat (pending exactRat [(base, S)] [(slotA, a)] [(slotD, d)])
          = some (Except.ok r) ∧ r.largestN = (S - a) / d := by
  refine ⟨single_search A base slotA slotD S a d haS hS hd hdM, ?_⟩
  apply single_search exactRat base slotA slotD S a d haS hS hd hdM
  · rw [singleRatio_exact S a d haS hd]
    show decide (((0 : ℚ)) < ((1 : ℤ) : ℚ)) = true
    simp
  · rw [singleRatio_exact S a d haS hd]
    show decide ((((-1 : ℤ)) : ℚ) < (0 : ℚ)) = true
    simp

/-- The single-segment scenario of the specification: 100 bytes, a static request of 50 bytes
and a dynamic request of 10 bytes per batch give 5 batches in binary32. -/
theorem single_segment_example :
    (50 < 100 ∧ 100 < sizeModulus ∧ 0 < 10 ∧ 10 < sizeModulus)
      ∧ ∃ r, Allocate binary32 (pending binary32 [(1000, 100)] [(0, 50)] [(1, 10)])
          = some (Except.ok r) ∧ r.largestN = (100 - 50) / 10 :=
  ⟨by decide,
    (single_segment_batches binary32 1000 0 1 100 50 10 (by decide) (by decide) (by decide)
      (by decide)).1 (by decide!) (by decide!)⟩

end GpuMemoryManager

namespace GpuMemoryManager

variable {A : FloatOps}

/-! ### No static assignment: the search never reaches the dynamic pass -/

theorem searchInit_mem (self : GpuMemoryManager A) (F p : Nat) (m0 : MemoryData A)
    (h : (self.searchInit F).availableMemory[p]? = some m0) :
    ∃ seg, self.availableMemory[p]? = some seg ∧ m0.size = seg.size ∧ m0.address = seg.address
      ∧ m0.dynamicSize = seg.dynamicSize
      ∧ m0.ratio = A.div (A.ofInt seg.size) (A.ofInt F) := by
  simp only [searchInit, List.getElem?_map, Option.map_eq_some'] at h
  obtain ⟨seg, hseg, rfl⟩ := h
  exact ⟨seg, hseg, rfl, rfl, rfl, rfl⟩

/-- A complete path of the static pass is a static assignment. -/
theorem Core.static_assignment {self : GpuMemoryManager A} {F : Nat} {σ δ : List Nat}
    {s : Search A} (h : Core (self.searchInit F) σ δ s)
    (hlen : σ.length = s.staticTensors.length) : StaticAssignment self σ := by
  refine ⟨?_, ?_, ?_⟩
  · rw [hlen, h.static_len]; simp [searchInit]
  · intro x hx
    have := h.static_valid x hx
    simpa [searchInit] using this
  · intro p seg hseg
    have hp : p < s.availableMemory.length := by
      rw [h.mem_len]
      simp only [searchInit, List.length_map]
      exact (List.getElem?_eq_some.mp hseg).1
    obtain ⟨m0, hm0, hrel⟩ := h.seg p _ (List.getElem?_eq_getElem hp)
    obtain ⟨seg1, hseg1, hsz, _⟩ := searchInit_mem self F p m0 hm0
    rw [hseg] at hseg1
    cases hseg1
    have := hrel.size
    rw [searchInit_staticSizes] at this
    omega

/-- Without a static assignment the search returns with the plan still empty and without a call
of `allocateDynamic`. -/
theorem search_of_infeasible {self : GpuMemoryManager A} {F : Nat} {s : Search A}
    (hwf : ∀ m ∈ self.availableMemory, m.size < sizeModulus ∧ m.dynamicSize < sizeModulus)
    (hinf : ¬ StaticFeasible self) (hs : self.search F = some s) :
    s.dynamicCalls = 0
      ∧ s.bestCombination
        = List.replicate (self.staticTensors.length + self.dynamicTensors.length) none := by
  have key := allocateStatic_rule
    (fun σ (s : Search A) => Core (self.searchInit F) σ [] s ∧ s.dynamicCalls = 0
      ∧ s.bestCombination
        = List.replicate (self.staticTensors.length + self.dynamicTensors.length) none)
    (fun _ _ h => ⟨h.1.staticCall, h.2.1, h.2.2⟩)
    (fun σ s _ h hlen _ => absurd ⟨σ, h.1.static_assignment hlen⟩ hinf)
    (fun _ _ _ _ h hf hc => by
      obtain ⟨t, m, _, _, rfl⟩ := Search.staticChoose_eq_some hc
      exact ⟨h.1.staticChoose hf hc, h.2.1, h.2.2⟩)
    (fun _ _ _ _ h hu => by
      obtain ⟨t, m, _, _, rfl⟩ := Search.staticUnchoose_eq_some hu
      exact ⟨h.1.staticUnchoose hu, h.2.1, h.2.2⟩)
    (self.staticTensors.length + 1) [] (self.searchInit F) s
    ⟨searchInit_core self F hwf, rfl, rfl⟩ hs
  exact ⟨key.2.1, key.2.2⟩

/-- Without a static assignment `Allocate` exits with "No combination found", never having
called `allocateDynamic`. -/
theorem Allocate_of_infeasible {self : GpuMemoryManager A}
    (hwf : ∀ m ∈ self.availableMemory, m.size < sizeModulus ∧ m.dynamicSize < sizeModulus)
    (hcap : self.totalCapacity < sizeModulus)
    (hle : self.staticSizes.sum ≤ self.totalCapacity)
    (hreq : 0 < self.staticTensors.length + self.dynamicTensors.length)
    (hinf : ¬ StaticFeasible self) :
    ∃ e, Allocate A self = some (Except.error e) ∧ e.message = noCombination
      ∧ e.dynamicCalls = 0 := by
  obtain ⟨s, hs, _⟩ := search_total self (self.totalCapacity - self.staticSizes.sum) hwf
  obtain ⟨hcalls, hbest⟩ := search_of_infeasible hwf hinf hs
  unfold Allocate
  rw [fragSizeOf_eq self hcap, if_pos hle]
  simp only [hs, hbest, List.getElem?_replicate, if_pos hreq]
  exact ⟨_, rfl, rfl, hcalls⟩

end GpuMemoryManager

namespace GpuMemoryManager

/-! ### The search with exact ratios -/

theorem sum_map_set {α : Type} (f : α → Nat) :
    ∀ (l : List α) (p : Nat) (m m1 : α), l[p]? = some m →
      ((l.set p m1).map f).sum + f m = (l.map f).sum + f m1
  | [], p, m, m1, h => by simp at h
  | x :: xs, 0, m, m1, h => by
    simp only [List.getElem?_cons_zero, Option.some.injEq] at h
    subst h
    simp only [List.set_cons_zero, List.map_cons, List.sum_cons]
    omega
  | x :: xs, p + 1, m, m1, h => by
    simp only [List.getElem?_cons_succ] at h
    have := sum_map_set f xs p m m1 h
    simp only [List.set_cons_succ, List.map_cons, List.sum_cons]
    omega

theorem sum_take_succ (l : List Nat) (k t : Nat) (h : l[k]? = some t) :
    (l.take (k + 1)).sum = (l.take k).sum + t := by
  rw [List.take_succ, h]
  simp

namespace Exact

variable {F D : Nat} {s0 s : Search exactRat} {σ δ : List Nat}

theorem dynamicCall_ratios (h : Exact F D s0 σ δ s) :
    Exact F D s0 σ δ { s with dynamicCalls := s.dynamicCalls + 1 } :=
  { h with }

theorem staticCall_ratios (h : Exact F D s0 σ δ s) :
    Exact F D s0 σ δ { s with staticCalls := s.staticCalls + 1 } :=
  { h with }

theorem score_ratios (hc : Core s0 σ δ s) (h : Exact F D s0 σ δ s) {s1 : Search exactRat}
    (hs : s.score = some s1) : Exact F D s0 σ δ s1 := by
  rw [score_eq s (by rw [hc.best_len, hc.static_len, hc.dynamic_len])] at hs
  have hs1 := (Option.some.inj hs).symm
  split at hs1
  · subst hs1
    exact { h with }
  · subst hs1
    exact { h with }

theorem dynamicChoose_ratios (hc : Core s0 σ δ s) (h : Exact F D s0 σ δ s) {s1 : Search exactRat}
    {p : Nat} (hch : s.dynamicChoose δ.length p = some s1) : Exact F D s0 σ (δ ++ [p]) s1 := by
  obtain ⟨t, m, ht, hm, rfl⟩ := Search.dynamicChoose_eq_some hch
  have hp : p < s.availableMemory.length := (List.getElem?_eq_some.mp hm).1
  have hi : δ.length < s.dynamicTensors.length := (List.getElem?_eq_some.mp ht).1
  refine ⟨?_, h.static_ratio, ?_, ?_⟩
  · intro q mq hq
    simp only [List.getElem?_set] at hq
    by_cases hpq : p = q
    · subst hpq
      rw [if_pos rfl, if_pos hp] at hq
      cases hq
      have hsum := hc.dynamic_sum_snoc δ p p ht
      rw [if_pos rfl] at hsum
      simp only [hsum, h.seg_ratio p m hm, h.dynamic_ratio _ t ht]
      push_cast
      ring
    · rw [if_neg hpq] at hq
      have hsum := hc.dynamic_sum_snoc δ p q ht
      rw [if_neg hpq, Nat.add_zero] at hsum
      rw [hsum]
      exact h.seg_ratio q mq hq
  · intro i ti hti
    simp only [List.getElem?_set] at hti
    by_cases hii : δ.length = i
    · subst hii
      rw [if_pos rfl, if_pos hi] at hti
      cases hti
      exact h.dynamic_ratio _ t ht
    · rw [if_neg hii] at hti
      exact h.dynamic_ratio i ti hti
  · have := sum_map_set (fun m : MemoryData exactRat => m.size) s.availableMemory p m
      { m with
        ratio := exactRat.sub m.ratio t.ratio
        dynamicSize := sizeAdd m.dynamicSize t.size } hm
    have h2 := h.size_sum
    simp only [] at this ⊢
    omega

theorem dynamicUnchoose_ratios {s2 s3 : Search exactRat} {p : Nat} (hc : Core s0 σ (δ ++ [p]) s2)
    (h : Exact F D s0 σ (δ ++ [p]) s2) (hu : s2.dynamicUnchoose δ.length p = some s3) :
    Exact F D s0 σ δ s3 := by
  obtain ⟨t, m, ht, hm, rfl⟩ := Search.dynamicUnchoose_eq_some hu
  have hp : p < s2.availableMemory.length := (List.getElem?_eq_some.mp hm).1
  refine ⟨?_, h.static_ratio, h.dynamic_ratio, ?_⟩
  · intro q mq hq
    simp only [List.getElem?_set] at hq
    by_cases hpq : p = q
    · subst hpq
      rw [if_pos rfl, if_pos hp] at hq
      cases hq
      have hsum := hc.dynamic_sum_snoc δ p p ht
      rw [if_pos rfl] at hsum
      have hr := h.seg_ratio p m hm
      rw [hsum] at hr
      simp only [hr, h.dynamic_ratio _ t ht]
      push_cast
      ring
    · rw [if_neg hpq] at hq
      have hsum := hc.dynamic_sum_snoc δ p q ht
      rw [if_neg hpq, Nat.add_zero] at hsum
      rw [← hsum]
      exact h.seg_ratio q mq hq
  · have := sum_map_set (fun m : MemoryData exactRat => m.size) s2.availableMemory p m
      { m with
        ratio := exactRat.add m.ratio t.ratio
        dynamicSize := sizeSub m.dynamicSize t.size } hm
    have h2 := h.size_sum
    simp only [] at this ⊢
    omega

theorem staticChoose_ratios (hc : Core s0 σ δ s) (h : Exact F D s0 σ δ s) {s1 : Search exactRat}
    {p : Nat} (hf : s.staticFits σ.length p = some true)
    (hch : s.staticChoose σ.length p = some s1) : Exact F D s0 (σ ++ [p]) δ s1 := by
  obtain ⟨t, m, ht, hm, rfl⟩ := Search.staticChoose_eq_some hch
  obtain ⟨t', m', ht', hm', hfit⟩ := Search.staticFits_eq_some hf
  rw [ht] at ht'
  rw [hm] at hm'
  cases ht'
  cases hm'
  have hge : t.size ≤ m.size := by simpa using hfit.symm
  have hp : p < s.availableMemory.length := (List.getElem?_eq_some.mp hm).1
  have hi : σ.length < s.staticTensors.length := (List.getElem?_eq_some.mp ht).1
  have hsub : sizeSub m.size t.size = m.size - t.size := sizeSub_of_le hge (hc.size_lt hm)
  refine ⟨?_, ?_, h.dynamic_ratio, ?_⟩
  · intro q mq hq
    simp only [List.getElem?_set] at hq
    by_cases hpq : p = q
    · subst hpq
      rw [if_pos rfl, if_pos hp] at hq
      cases hq
      simp only [hsub, h.seg_ratio p m hm, h.static_ratio _ t ht, Nat.cast_sub hge]
      ring
    · rw [if_neg hpq] at hq
      exact h.seg_ratio q mq hq
  · intro i ti hti
    simp only [List.getElem?_set] at hti
    by_cases hii : σ.length = i
    · subst hii
      rw [if_pos rfl, if_pos hi] at hti
      cases hti
      exact h.static_ratio _ t ht
    · rw [if_neg hii] at hti
      exact h.static_ratio i ti hti
  · have := sum_map_set (fun m : MemoryData exactRat => m.size) s.availableMemory p m
      { m with
        ratio := exactRat.sub m.ratio t.ratio
        size := sizeSub m.size t.size } hm
    have h2 := h.size_sum
    have h3 := sum_take_succ s0.staticSizes σ.length t.size (hc.static_size_at ht)
    simp only [hsub, List.length_append, List.length_singleton] at this ⊢
    omega

theorem staticUnchoose_ratios {s2 s3 : Search exactRat} {p : Nat} (hc : Core s0 (σ ++ [p]) δ s2)
    (h : Exact F D s0 (σ ++ [p]) δ s2) (hu : s2.staticUnchoose σ.length p = some s3) :
    Exact F D s0 σ δ s3 := by
  obtain ⟨t, m, ht, hm, rfl⟩ := Search.staticUnchoose_eq_some hu
  have hp : p < s2.availableMemory.length := (List.getElem?_eq_some.mp hm).1
  obtain ⟨m0, h0, hrel⟩ := hc.seg p m hm
  have hsum := hc.static_sum_snoc σ p p ht
  rw [if_pos rfl] at hsum
  have hsz := hrel.size
  rw [hsum] at hsz
  have hwf := (hc.wf m0 (List.getElem?_mem h0)).1
  have hadd : sizeAdd m.size t.size = m.size + t.size := sizeAdd_of_lt (by omega)
  refine ⟨?_, h.static_ratio, h.dynamic_ratio, ?_⟩
  · intro q mq hq
    simp only [List.getElem?_set] at hq
    by_cases hpq : p = q
    · subst hpq
      rw [if_pos rfl, if_pos hp] at hq
      cases hq
      simp only [hadd, h.seg_ratio p m hm, h.static_ratio _ t ht]
      push_cast
      ring
    · rw [if_neg hpq] at hq
      exact h.seg_ratio q mq hq
  · have := sum_map_set (fun m : MemoryData exactRat => m.size) s2.availableMemory p m
      { m with
        ratio := exactRat.add m.ratio t.ratio
        size := sizeAdd m.size t.size } hm
    have h2 := h.size_sum
    have h3 := sum_take_succ s0.staticSizes σ.length t.size (hc.static_size_at ht)
    simp only [hadd, List.length_append, List.length_singleton] at this h2 ⊢
    omega

end Exact

end GpuMemoryManager

namespace GpuMemoryManager

variable {A : FloatOps}

/-! ### The scan for the smallest ratio -/

/-- The scan of lines 126-132 from an accumulator `acc` over the segments `l` returns `acc` or
the fields of a segment of `l` whose accumulator is positive. -/
theorem smallest_fold_cases (l : List (MemoryData A)) :
    ∀ acc : A.F × Nat × Nat,
      l.foldl
          (fun acc memoryPtr =>
            if decide (memoryPtr.dynamicSize > 0) && A.lt memoryPtr.ratio acc.1 then
              (memoryPtr.ratio, memoryPtr.size, memoryPtr.dynamicSize)
            else acc)
          acc = acc
        ∨ ∃ m ∈ l, 0 < m.dynamicSize ∧
          l.foldl
              (fun acc memoryPtr =>
                if decide (memoryPtr.dynamicSize > 0) && A.lt memoryPtr.ratio acc.1 then
                  (memoryPtr.ratio, memoryPtr.size, memoryPtr.dynamicSize)
                else acc)
              acc = (m.ratio, m.size, m.dynamicSize) := by
  induction l with
  | nil => intro acc; left; rfl
  | cons x xs ih =>
    intro acc
    simp only [List.foldl_cons]
    by_cases hx : (decide (x.dynamicSize > 0) && A.lt x.ratio acc.1) = true
    · rw [if_pos hx]
      rcases ih (x.ratio, x.size, x.dynamicSize) with h | ⟨m, hm, hpos, h⟩
      · right
        refine ⟨x, List.mem_cons_self _ _, ?_, h⟩
        simp only [Bool.and_eq_true, decide_eq_true_eq] at hx
        exact hx.1
      · right
        exact ⟨m, List.mem_cons_of_mem _ hm, hpos, h⟩
    · rw [if_neg hx]
      rcases ih acc with h | ⟨m, hm, hpos, h⟩
      · left; exact h
      · right
        exact ⟨m, List.mem_cons_of_mem _ hm, hpos, h⟩

/-- The scan returns its start value or the fields of a segment with a positive accumulator. -/
theorem smallest_cases (s : Search A) :
    s.smallest = (A.ofInt 1, 0, 0)
      ∨ ∃ (b : Nat) (m : MemoryData A), s.availableMemory[b]? = some m ∧ 0 < m.dynamicSize
        ∧ s.smallest = (m.ratio, m.size, m.dynamicSize) := by
  rcases smallest_fold_cases s.availableMemory (A.ofInt 1, 0, 0) with h | ⟨m, hm, hpos, h⟩
  · left; exact h
  · right
    obtain ⟨b, hb⟩ := List.mem_iff_getElem?.mp hm
    exact ⟨b, m, hb, hpos, h⟩

/-- With exact ratios the scanned ratio is at most the start value and at most the ratio of
every segment with a positive accumulator. -/
theorem smallest_fold_le (l : List (MemoryData exactRat)) :
    ∀ acc : ℚ × Nat × Nat,
      (l.foldl
          (fun (acc : ℚ × Nat × Nat) (memoryPtr : MemoryData exactRat) =>
            if decide (memoryPtr.dynamicSize > 0) && exactRat.lt memoryPtr.ratio acc.1 then
              (memoryPtr.ratio, memoryPtr.size, memoryPtr.dynamicSize)
            else acc)
          acc).1 ≤ acc.1
        ∧ ∀ m ∈ l, 0 < m.dynamicSize →
          (l.foldl
              (fun (acc : ℚ × Nat × Nat) (memoryPtr : MemoryData exactRat) =>
                if decide (memoryPtr.dynamicSize > 0) && exactRat.lt memoryPtr.ratio acc.1 then
                  (memoryPtr.ratio, memoryPtr.size, memoryPtr.dynamicSize)
                else acc)
              acc).1 ≤ m.ratio := by
  induction l with
  | nil => intro acc; exact ⟨le_refl _, fun m hm => by simp at hm⟩
  | cons x xs ih =>
    intro acc
    simp only [List.foldl_cons]
    by_cases hx : (decide (x.dynamicSize > 0) && exactRat.lt x.ratio acc.1) = true
    · rw [if_pos hx]
      obtain ⟨h1, h2⟩ := ih (x.ratio, x.size, x.dynamicSize)
      simp only [Bool.and_eq_true, decide_eq_true_eq] at hx
      have hlt : x.ratio < acc.1 := hx.2
      refine ⟨le_trans h1 (le_of_lt hlt), ?_⟩
      intro m hm hpos
      rcases List.mem_cons.mp hm with rfl | hm
      · exact h1
      · exact h2 m hm hpos
    · rw [if_neg hx]
      obtain ⟨h1, h2⟩ := ih acc
      refine ⟨h1, ?_⟩
      intro m hm hpos
      rcases List.mem_cons.mp hm with rfl | hm
      · simp only [Bool.and_eq_true, decide_eq_true_eq, not_and] at hx
        have hnlt : ¬ m.ratio < acc.1 := hx hpos
        exact le_trans h1 (not_lt.mp hnlt)
      · exact h2 m hm hpos

/-- With exact ratios the scanned ratio exceeds every bound that the start value and all the
segment ratios exceed. -/
theorem smallest_fold_gt (c : ℚ) (l : List (MemoryData exactRat)) :
    ∀ acc : ℚ × Nat × Nat, c < acc.1 → (∀ m ∈ l, c < m.ratio) →
      c < (l.foldl
          (fun (acc : ℚ × Nat × Nat) (memoryPtr : MemoryData exactRat) =>
            if decide (memoryPtr.dynamicSize > 0) && exactRat.lt memoryPtr.ratio acc.1 then
              (memoryPtr.ratio, memoryPtr.size, memoryPtr.dynamicSize)
            else acc)
          acc).1 := by
  induction l with
  | nil => intro acc h _; exact h
  | cons x xs ih =>
    intro acc hacc hall
    simp only [List.foldl_cons]
    split
    · exact ih _ (hall x (List.mem_cons_self _ _)) fun m hm => hall m (List.mem_cons_of_mem _ hm)
    · exact ih _ hacc fun m hm => hall m (List.mem_cons_of_mem _ hm)

theorem smallest_le (s : Search exactRat) :
    s.smallest.1 ≤ (1 : ℚ)
      ∧ ∀ m ∈ s.availableMemory, 0 < m.dynamicSize → s.smallest.1 ≤ m.ratio := by
  have := smallest_fold_le s.availableMemory (exactRat.ofInt 1, 0, 0)
  refine ⟨?_, this.2⟩
  have h1 := this.1
  simp only [Int.cast_one] at h1
  exact h1

theorem smallest_gt (s : Search exactRat) (c : ℚ) (hc : c < 1)
    (hall : ∀ m ∈ s.availableMemory, c < m.ratio) : c < s.smallest.1 := by
  refine smallest_fold_gt c s.availableMemory (exactRat.ofInt 1, 0, 0) ?_ hall
  simp only [Int.cast_one]
  exact hc

end GpuMemoryManager

namespace GpuMemoryManager

variable {A : FloatOps}

namespace Core

variable {s0 s : Search A} {σ δ : List Nat}

/-- At a complete static assignment the pointers of the static tensors are the path. -/
theorem static_ptrs (h : Core s0 σ δ s) (hlen : σ.length = s0.staticTensors.length) :
    (s.staticTensors.map fun t => t.memoryPtr) = σ.map some := by
  apply List.ext_getElem?
  intro i
  by_cases hi : i < σ.length
  · obtain ⟨t, ht, hptr⟩ := h.static_ptr i (σ[i]) (List.getElem?_eq_getElem hi)
    simp [ht, hptr, List.getElem?_eq_getElem hi]
  · rw [List.getElem?_eq_none (by simp; rw [h.static_len]; omega),
      List.getElem?_eq_none (by simp; omega)]

/-- At a complete dynamic assignment the pointers of the dynamic tensors are the path. -/
theorem dynamic_ptrs (h : Core s0 σ δ s) (hlen : δ.length = s0.dynamicTensors.length) :
    (s.dynamicTensors.map fun t => t.memoryPtr) = δ.map some := by
  apply List.ext_getElem?
  intro i
  by_cases hi : i < δ.length
  · obtain ⟨t, ht, hptr⟩ := h.dynamic_ptr i (δ[i]) (List.getElem?_eq_getElem hi)
    simp [ht, hptr, List.getElem?_eq_getElem hi]
  · rw [List.getElem?_eq_none (by simp; rw [h.dynamic_len]; omega),
      List.getElem?_eq_none (by simp; omega)]

/-- The plan recorded at a complete assignment gives every tensor a segment. -/
theorem committed_paths (h : Core s0 σ δ s) :
    CommittedPlan s0.availableMemory.length (σ.map some ++ δ.map some) := by
  intro k hk
  simp only [List.length_append, List.length_map] at hk
  by_cases hks : k < σ.length
  · refine ⟨σ[k], h.static_valid _ (List.getElem_mem _), ?_⟩
    rw [List.getElem?_append_left (by simp; exact hks)]
    simp [List.getElem?_eq_getElem hks]
  · have hkd : k - σ.length < δ.length := by omega
    refine ⟨δ[k - σ.length], h.dynamic_valid _ (List.getElem_mem _), ?_⟩
    rw [List.getElem?_append_right (by simp; omega)]
    simp [List.getElem?_eq_getElem hkd]

end Core

/-- The score of a complete assignment, in terms of the paths. -/
theorem score_paths {s0 s s1 : Search A} {σ δ : List Nat} (h : Core s0 σ δ s)
    (hσ : σ.length = s0.staticTensors.length) (hδ : δ.length = s0.dynamicTensors.length)
    (hs : s.score = some s1) :
    s1 = (if A.lt s.largestRatio s.smallest.1 then
        { s with
          largestN := if s.smallest.2.2 > 0 then s.smallest.2.1 / s.smallest.2.2 else s.largestN
          largestRatio := s.smallest.1
          bestCombination := σ.map some ++ δ.map some
          scored := s.scored ++ [σ.map some ++ δ.map some] }
      else { s with scored := s.scored ++ [σ.map some ++ δ.map some] }) := by
  rw [score_eq s (by rw [h.best_len, h.static_len, h.dynamic_len])] at hs
  rw [← h.static_ptrs hσ, ← h.dynamic_ptrs hδ]
  exact (Option.some.inj hs).symm

/-! ### The proof rules with exact ratios -/

namespace ExactInv

variable {F D : Nat} {J : List (Option Nat) → ℚ → Nat → Prop} {s0 s : Search exactRat}
  {σ δ : List Nat}

theorem dynamicCall_inv (h : ExactInv F D J s0 σ δ s) :
    ExactInv F D J s0 σ δ { s with dynamicCalls := s.dynamicCalls + 1 } :=
  ⟨h.core.dynamicCall, h.exact.dynamicCall_ratios, h.result⟩

theorem staticCall_inv (h : ExactInv F D J s0 σ δ s) :
    ExactInv F D J s0 σ δ { s with staticCalls := s.staticCalls + 1 } :=
  ⟨h.core.staticCall, h.exact.staticCall_ratios, h.result⟩

theorem score_inv (hJ : CommitKeeps F D J s0) (hσ : σ.length = s0.staticTensors.length)
    (h : ExactInv F D J s0 σ δ s) {s1 : Search exactRat}
    (hlen : δ.length = s.dynamicTensors.length) (hs : s.score = some s1) :
    ExactInv F D J s0 σ δ s1 := by
  have hδ : δ.length = s0.dynamicTensors.length := by rw [hlen, h.core.dynamic_len]
  refine ⟨h.core.score hs, h.exact.score_ratios h.core hs, ?_⟩
  have e := score_paths h.core hσ hδ hs
  by_cases hlt : exactRat.lt s.largestRatio s.smallest.1 = true
  · rw [if_pos hlt] at e
    subst e
    exact hJ σ δ s h.core h.exact hσ hδ h.result hlt
  · rw [if_neg hlt] at e
    subst e
    exact h.result

theorem dynamicChoose_inv (h : ExactInv F D J s0 σ δ s) {s1 : Search exactRat} {p : Nat}
    (hc : s.dynamicChoose δ.length p = some s1) : ExactInv F D J s0 σ (δ ++ [p]) s1 := by
  obtain ⟨t, m, _, _, e⟩ := Search.dynamicChoose_eq_some hc
  refine ⟨h.core.dynamicChoose hc, h.exact.dynamicChoose_ratios h.core hc, ?_⟩
  subst e
  exact h.result

theorem dynamicUnchoose_inv {s2 s3 : Search exactRat} {p : Nat}
    (h : ExactInv F D J s0 σ (δ ++ [p]) s2) (hu : s2.dynamicUnchoose δ.length p = some s3) :
    ExactInv F D J s0 σ δ s3 := by
  obtain ⟨t, m, _, _, e⟩ := Search.dynamicUnchoose_eq_some hu
  refine ⟨h.core.dynamicUnchoose hu, h.exact.dynamicUnchoose_ratios h.core hu, ?_⟩
  subst e
  exact h.result

theorem staticChoose_inv (h : ExactInv F D J s0 σ δ s) {s1 : Search exactRat} {p : Nat}
    (hf : s.staticFits σ.length p = some true) (hc : s.staticChoose σ.length p = some s1) :
    ExactInv F D J s0 (σ ++ [p]) δ s1 := by
  obtain ⟨t, m, _, _, e⟩ := Search.staticChoose_eq_some hc
  refine ⟨h.core.staticChoose hf hc, h.exact.staticChoose_ratios h.core hf hc, ?_⟩
  subst e
  exact h.result

theorem staticUnchoose_inv {s2 s3 : Search exactRat} {p : Nat}
    (h : ExactInv F D J s0 (σ ++ [p]) δ s2) (hu : s2.staticUnchoose σ.length p = some s3) :
    ExactInv F D J s0 σ δ s3 := by
  obtain ⟨t, m, _, _, e⟩ := Search.staticUnchoose_eq_some hu
  refine ⟨h.core.staticUnchoose hu, h.exact.staticUnchoose_ratios h.core hu, ?_⟩
  subst e
  exact h.result

end ExactInv

/-- `allocateDynamic` keeps the invariant with exact ratios. -/
theorem exact_allocateDynamic {F D : Nat} {J : List (Option Nat) → ℚ → Nat → Prop}
    {s0 : Search exactRat} {σ : List Nat} (hJ : CommitKeeps F D J s0)
    (hσ : σ.length = s0.staticTensors.length) :
    ∀ fuel δ (s s1 : Search exactRat), ExactInv F D J s0 σ δ s →
      allocateDynamic exactRat fuel δ.length s = some s1 → ExactInv F D J s0 σ δ s1 :=
  allocateDynamic_rule (fun δ s => ExactInv F D J s0 σ δ s)
    (fun _ _ h => h.dynamicCall_inv)
    (fun _ _ _ h hlen hs => h.score_inv hJ hσ hlen hs)
    (fun _ _ _ _ h hc => h.dynamicChoose_inv hc)
    (fun _ _ _ _ h hu => h.dynamicUnchoose_inv hu)

/-- One iteration of the loop of `allocateDynamic` keeps the invariant with exact ratios. -/
theorem exact_dynamic_iteration {F D : Nat} {J : List (Option Nat) → ℚ → Nat → Prop}
    {s0 : Search exactRat} {σ : List Nat} (hJ : CommitKeeps F D J s0)
    (hσ : σ.length = s0.staticTensors.length) (fuel : Nat) (δ : List Nat) (p : Nat)
    (b b1 : Search exactRat) (hb : ExactInv F D J s0 σ δ b)
    (hstep : dynamicIter exactRat fuel δ.length b p = some b1) :
    ExactInv F D J s0 σ δ b1 :=
  allocateDynamic_iteration (fun δ s => ExactInv F D J s0 σ δ s)
    (fun _ _ h => h.dynamicCall_inv)
    (fun _ _ _ h hlen hs => h.score_inv hJ hσ hlen hs)
    (fun _ _ _ _ h hc => h.dynamicChoose_inv hc)
    (fun _ _ _ _ h hu => h.dynamicUnchoose_inv hu)
    fuel δ p b b1 hb hstep

/-- `allocateStatic` keeps the invariant with exact ratios. -/
theorem exact_allocateStatic {F D : Nat} {J : List (Option Nat) → ℚ → Nat → Prop}
    {s0 : Search exactRat} (hJ : CommitKeeps F D J s0) :
    ∀ fuel σ (s s1 : Search exactRat), ExactInv F D J s0 σ [] s →
      allocateStatic exactRat fuel σ.length s = some s1 → ExactInv F D J s0 σ [] s1 :=
  allocateStatic_rule (fun σ s => ExactInv F D J s0 σ [] s)
    (fun _ _ h => h.staticCall_inv)
    (fun σ s s1 h hlen hd =>
      exact_allocateDynamic hJ (by rw [hlen, h.core.static_len])
        (s.dynamicTensors.length + 1) [] s s1 h hd)
    (fun _ _ _ _ h hf hc => h.staticChoose_inv hf hc)
    (fun _ _ _ _ h hu => h.staticUnchoose_inv hu)

/-- One iteration of the loop of `allocateStatic` keeps the invariant with exact ratios. -/
theorem exact_static_iteration {F D : Nat} {J : List (Option Nat) → ℚ → Nat → Prop}
    {s0 : Search exactRat} (hJ : CommitKeeps F D J s0) (fuel : Nat) (σ : List Nat) (p : Nat)
    (b b1 : Search exactRat) (hb : ExactInv F D J s0 σ [] b)
    (hstep : staticIter exactRat fuel σ.length b p = some b1) :
    ExactInv F D J s0 σ [] b1 :=
  allocateStatic_iteration (fun σ s => ExactInv F D J s0 σ [] s)
    (fun _ _ h => h.staticCall_inv)
    (fun σ s s1 h hlen hd =>
      exact_allocateDynamic hJ (by rw [hlen, h.core.static_len])
        (s.dynamicTensors.length + 1) [] s s1 h hd)
    (fun _ _ _ _ h hf hc => h.staticChoose_inv hf hc)
    (fun _ _ _ _ h hu => h.staticUnchoose_inv hu)
    fuel σ p b b1 hb hstep

/-- The exact part of the invariant holds at the start of the search. -/
theorem searchInit_exact (self : GpuMemoryManager exactRat) (F : Nat)
    (hF : F + self.staticSizes.sum = self.totalCapacity) :
    Exact F self.dynamicTensorSizeOf (self.searchInit F) [] [] (self.searchInit F) := by
  refine ⟨?_, ?_, ?_, ?_⟩
  · intro p m hm
    obtain ⟨seg, _, hsz, _, _, hr⟩ := searchInit_mem self F p m hm
    rw [hr, hsz]
    simp
  · intro i t ht
    simp only [searchInit, List.getElem?_map, Option.map_eq_some'] at ht
    obtain ⟨t0, _, rfl⟩ := ht
    simp
  · intro i t ht
    simp only [searchInit, List.getElem?_map, Option.map_eq_some'] at ht
    obtain ⟨t0, _, rfl⟩ := ht
    simp
  · simp only [List.length_nil, List.take_zero, List.sum_nil, Nat.add_zero,
      searchInit_staticSizes]
    rw [hF]
    simp [searchInit, totalCapacity, Function.comp_def]

end GpuMemoryManager

namespace GpuMemoryManager

/-! ### With exact ratios, a static assignment leads to a commit -/

theorem commitKeeps_untouched (F D len : Nat) (s0 : Search exactRat) :
    CommitKeeps F D (Untouched s0.availableMemory.length len) s0 :=
  fun _ _ _ hc _ _ _ _ _ => Or.inl hc.committed_paths

theorem commitKeeps_settled (F D : Nat) (s0 : Search exactRat) :
    CommitKeeps F D (Settled s0.availableMemory.length) s0 :=
  fun _ _ _ hc _ _ _ _ _ => hc.committed_paths

theorem assignedSum_eq_zero (δ : List Nat) (p : Nat) (h : ∀ x ∈ δ, x ≠ p) :
    ∀ sizes : List Nat, assignedSum (δ.map some) sizes p = 0 := by
  induction δ with
  | nil => intro sizes; simp
  | cons x xs ih =>
    intro sizes
    cases sizes with
    | nil => simp
    | cons t ts =>
      rw [List.map_cons, assignedSum_cons, ih (fun y hy => h y (List.mem_cons_of_mem _ hy)) ts]
      have : x ≠ p := h x (List.mem_cons_self _ _)
      simp [this]

theorem cast_div_le_one (a D : Nat) (h : a ≤ D) : (a : ℚ) / (D : ℚ) ≤ 1 := by
  by_cases hD : D = 0
  · subst hD
    simp
  · have hpos : (0 : ℚ) < (D : ℚ) := by exact_mod_cast Nat.pos_of_ne_zero hD
    rw [div_le_one hpos]
    exact_mod_cast h

/-- When all the dynamic tensors placed so far went to the segment `pstar`, which has room left
after the static tensors, every segment ratio exceeds -1. -/
theorem ratio_gt_neg_one {F D pstar : Nat} {s0 s : Search exactRat} {σ δ : List Nat}
    (hc : Core s0 σ δ s) (he : Exact F D s0 σ δ s) (hF : 0 < F)
    (hD : s0.dynamicSizes.sum = D) (hall : ∀ x ∈ δ, x = pstar)
    (hrem : ∀ m0, s0.availableMemory[pstar]? = some m0 →
      assignedSum (σ.map some) s0.staticSizes pstar < m0.size) :
    ∀ m ∈ s.availableMemory, (-1 : ℚ) < m.ratio := by
  intro m hm
  obtain ⟨p, hp⟩ := List.mem_iff_getElem?.mp hm
  rw [he.seg_ratio p m hp]
  have hFq : (0 : ℚ) < (F : ℚ) := by exact_mod_cast hF
  have hsz : (0 : ℚ) ≤ (m.size : ℚ) / (F : ℚ) := div_nonneg (Nat.cast_nonneg _) (le_of_lt hFq)
  by_cases hpp : p = pstar
  · subst hpp
    obtain ⟨m0, h0, hrel⟩ := hc.seg p m hp
    have h1 := hrem m0 h0
    have h2 := hrel.size
    have hpos : 0 < m.size := by omega
    have hszpos : (0 : ℚ) < (m.size : ℚ) / (F : ℚ) :=
      div_pos (by exact_mod_cast hpos) hFq
    have hle := cast_div_le_one (assignedSum (δ.map some) s0.dynamicSizes p) D
      (hD ▸ assignedSum_le_sum _ _ _)
    linarith
  · have hz := assignedSum_eq_zero δ p (fun x hx => by rw [hall x hx]; exact Ne.symm hpp)
      s0.dynamicSizes
    rw [hz]
    simp only [Nat.cast_zero, zero_div, sub_zero]
    linarith

/-- The dynamic pass commits a plan when the dynamic tensors placed so far all went to a
segment with room left: the assignment that gives it all the remaining ones has a ratio above
-1. -/
theorem dynamic_commits {F D pstar len : Nat} {s0 : Search exactRat} {σ : List Nat}
    (hσ : σ.length = s0.staticTensors.length) (hF : 0 < F) (hD : s0.dynamicSizes.sum = D)
    (hp : pstar < s0.availableMemory.length)
    (hrem : ∀ m0, s0.availableMemory[pstar]? = some m0 →
      assignedSum (σ.map some) s0.staticSizes pstar < m0.size) :
    ∀ fuel δ (s s1 : Search exactRat),
      ExactInv F D (Untouched s0.availableMemory.length len) s0 σ δ s →
      (∀ x ∈ δ, x = pstar) → allocateDynamic exactRat fuel δ.length s = some s1 →
      CommittedPlan s0.availableMemory.length s1.bestCombination
  | 0, _, _, _, _, _, h => by simp [allocateDynamic] at h
  | fuel + 1, δ, s, s1, hinv, hall, h => by
    rw [allocateDynamic_succ] at h
    have hinv1 := hinv.dynamicCall_inv
    split at h
    · rename_i hlen
      have hδ : δ.length = s0.dynamicTensors.length := by rw [hlen, hinv.core.dynamic_len]
      have e := score_paths hinv1.core hσ hδ h
      split at e
      · subst e
        exact hinv1.core.committed_paths
      · rename_i hlt
        subst e
        rcases hinv1.result with hcom | ⟨_, hratio⟩
        · exact hcom
        · exfalso
          apply hlt
          have hgt := smallest_gt _ (-1) (by norm_num)
            (ratio_gt_neg_one hinv1.core hinv1.exact hF hD hall hrem)
          simp only [] at hratio
          show decide (_ < _) = true
          rw [hratio]
          exact decide_eq_true hgt
    · have hmem : pstar ∈ List.range s.availableMemory.length := by
        rw [List.mem_range, hinv.core.mem_len]
        exact hp
      have hJ0 := commitKeeps_untouched F D len s0
      have hJ1 := commitKeeps_settled F D s0
      have hQ := foldlM_option_progress (dynamicIter exactRat fuel δ.length)
        (fun b => ExactInv F D (Untouched s0.availableMemory.length len) s0 σ δ b)
        (fun b => ExactInv F D (Settled s0.availableMemory.length) s0 σ δ b) pstar
        (List.range s.availableMemory.length) hmem
        (fun y _ b b1 hb hstep => exact_dynamic_iteration hJ0 hσ fuel δ y b b1 hb hstep)
        (fun b b1 hb hstep => by
          obtain ⟨c, r, hc, hr, hu⟩ := dynamicIter_eq_some hstep
          have hcinv := hb.dynamicChoose_inv hc
          have hr1 : allocateDynamic exactRat fuel (δ ++ [pstar]).length c = some r := by
            simpa using hr
          have hrinv := exact_allocateDynamic hJ0 hσ fuel (δ ++ [pstar]) c r hcinv hr1
          have hcom := dynamic_commits hσ hF hD hp hrem fuel (δ ++ [pstar]) c r hcinv
            (fun x hx => by
              rcases List.mem_append.mp hx with h1 | h1
              · exact hall x h1
              · simpa using h1) hr1
          have hrs : ExactInv F D (Settled s0.availableMemory.length) s0 σ (δ ++ [pstar]) r :=
            ⟨hrinv.core, hrinv.exact, hcom⟩
          exact hrs.dynamicUnchoose_inv hu)
        (fun y _ b b1 hb hstep => exact_dynamic_iteration hJ1 hσ fuel δ y b b1 hb hstep)
        _ s1 hinv1 h
      exact hQ.result

end GpuMemoryManager

namespace GpuMemoryManager

theorem assignedSum_append_le (l l1 : List Nat) (sizes : List Nat) (p : Nat) :
    assignedSum (l.map some) sizes p ≤ assignedSum ((l ++ l1).map some) sizes p := by
  have h := assignedSum_take_mono ((l ++ l1).map some) sizes p l.length (l ++ l1).length
    (by simp)
  have e1 : ((l ++ l1).map some).take l.length = l.map some := by
    rw [List.map_append, List.take_append_of_le_length (by simp)]
    simp
  have e2 : ((l ++ l1).map some).take (l ++ l1).length = (l ++ l1).map some := by
    apply List.take_of_length_le
    simp
  rw [e1, e2] at h
  exact h

theorem exists_pos_of_sum_pos {α : Type} (f : α → Nat) :
    ∀ l : List α, 0 < (l.map f).sum → ∃ (p : Nat) (m : α), l[p]? = some m ∧ 0 < f m
  | [], h => by simp at h
  | x :: xs, h => by
    by_cases hx : 0 < f x
    · exact ⟨0, x, by simp, hx⟩
    · simp only [List.map_cons, List.sum_cons] at h
      obtain ⟨p, m, hp, hm⟩ := exists_pos_of_sum_pos f xs (by omega)
      exact ⟨p + 1, m, by simpa using hp, hm⟩

/-- The static pass commits a plan when the static tensors placed so far can be completed to a
static assignment. -/
theorem static_commits {F D len : Nat} {s0 : Search exactRat} (hF : 0 < F)
    (hD : s0.dynamicSizes.sum = D) :
    ∀ fuel σ τ (s s1 : Search exactRat),
      ExactInv F D (Untouched s0.availableMemory.length len) s0 σ [] s →
      (σ ++ τ).length = s0.staticTensors.length →
      (∀ x ∈ τ, x < s0.availableMemory.length) →
      (∀ (p : Nat) (m0 : MemoryData exactRat), s0.availableMemory[p]? = some m0 →
        assignedSum ((σ ++ τ).map some) s0.staticSizes p ≤ m0.size) →
      allocateStatic exactRat fuel σ.length s = some s1 →
      CommittedPlan s0.availableMemory.length s1.bestCombination
  | 0, _, _, _, _, _, _, _, _, h => by simp [allocateStatic] at h
  | fuel + 1, σ, τ, s, s1, hinv, hlen, hvalid, hfit, h => by
    rw [allocateStatic_succ] at h
    have hinv1 := hinv.staticCall_inv
    split at h
    · rename_i hfull
      have hσ : σ.length = s0.staticTensors.length := by rw [hfull, hinv.core.static_len]
      have hsum := hinv.exact.size_sum
      have htake : (s0.staticSizes.take σ.length).sum = s0.staticSizes.sum := by
        rw [List.take_of_length_le (by simp [staticSizes, hσ])]
      rw [htake] at hsum
      obtain ⟨p, m, hpm, hpos⟩ := exists_pos_of_sum_pos (fun m : MemoryData exactRat => m.size)
        s.availableMemory (by omega)
      obtain ⟨m0, h0, hrel⟩ := hinv.core.seg p m hpm
      refine dynamic_commits hσ hF hD (List.getElem?_eq_some.mp h0).1 ?_
        (s.dynamicTensors.length + 1) [] _ s1 hinv1 (fun x hx => by simp at hx) h
      intro m1 h1
      rw [h0] at h1
      cases h1
      have := hrel.size
      omega
    · rename_i hne
      have hσlt : σ.length < s0.staticTensors.length := by
        have := hinv.core.static_le
        have := hinv.core.static_len
        omega
      cases τ with
      | nil => simp at hlen; omega
      | cons p1 τ1 =>
        have hp1 : p1 < s0.availableMemory.length := hvalid p1 (List.mem_cons_self _ _)
        have hmem : p1 ∈ List.range s.availableMemory.length := by
          rw [List.mem_range, hinv.core.mem_len]
          exact hp1
        have hJ0 := commitKeeps_untouched F D len s0
        have hJ1 := commitKeeps_settled F D s0
        have happ : σ ++ p1 :: τ1 = (σ ++ [p1]) ++ τ1 := by simp
        have hQ := foldlM_option_progress (staticIter exactRat fuel σ.length)
          (fun b => ExactInv F D (Untouched s0.availableMemory.length len) s0 σ [] b)
          (fun b => ExactInv F D (Settled s0.availableMemory.length) s0 σ [] b) p1
          (List.range s.availableMemory.length) hmem
          (fun y _ b b1 hb hstep => exact_static_iteration hJ0 fuel σ y b b1 hb hstep)
          (fun b b1 hb hstep => by
            rcases staticIter_eq_some hstep with ⟨hf, _⟩ | ⟨c, r, hf, hc, hr, hu⟩
            · exfalso
              obtain ⟨t, m, ht, hm, hdec⟩ := Search.staticFits_eq_some hf
              obtain ⟨m0, h0, hrel⟩ := hb.core.seg p1 m hm
              have h1 := hfit p1 m0 h0
              rw [happ] at h1
              have h2 := assignedSum_append_le (σ ++ [p1]) τ1 s0.staticSizes p1
              have h3 := hb.core.static_sum_snoc σ p1 p1 ht
              rw [if_pos rfl] at h3
              have h4 := hrel.size
              have h5 : ¬ m.size ≥ t.size := by simpa using hdec.symm
              omega
            · have hcinv := hb.staticChoose_inv hf hc
              have hr1 : allocateStatic exactRat fuel (σ ++ [p1]).length c = some r := by
                simpa using hr
              have hrinv := exact_allocateStatic hJ0 fuel (σ ++ [p1]) c r hcinv hr1
              have hcom := static_commits hF hD fuel (σ ++ [p1]) τ1 c r hcinv
                (by rw [← happ]; exact hlen)
                (fun x hx => hvalid x (List.mem_cons_of_mem _ hx))
                (fun p m0 h0 => by rw [← happ]; exact hfit p m0 h0) hr1
              have hrs : ExactInv F D (Settled s0.availableMemory.length) s0 (σ ++ [p1]) [] r :=
                ⟨hrinv.core, hrinv.exact, hcom⟩
              exact hrs.staticUnchoose_inv hu)
          (fun y _ b b1 hb hstep => exact_static_iteration hJ1 fuel σ y b b1 hb hstep)
          _ s1 hinv1 h
        exact hQ.result

end GpuMemoryManager

namespace GpuMemoryManager

variable {A : FloatOps}

theorem foldl_tensor_sizeAdd (l : List (TensorData A)) (acc : Nat) :
    l.foldl (fun dynamicTensorSize tensor => sizeAdd dynamicTensorSize tensor.size) acc
        % sizeModulus
      = (acc + (l.map fun t => t.size).sum) % sizeModulus := by
  induction l generalizing acc with
  | nil => simp
  | cons m ms ih =>
    simp only [List.foldl_cons, List.map_cons, List.sum_cons]
    rw [ih (sizeAdd acc m.size), sizeAdd, Nat.mod_add_mod, Nat.add_assoc]

theorem foldl_tensor_sizeAdd_lt (l : List (TensorData A)) (acc : Nat) (h : acc < sizeModulus) :
    l.foldl (fun dynamicTensorSize tensor => sizeAdd dynamicTensorSize tensor.size) acc
      < sizeModulus := by
  induction l generalizing acc with
  | nil => simpa using h
  | cons m ms ih =>
    simp only [List.foldl_cons]
    exact ih _ (sizeAdd_lt _ _)

/-- Lines 178-179 compute the total of the per-batch sizes when it fits `size_t`. -/
theorem dynamicTensorSizeOf_eq (self : GpuMemoryManager A)
    (h : self.dynamicSizes.sum < sizeModulus) :
    self.dynamicTensorSizeOf = self.dynamicSizes.sum := by
  have h1 := foldl_tensor_sizeAdd self.dynamicTensors 0
  have h2 := foldl_tensor_sizeAdd_lt self.dynamicTensors 0 (by simp [sizeModulus])
  rw [Nat.mod_eq_of_lt h2, Nat.zero_add] at h1
  unfold dynamicTensorSizeOf
  rw [h1]
  exact Nat.mod_eq_of_lt h

/-- The placement pass returns when the plan gives every tensor a segment. -/
theorem place_total {s : Search A}
    (hbest : CommittedPlan s.availableMemory.length s.bestCombination)
    (hlen : s.bestCombination.length = s.staticTensors.length + s.dynamicTensors.length) :
    ∃ r, place s = some r := by
  have hstep : ∀ (k : Nat) (t : TensorData A) (a : Nat)
      (mw : List (MemoryData A) × List (Nat × Nat)),
      k < s.bestCombination.length → mw.1.length = s.availableMemory.length →
      ∃ mw1, placeStep s.bestCombination k t a mw = some mw1
        ∧ mw1.1.length = s.availableMemory.length := by
    intro k t a mw hk hmw
    obtain ⟨p, hp, hb⟩ := hbest k hk
    have hp1 : p < mw.1.length := by rw [hmw]; exact hp
    simp only [placeStep, hb, List.getElem?_eq_getElem hp1]
    exact ⟨_, rfl, by simp [hmw]⟩
  obtain ⟨mw1, h1, hl1⟩ := foldlM_option_total
    (fun mw i =>
      match s.staticTensors[i]? with
      | none => none
      | some t => placeStep s.bestCombination i t t.size mw)
    (fun mw => mw.1.length = s.availableMemory.length) (List.range s.staticTensors.length)
    (fun i hi mw hmw => by
      have hi1 : i < s.staticTensors.length := List.mem_range.mp hi
      simp only [List.getElem?_eq_getElem hi1]
      exact hstep i _ _ mw (by omega) hmw)
    (s.availableMemory.map fun memoryPtr => { memoryPtr with dynamicSize := 0 }, [])
    (by simp)
  obtain ⟨mw2, h2, _⟩ := foldlM_option_total
    (fun mw i =>
      match s.dynamicTensors[i]? with
      | none => none
      | some t =>
        placeStep s.bestCombination (i + s.staticTensors.length) t
          (sizeMul t.size s.largestN) mw)
    (fun mw => mw.1.length = s.availableMemory.length) (List.range s.dynamicTensors.length)
    (fun i hi mw hmw => by
      have hi1 : i < s.dynamicTensors.length := List.mem_range.mp hi
      simp only [List.getElem?_eq_getElem hi1]
      exact hstep (i + s.staticTensors.length) _ _ mw (by omega) hmw)
    mw1 hl1
  unfold place
  have e1 : placeStatic s
      (s.availableMemory.map fun memoryPtr => { memoryPtr with dynamicSize := 0 }, [])
        = some mw1 := h1
  have e2 : placeDynamic s mw1 = some mw2 := h2
  simp only [e1, e2]
  exact ⟨_, rfl⟩

/-- With exact ratios the search commits a plan when a static assignment exists, the static
sizes stay below the capacity and nothing overflows `size_t`. -/
theorem search_commits (self : GpuMemoryManager exactRat) (hwf : SizesInRange self)
    (hlt : self.staticSizes.sum < self.totalCapacity)
    (hdyn : self.dynamicSizes.sum < sizeModulus) (hfeas : StaticFeasible self)
    (s : Search exactRat)
    (hs : self.search (self.totalCapacity - self.staticSizes.sum) = some s) :
    CommittedPlan self.availableMemory.length s.bestCombination := by
  obtain ⟨σ, hlen, hvalid, hfit⟩ := hfeas
  have hinit : ExactInv (self.totalCapacity - self.staticSizes.sum) self.dynamicTensorSizeOf
      (Untouched (self.searchInit (self.totalCapacity - self.staticSizes.sum)).availableMemory.length
        (self.staticTensors.length + self.dynamicTensors.length))
      (self.searchInit (self.totalCapacity - self.staticSizes.sum)) [] []
      (self.searchInit (self.totalCapacity - self.staticSizes.sum)) :=
    ⟨searchInit_core self _ hwf, searchInit_exact self _ (by omega),
      Or.inr ⟨rfl, by simp [searchInit]⟩⟩
  have hmemlen : (self.searchInit (self.totalCapacity - self.staticSizes.sum)).availableMemory.length
      = self.availableMemory.length := by simp [searchInit]
  have h := static_commits (by omega)
    (by rw [searchInit_dynamicSizes, dynamicTensorSizeOf_eq self hdyn])
    (self.staticTensors.length + 1) [] σ _ s hinit
    (by simpa [searchInit] using hlen)
    (by rw [hmemlen]; exact hvalid)
    (fun p m0 h0 => by
      obtain ⟨seg, hseg, hsz, _⟩ := searchInit_mem self _ p m0 h0
      rw [searchInit_staticSizes, hsz]
      exact hfit p seg hseg)
    hs
  rw [hmemlen] at h
  exact h

/-- With exact ratios `Allocate` succeeds when a static assignment exists, a request is
pending, the static sizes stay below the capacity and nothing overflows `size_t`. -/
theorem Allocate_of_feasible (self : GpuMemoryManager exactRat) (hwf : SizesInRange self)
    (hcap : self.totalCapacity < sizeModulus)
    (hlt : self.staticSizes.sum < self.totalCapacity)
    (hreq : 0 < self.staticTensors.length + self.dynamicTensors.length)
    (hdyn : self.dynamicSizes.sum < sizeModulus) (hfeas : StaticFeasible self) :
    ∃ r, Allocate exactRat self = some (Except.ok r) := by
  obtain ⟨s, hs, hcore⟩ := search_total self (self.totalCapacity - self.staticSizes.sum) hwf
  have hcom := search_commits self hwf hlt hdyn hfeas s hs
  have hbl : s.bestCombination.length = self.staticTensors.length + self.dynamicTensors.length := by
    rw [hcore.best_len]; simp [searchInit]
  have hml : s.availableMemory.length = self.availableMemory.length := by
    rw [hcore.mem_len]; simp [searchInit]
  obtain ⟨p, _, hp⟩ := hcom 0 (by omega)
  obtain ⟨r, hr⟩ := place_total (s := s) (by rw [hml]; exact hcom)
    (by rw [hbl, hcore.static_len, hcore.dynamic_len]; simp [searchInit])
  refine ⟨r, ?_⟩
  unfold Allocate
  rw [fragSizeOf_eq self hcap, if_pos (by omega)]
  simp only [hs, hp, hr]

end GpuMemoryManager

namespace GpuMemoryManager

/-- The exit with "No combination found": with at least one pending request, the static total
strictly below the total capacity and no `size_t` overflow, in every arithmetic of the ratios `Allocate` exits with
"No combination found" when no static assignment exists, and then `allocateDynamic` was never
invoked and the plan of the search still is all null pointers; with exact ratios the exit with
"No combination found" happens if and only if no static assignment exists. -/
theorem no_combination_of_infeasible :
    (∀ (A : FloatOps) (self : GpuMemoryManager A), SizesInRange self →
      self.totalCapacity < sizeModulus → self.staticSizes.sum < self.totalCapacity →
      0 < self.staticTensors.length + self.dynamicTensors.length → ¬ StaticFeasible self →
      (∃ e, Allocate A self = some (Except.error e) ∧ e.message = noCombination
        ∧ e.dynamicCalls = 0)
      ∧ ∃ s, self.search (self.totalCapacity - self.staticSizes.sum) = some s
        ∧ s.dynamicCalls = 0
        ∧ s.bestCombination
          = List.replicate (self.staticTensors.length + self.dynamicTensors.length) none)
    ∧ ∀ self : GpuMemoryManager exactRat, SizesInRange self →
      self.totalCapacity < sizeModulus → self.staticSizes.sum < self.totalCapacity →
      0 < self.staticTensors.length + self.dynamicTensors.length →
      self.dynamicSizes.sum < sizeModulus →
      ((∃ e, Allocate exactRat self = some (Except.error e) ∧ e.message = noCombination)
        ↔ ¬ StaticFeasible self) := by
  refine ⟨?_, ?_⟩
  · intro A self hwf hcap hlt hreq hinf
    refine ⟨Allocate_of_infeasible hwf hcap (Nat.le_of_lt hlt) hreq hinf, ?_⟩
    obtain ⟨s, hs, _⟩ := search_total self (self.totalCapacity - self.staticSizes.sum) hwf
    obtain ⟨hcalls, hbest⟩ := search_of_infeasible hwf hinf hs
    exact ⟨s, hs, hcalls, hbest⟩
  · intro self hwf hcap hlt hreq hdyn
    constructor
    · rintro ⟨e, he, _⟩ hfeas
      obtain ⟨r, hr⟩ := Allocate_of_feasible self hwf hcap hlt hreq hdyn hfeas
      rw [hr] at he
      cases he
    · intro hinf
      obtain ⟨e, he, hmsg, _⟩ :=
        Allocate_of_infeasible hwf hcap (Nat.le_of_lt hlt) hreq hinf
      exact ⟨e, he, hmsg⟩

/-- No static assignment exists for one request of 11 bytes on two segments of 10 bytes. -/
theorem infeasible_example (A : FloatOps) :
    ¬ StaticFeasible (pending A [(1000, 10), (2000, 10)] [(0, 11)] []) := by
  rintro ⟨σ, hlen, hvalid, hfit⟩
  match σ, hlen, hvalid, hfit with
  | [x], _, hvalid, hfit =>
    have hx : x < 2 := hvalid x (List.mem_singleton.mpr rfl)
    interval_cases x
    · exact absurd (hfit 0 _ rfl) (show ¬ (11 ≤ 10) by decide)
    · exact absurd (hfit 1 _ rfl) (show ¬ (11 ≤ 10) by decide)

/-- The exit with "No combination found" at concrete inputs:
in binary32, one static request of 11 bytes on two segments of 10
bytes exits with "No combination found" before any dynamic pass; with exact ratios, static
requests of 6 and 6 bytes and a dynamic one of 1 byte on the same segments. -/
theorem no_combination_example :
    (¬ StaticFeasible (pending binary32 [(1000, 10), (2000, 10)] [(0, 11)] [])
      ∧ ∃ e, Allocate binary32 (pending binary32 [(1000, 10), (2000, 10)] [(0, 11)] [])
          = some (Except.error e) ∧ e.message = noCombination ∧ e.dynamicCalls = 0)
    ∧ ((∃ e, Allocate exactRat (pending exactRat [(1000, 10), (2000, 10)] [(0, 6), (1, 6)] [(2, 1)])
          = some (Except.error e) ∧ e.message = noCombination)
        ↔ ¬ StaticFeasible (pending exactRat [(1000, 10), (2000, 10)] [(0, 6), (1, 6)] [(2, 1)])) :=
  ⟨⟨infeasible_example binary32,
      (no_combination_of_infeasible.1 binary32 _ (by unfold SizesInRange; decide) (by decide) (by decide) (by decide)
        (infeasible_example binary32)).1⟩,
    no_combination_of_infeasible.2 _ (by unfold SizesInRange; decide) (by decide) (by decide) (by decide) (by decide)⟩

end GpuMemoryManager

namespace GpuMemoryManager

/-! ### With exact ratios, the search scores every assignment whose static part fits -/

/-- The dynamic pass scores the complete assignment `δs`: what the scoring of `δs` establishes
holds when the pass returns, if every later commit keeps it. -/
theorem dynamic_visits {F D : Nat} {J0 J1 : List (Option Nat) → ℚ → Nat → Prop}
    {s0 : Search exactRat} {σ : List Nat} (hJ0 : CommitKeeps F D J0 s0)
    (hJ1 : CommitKeeps F D J1 s0) (hσ : σ.length = s0.staticTensors.length) (δs : List Nat)
    (hδs : δs.length = s0.dynamicTensors.length)
    (hvalid : ∀ x ∈ δs, x < s0.availableMemory.length)
    (hleaf : ∀ s s1 : Search exactRat, ExactInv F D J0 s0 σ δs s → s.score = some s1 →
      J1 s1.bestCombination s1.largestRatio s1.largestN) :
    ∀ fuel δ τ (s s1 : Search exactRat), δ ++ τ = δs → ExactInv F D J0 s0 σ δ s →
      allocateDynamic exactRat fuel δ.length s = some s1 →
      J1 s1.bestCombination s1.largestRatio s1.largestN
  | 0, _, _, _, _, _, _, h => by simp [allocateDynamic] at h
  | fuel + 1, δ, τ, s, s1, happ, hinv, h => by
    rw [allocateDynamic_succ] at h
    have hinv1 := hinv.dynamicCall_inv
    split at h
    · rename_i hlen
      have hδ : δ.length = s0.dynamicTensors.length := by rw [hlen, hinv.core.dynamic_len]
      have hτ : τ = [] := by
        have := congrArg List.length happ
        rw [List.length_append, hδs, hδ] at this
        exact List.eq_nil_of_length_eq_zero (by omega)
      subst hτ
      rw [List.append_nil] at happ
      subst happ
      exact hleaf _ s1 hinv1 h
    · rename_i hne
      cases τ with
      | nil =>
        exfalso
        rw [List.append_nil] at happ
        subst happ
        exact hne (by rw [hδs]; exact hinv.core.dynamic_len.symm)
      | cons p1 τ1 =>
        have happ1 : (δ ++ [p1]) ++ τ1 = δs := by rw [← happ]; simp
        have hp1 : p1 < s0.availableMemory.length :=
          hvalid p1 (by rw [← happ]; simp)
        have hmem : p1 ∈ List.range s.availableMemory.length := by
          rw [List.mem_range, hinv.core.mem_len]
          exact hp1
        have hQ := foldlM_option_progress (dynamicIter exactRat fuel δ.length)
          (fun b => ExactInv F D J0 s0 σ δ b) (fun b => ExactInv F D J1 s0 σ δ b) p1
          (List.range s.availableMemory.length) hmem
          (fun y _ b b1 hb hstep => exact_dynamic_iteration hJ0 hσ fuel δ y b b1 hb hstep)
          (fun b b1 hb hstep => by
            obtain ⟨c, r, hc, hr, hu⟩ := dynamicIter_eq_some hstep
            have hcinv := hb.dynamicChoose_inv hc
            have hr1 : allocateDynamic exactRat fuel (δ ++ [p1]).length c = some r := by
              simpa using hr
            have hrinv := exact_allocateDynamic hJ0 hσ fuel (δ ++ [p1]) c r hcinv hr1
            have hres := dynamic_visits hJ0 hJ1 hσ δs hδs hvalid hleaf fuel (δ ++ [p1]) τ1 c r
              happ1 hcinv hr1
            have hrs : ExactInv F D J1 s0 σ (δ ++ [p1]) r := ⟨hrinv.core, hrinv.exact, hres⟩
            exact hrs.dynamicUnchoose_inv hu)
          (fun y _ b b1 hb hstep => exact_dynamic_iteration hJ1 hσ fuel δ y b b1 hb hstep)
          _ s1 hinv1 h
        exact hQ.result

/-- The static pass reaches every static assignment `σs` that fits and the dynamic pass then
scores every `δs`: what the scoring of `(σs, δs)` establishes holds when the search returns, if
every later commit keeps it. -/
theorem static_visits {F D : Nat} {J0 J1 : List (Option Nat) → ℚ → Nat → Prop}
    {s0 : Search exactRat} (hJ0 : CommitKeeps F D J0 s0) (hJ1 : CommitKeeps F D J1 s0)
    (σs δs : List Nat) (hσs : σs.length = s0.staticTensors.length)
    (hδs : δs.length = s0.dynamicTensors.length)
    (hσv : ∀ x ∈ σs, x < s0.availableMemory.length)
    (hδv : ∀ x ∈ δs, x < s0.availableMemory.length)
    (hfit : ∀ (p : Nat) (m0 : MemoryData exactRat), s0.availableMemory[p]? = some m0 →
      assignedSum (σs.map some) s0.staticSizes p ≤ m0.size)
    (hleaf : ∀ s s1 : Search exactRat, ExactInv F D J0 s0 σs δs s → s.score = some s1 →
      J1 s1.bestCombination s1.largestRatio s1.largestN) :
    ∀ fuel σ τ (s s1 : Search exactRat), σ ++ τ = σs → ExactInv F D J0 s0 σ [] s →
      allocateStatic exactRat fuel σ.length s = some s1 →
      J1 s1.bestCombination s1.largestRatio s1.largestN
  | 0, _, _, _, _, _, _, h => by simp [allocateStatic] at h
  | fuel + 1, σ, τ, s, s1, happ, hinv, h => by
    rw [allocateStatic_succ] at h
    have hinv1 := hinv.staticCall_inv
    split at h
    · rename_i hfull
      have hσ : σ.length = s0.staticTensors.length := by rw [hfull, hinv.core.static_len]
      have hτ : τ = [] := by
        have := congrArg List.length happ
        rw [List.length_append, hσs, hσ] at this
        exact List.eq_nil_of_length_eq_zero (by omega)
      subst hτ
      rw [List.append_nil] at happ
      subst happ
      exact dynamic_visits hJ0 hJ1 hσ δs hδs hδv hleaf (s.dynamicTensors.length + 1) [] δs _ s1
        (List.nil_append _) hinv1 h
    · rename_i hne
      cases τ with
      | nil =>
        exfalso
        rw [List.append_nil] at happ
        subst happ
        exact hne (by rw [hσs]; exact hinv.core.static_len.symm)
      | cons p1 τ1 =>
        have happ1 : (σ ++ [p1]) ++ τ1 = σs := by rw [← happ]; simp
        have hp1 : p1 < s0.availableMemory.length :=
          hσv p1 (by rw [← happ]; simp)
        have hmem : p1 ∈ List.range s.availableMemory.length := by
          rw [List.mem_range, hinv.core.mem_len]
          exact hp1
        have hQ := foldlM_option_progress (staticIter exactRat fuel σ.length)
          (fun b => ExactInv F D J0 s0 σ [] b) (fun b => ExactInv F D J1 s0 σ [] b) p1
          (List.range s.availableMemory.length) hmem
          (fun y _ b b1 hb hstep => exact_static_iteration hJ0 fuel σ y b b1 hb hstep)
          (fun b b1 hb hstep => by
            rcases staticIter_eq_some hstep with ⟨hf, _⟩ | ⟨c, r, hf, hc, hr, hu⟩
            · exfalso
              obtain ⟨t, m, ht, hm, hdec⟩ := Search.staticFits_eq_some hf
              obtain ⟨m0, h0, hrel⟩ := hb.core.seg p1 m hm
              have h1 := hfit p1 m0 h0
              rw [← happ1] at h1
              have h2 := assignedSum_append_le (σ ++ [p1]) τ1 s0.staticSizes p1
              have h3 := hb.core.static_sum_snoc σ p1 p1 ht
              rw [if_pos rfl] at h3
              have h4 := hrel.size
              have h5 : ¬ m.size ≥ t.size := by simpa using hdec.symm
              omega
            · have hcinv := hb.staticChoose_inv hf hc
              have hr1 : allocateStatic exactRat fuel (σ ++ [p1]).length c = some r := by
                simpa using hr
              have hrinv := exact_allocateStatic hJ0 fuel (σ ++ [p1]) c r hcinv hr1
              have hres := static_visits hJ0 hJ1 σs δs hσs hδs hσv hδv hfit hleaf fuel
                (σ ++ [p1]) τ1 c r happ1 hcinv hr1
              have hrs : ExactInv F D J1 s0 (σ ++ [p1]) [] r := ⟨hrinv.core, hrinv.exact, hres⟩
              exact hrs.staticUnchoose_inv hu)
          (fun y _ b b1 hb hstep => exact_static_iteration hJ1 fuel σ y b b1 hb hstep)
          _ s1 hinv1 h
        exact hQ.result

end GpuMemoryManager

namespace GpuMemoryManager

/-! ### With exact ratios, the committed plan has the largest bottleneck ratio -/

theorem le_sum_map {α : Type} (f : α → Nat) (l : List α) (x : α) (hx : x ∈ l) :
    f x ≤ (l.map f).sum := by
  induction l with
  | nil => simp at hx
  | cons y ys ih =>
    simp only [List.map_cons, List.sum_cons]
    rcases List.mem_cons.mp hx with h | h
    · subst h; omega
    · have := ih h
      omega

/-- The first dynamic tensor contributes to the segment it goes to. -/
theorem first_dynamic_pos (δ : List Nat) (sizes : List Nat) (hlen : δ.length = sizes.length)
    (hne : 0 < sizes.length) (hpos : ∀ d ∈ sizes, 0 < d) :
    ∃ p ∈ δ, 0 < assignedSum (δ.map some) sizes p := by
  cases δ with
  | nil => simp at hlen; omega
  | cons x xs =>
    cases sizes with
    | nil => simp at hne
    | cons d ds =>
      refine ⟨x, List.mem_cons_self _ _, ?_⟩
      rw [List.map_cons, assignedSum_cons, if_pos rfl]
      have := hpos d (List.mem_cons_self _ _)
      omega

/-- On a fresh manager the accumulator of a segment is the sum of the per-batch sizes of the
dynamic tensors placed on it so far. -/
theorem Core.accumulator {A : FloatOps} {s0 s : Search A} {σ δ : List Nat} (h : Core s0 σ δ s)
    (hfresh : ∀ m0 ∈ s0.availableMemory, m0.dynamicSize = 0)
    (hD : s0.dynamicSizes.sum < sizeModulus) {p : Nat} {m : MemoryData A}
    (hm : s.availableMemory[p]? = some m) :
    m.dynamicSize = assignedSum (δ.map some) s0.dynamicSizes p := by
  obtain ⟨m0, h0, hrel⟩ := h.seg p m hm
  rw [hrel.dynamicSize, hfresh m0 (List.getElem?_mem h0), Nat.zero_add]
  exact Nat.mod_eq_of_lt (Nat.lt_of_le_of_lt (assignedSum_le_sum _ _ _) hD)

/-- The ratio of a segment in a state of the search, in terms of the paths. -/
theorem Exact.ratio_eq {F D : Nat} {s0 s : Search exactRat} {σ δ : List Nat}
    (hc : Core s0 σ δ s) (he : Exact F D s0 σ δ s) {p : Nat} {m : MemoryData exactRat}
    (hm : s.availableMemory[p]? = some m) : m.ratio = pathRatio F D s0 σ δ p := by
  obtain ⟨m0, h0, hrel⟩ := hc.seg p m hm
  rw [he.seg_ratio p m hm]
  simp only [pathRatio, h0]
  have : m0.size - assignedSum (σ.map some) s0.staticSizes p = m.size := by
    have := hrel.size
    omega
  rw [this]

/-- At a complete assignment on a fresh manager with a dynamic tensor pending, the scan of
lines 123-132 finds a segment that holds dynamic tensors: its ratio, its remaining size and
its dynamic bytes per batch, and no segment that holds dynamic tensors has a smaller ratio. -/
theorem smallest_bottleneck {F D : Nat} {s0 s : Search exactRat} {σ δ : List Nat}
    (hc : Core s0 σ δ s) (he : Exact F D s0 σ δ s)
    (hσ : σ.length = s0.staticTensors.length) (hδ : δ.length = s0.dynamicTensors.length)
    (hfresh : ∀ m0 ∈ s0.availableMemory, m0.dynamicSize = 0)
    (hD : s0.dynamicSizes.sum = D) (hDM : D < sizeModulus)
    (hne : 0 < s0.dynamicTensors.length) (hpos : ∀ d ∈ s0.dynamicSizes, 0 < d) :
    ∃ (b : Nat) (m0 : MemoryData exactRat), s0.availableMemory[b]? = some m0
      ∧ 0 < assignedSum (δ.map some) s0.dynamicSizes b
      ∧ s.smallest = (pathRatio F D s0 σ δ b,
          m0.size - assignedSum (σ.map some) s0.staticSizes b,
          assignedSum (δ.map some) s0.dynamicSizes b)
      ∧ ∀ p, p < s0.availableMemory.length → 0 < assignedSum (δ.map some) s0.dynamicSizes p →
          s.smallest.1 ≤ pathRatio F D s0 σ δ p := by
  have hDM1 : s0.dynamicSizes.sum < sizeModulus := by rw [hD]; exact hDM
  have hle := smallest_le s
  have hleast : ∀ p, p < s0.availableMemory.length →
      0 < assignedSum (δ.map some) s0.dynamicSizes p →
      s.smallest.1 ≤ pathRatio F D s0 σ δ p := by
    intro p hp hpos1
    have hp1 : p < s.availableMemory.length := by rw [hc.mem_len]; exact hp
    have hm := List.getElem?_eq_getElem hp1
    rw [← Exact.ratio_eq hc he hm]
    exact hle.2 _ (List.getElem?_mem hm) (by rw [hc.accumulator hfresh hDM1 hm]; exact hpos1)
  rcases smallest_cases s with h1 | ⟨b, m, hm, hmpos, hsm⟩
  · exfalso
    obtain ⟨p, hpδ, hppos⟩ := first_dynamic_pos δ s0.dynamicSizes
      (by rw [hδ]; simp [dynamicSizes]) (by simpa [dynamicSizes] using hne) hpos
    have hp := hc.dynamic_valid p hpδ
    have h2 := hleast p hp hppos
    rw [h1] at h2
    have hp1 : p < s.availableMemory.length := by rw [hc.mem_len]; exact hp
    have hm := List.getElem?_eq_getElem hp1
    rw [← Exact.ratio_eq hc he hm, he.seg_ratio p _ hm] at h2
    have hsum := he.size_sum
    have htake : (s0.staticSizes.take σ.length).sum = s0.staticSizes.sum := by
      rw [List.take_of_length_le (by simp [staticSizes, hσ])]
    rw [htake] at hsum
    have hsz : (s.availableMemory[p]).size ≤ F := by
      have h5 : (s.availableMemory[p]).size ≤ (s.availableMemory.map fun m => m.size).sum :=
        le_sum_map (fun m : MemoryData exactRat => m.size) s.availableMemory
          (s.availableMemory[p]) (List.getElem_mem _)
      omega
    have h3 := cast_div_le_one _ _ hsz
    have hDpos : (0 : ℚ) < (D : ℚ) := by
      have := assignedSum_le_sum (δ.map some) s0.dynamicSizes p
      exact_mod_cast (by omega : 0 < D)
    have h4 : (0 : ℚ) < (assignedSum (δ.map some) s0.dynamicSizes p : ℚ) / (D : ℚ) :=
      div_pos (by exact_mod_cast hppos) hDpos
    simp only [Int.cast_one] at h2
    linarith
  · obtain ⟨m0, h0, hrel⟩ := hc.seg b m hm
    have hacc := hc.accumulator hfresh hDM1 hm
    refine ⟨b, m0, h0, by rw [← hacc]; exact hmpos, ?_, hleast⟩
    rw [hsm, Exact.ratio_eq hc he hm, hacc]
    have : m0.size - assignedSum (σ.map some) s0.staticSizes b = m.size := by
      have := hrel.size
      omega
    rw [this]

end GpuMemoryManager

namespace GpuMemoryManager

theorem commitKeeps_unconstrained (F D : Nat) (s0 : Search exactRat) :
    CommitKeeps F D Unconstrained s0 :=
  fun _ _ _ _ _ _ _ _ _ => trivial

theorem commitKeeps_dominates (F D : Nat) (s0 : Search exactRat) (σs δs : List Nat) :
    CommitKeeps F D (Dominates F D s0 σs δs) s0 := by
  intro σ δ s _ _ _ _ hJ hlt
  obtain ⟨p, hp, hpos, hle⟩ := hJ
  have h : s.largestRatio < s.smallest.1 := of_decide_eq_true hlt
  exact ⟨p, hp, hpos, le_trans hle (le_of_lt h)⟩

/-- Every commit on a fresh manager with a dynamic tensor pending records the bottleneck of the
assignment it commits. -/
theorem commitKeeps_bottlenecked (F : Nat) {D : Nat} {s0 : Search exactRat} (len : Nat)
    (hfresh : ∀ m0 ∈ s0.availableMemory, m0.dynamicSize = 0)
    (hD : s0.dynamicSizes.sum = D) (hDM : D < sizeModulus)
    (hne : 0 < s0.dynamicTensors.length) (hpos : ∀ d ∈ s0.dynamicSizes, 0 < d) :
    CommitKeeps F D (Bottlenecked F D s0 len) s0 := by
  intro σ δ s hc he hσ hδ _ _
  obtain ⟨b, m0, h0, hbpos, hsm, hleast⟩ :=
    smallest_bottleneck hc he hσ hδ hfresh hD hDM hne hpos
  refine Or.inr ⟨σ, δ, b, ?_⟩
  rw [hsm] at hleast ⊢
  exact
    { plan := rfl
      static_len := hσ
      dynamic_len := hδ
      static_valid := hc.static_valid
      dynamic_valid := hc.dynamic_valid
      fits := fun p m1 h1 => by
        have hp : p < s.availableMemory.length := by
          rw [hc.mem_len]
          exact (List.getElem?_eq_some.mp h1).1
        obtain ⟨m2, h2, hrel⟩ := hc.seg p _ (List.getElem?_eq_getElem hp)
        rw [h1] at h2
        cases h2
        have := hrel.size
        omega
      seg := (List.getElem?_eq_some.mp h0).1
      holds := hbpos
      count := fun m1 h1 => by
        rw [h0] at h1
        cases h1
        exact if_pos hbpos
      ratio_eq := rfl
      least := hleast }

/-- The scoring of a complete assignment leaves `largestRatio` at least as large as the ratio
of its bottleneck. -/
theorem dominates_leaf {F D : Nat} {s0 : Search exactRat} {σ δ : List Nat}
    (hσ : σ.length = s0.staticTensors.length) (hδ : δ.length = s0.dynamicTensors.length)
    (hfresh : ∀ m0 ∈ s0.availableMemory, m0.dynamicSize = 0)
    (hD : s0.dynamicSizes.sum = D) (hDM : D < sizeModulus)
    (hne : 0 < s0.dynamicTensors.length) (hpos : ∀ d ∈ s0.dynamicSizes, 0 < d)
    (s s1 : Search exactRat) (hinv : ExactInv F D Unconstrained s0 σ δ s)
    (hs : s.score = some s1) :
    Dominates F D s0 σ δ s1.bestCombination s1.largestRatio s1.largestN := by
  obtain ⟨b, m0, h0, hbpos, hsm, _⟩ :=
    smallest_bottleneck hinv.core hinv.exact hσ hδ hfresh hD hDM hne hpos
  have hb := (List.getElem?_eq_some.mp h0).1
  have h1 : s.smallest.1 = pathRatio F D s0 σ δ b := by rw [hsm]
  have e := score_paths hinv.core hσ hδ hs
  by_cases hlt : exactRat.lt s.largestRatio s.smallest.1 = true
  · rw [if_pos hlt] at e
    subst e
    exact ⟨b, hb, hbpos, le_of_eq h1.symm⟩
  · rw [if_neg hlt] at e
    have h2 : ¬ s.largestRatio < s.smallest.1 := fun h => hlt (decide_eq_true h)
    subst e
    exact ⟨b, hb, hbpos, by rw [← h1]; exact not_lt.mp h2⟩

/-- With exact ratios on a fresh manager with a dynamic tensor pending, the result parameters
of the search are those of a commit, unless nothing was committed, and `largestRatio` is at
least the bottleneck ratio of every complete assignment whose static part fits. -/
theorem search_bottleneck (self : GpuMemoryManager exactRat) (hwf : SizesInRange self)
    (hfresh : Fresh self) (hle : self.staticSizes.sum ≤ self.totalCapacity)
    (hne : 0 < self.dynamicTensors.length) (hpos : ∀ d ∈ self.dynamicSizes, 0 < d)
    (hdyn : self.dynamicSizes.sum < sizeModulus) (s : Search exactRat)
    (hs : self.search (self.totalCapacity - self.staticSizes.sum) = some s) :
    Bottlenecked (self.totalCapacity - self.staticSizes.sum) self.dynamicSizes.sum
        (self.searchInit (self.totalCapacity - self.staticSizes.sum))
        (self.staticTensors.length + self.dynamicTensors.length)
        s.bestCombination s.largestRatio s.largestN
      ∧ ∀ σ δ, StaticAssignment self σ → δ.length = self.dynamicTensors.length →
        (∀ x ∈ δ, x < self.availableMemory.length) →
        Dominates (self.totalCapacity - self.staticSizes.sum) self.dynamicSizes.sum
          (self.searchInit (self.totalCapacity - self.staticSizes.sum)) σ δ
          s.bestCombination s.largestRatio s.largestN := by
  have hcore := searchInit_core self (self.totalCapacity - self.staticSizes.sum) hwf
  have hexact := searchInit_exact self (self.totalCapacity - self.staticSizes.sum) (by omega)
  rw [dynamicTensorSizeOf_eq self hdyn] at hexact
  have hfresh0 : ∀ m0 ∈ (self.searchInit (self.totalCapacity - self.staticSizes.sum)).availableMemory,
      m0.dynamicSize = 0 := by
    intro m0 hm0
    obtain ⟨p, hp⟩ := List.mem_iff_getElem?.mp hm0
    obtain ⟨seg, hseg, _, _, hd, _⟩ := searchInit_mem self _ p m0 hp
    rw [hd]
    exact hfresh seg (List.getElem?_mem hseg)
  have hD0 := searchInit_dynamicSizes self (self.totalCapacity - self.staticSizes.sum)
  have hne0 : 0 < (self.searchInit (self.totalCapacity - self.staticSizes.sum)).dynamicTensors.length := by
    simpa [searchInit] using hne
  have hmemlen : (self.searchInit (self.totalCapacity - self.staticSizes.sum)).availableMemory.length
      = self.availableMemory.length := by simp [searchInit]
  refine ⟨?_, ?_⟩
  · have hJ := commitKeeps_bottlenecked (self.totalCapacity - self.staticSizes.sum)
      (self.staticTensors.length + self.dynamicTensors.length) hfresh0
      (congrArg List.sum hD0) hdyn hne0 (by rw [hD0]; exact hpos)
    exact (exact_allocateStatic hJ (self.staticTensors.length + 1) [] _ s
      ⟨hcore, hexact, Or.inl rfl⟩ hs).result
  · intro σ δ hσ hδ hδv
    obtain ⟨hlen, hvalid, hfit⟩ := hσ
    have hσ0 : σ.length
        = (self.searchInit (self.totalCapacity - self.staticSizes.sum)).staticTensors.length := by
      simpa [searchInit] using hlen
    have hδ0 : δ.length
        = (self.searchInit (self.totalCapacity - self.staticSizes.sum)).dynamicTensors.length := by
      simpa [searchInit] using hδ
    exact static_visits (commitKeeps_unconstrained _ _ _) (commitKeeps_dominates _ _ _ σ δ)
      σ δ hσ0 hδ0 (by rw [hmemlen]; exact hvalid) (by rw [hmemlen]; exact hδv)
      (fun p m0 h0 => by
        obtain ⟨seg, hseg, hsz, _⟩ := searchInit_mem self _ p m0 h0
        rw [searchInit_staticSizes, hsz]
        exact hfit p seg hseg)
      (dominates_leaf hσ0 hδ0 hfresh0 (congrArg List.sum hD0) hdyn hne0
        (by rw [hD0]; exact hpos))
      (self.staticTensors.length + 1) [] σ _ s (List.nil_append _)
      ⟨hcore, hexact, trivial⟩ hs

end GpuMemoryManager

namespace GpuMemoryManager

theorem staticOn_paths (self : GpuMemoryManager exactRat) (σ δ : List Nat)
    (hσ : σ.length = self.staticTensors.length) (p : Nat) :
    self.staticOn (σ.map some ++ δ.map some) p = assignedSum (σ.map some) self.staticSizes p := by
  unfold staticOn
  rw [List.take_left' (by simp [hσ])]

theorem dynamicOn_paths (self : GpuMemoryManager exactRat) (σ δ : List Nat)
    (hσ : σ.length = self.staticTensors.length) (p : Nat) :
    self.dynamicOn (σ.map some ++ δ.map some) p
      = assignedSum (δ.map some) self.dynamicSizes p := by
  unfold dynamicOn
  rw [List.drop_left' (by simp [hσ])]

/-- The ratio of the search along the paths is the ratio of the plan. -/
theorem pathRatio_eq (self : GpuMemoryManager exactRat) (σ δ : List Nat)
    (hσ : σ.length = self.staticTensors.length) (p : Nat) :
    pathRatio (self.totalCapacity - self.staticSizes.sum) self.dynamicSizes.sum
        (self.searchInit (self.totalCapacity - self.staticSizes.sum)) σ δ p
      = planRatio self (σ.map some ++ δ.map some) p := by
  unfold pathRatio planRatio
  rw [staticOn_paths self σ δ hσ, dynamicOn_paths self σ δ hσ, searchInit_staticSizes,
    searchInit_dynamicSizes]
  cases h : self.availableMemory[p]? with
  | none => simp [searchInit, h]
  | some seg => simp [searchInit, h]

theorem place_result {A : FloatOps} {s : Search A} {r : AllocResult A}
    (h : place s = some r) :
    r.largestN = s.largestN ∧ r.bestCombination = s.bestCombination := by
  unfold place at h
  split at h
  · cases h
  · split at h
    · cases h
    · cases h
      exact ⟨rfl, rfl⟩

/-- The plan of largest bottleneck ratio:
with exact ratios, on a freshly constructed manager with at least one dynamic
request pending (per-batch sizes at least 1), the static total strictly below the total
capacity and no `size_t` overflow, a run of `Allocate` that succeeds commits a complete
assignment whose static part fits; the returned batch count is the remaining size of one
segment `b` of the plan divided by the dynamic bytes per batch the plan gives it; `b` is the
bottleneck of the plan, the segment with the least ratio (remaining size over `fragSize` minus
dynamic bytes per batch over `dynamicTensorSize`) among the segments that hold dynamic tensors;
and every other complete assignment whose static part fits has a segment that holds dynamic
tensors with a ratio at most that of `b`: the plan maximises the bottleneck ratio, not the batch
count. -/
theorem exact_bottleneck_ratio (self : GpuMemoryManager exactRat) (r : AllocResult exactRat)
    (hwf : SizesInRange self) (hfresh : Fresh self) (hcap : self.totalCapacity < sizeModulus)
    (hlt : self.staticSizes.sum < self.totalCapacity)
    (hne : 0 < self.dynamicTensors.length) (hpos : ∀ d ∈ self.dynamicSizes, 0 < d)
    (hdyn : self.dynamicSizes.sum < sizeModulus)
    (hrun : Allocate exactRat self = some (Except.ok r)) :
    (∃ σ δ : List Nat, r.bestCombination = σ.map some ++ δ.map some ∧ StaticAssignment self σ
        ∧ δ.length = self.dynamicTensors.length ∧ ∀ x ∈ δ, x < self.availableMemory.length)
      ∧ ∃ (b : Nat) (seg : MemoryData exactRat), self.availableMemory[b]? = some seg
        ∧ 0 < self.dynamicOn r.bestCombination b
        ∧ self.staticOn r.bestCombination b ≤ seg.size
        ∧ r.largestN
          = (seg.size - self.staticOn r.bestCombination b) / self.dynamicOn r.bestCombination b
        ∧ (∀ p, p < self.availableMemory.length → 0 < self.dynamicOn r.bestCombination p →
            planRatio self r.bestCombination b ≤ planRatio self r.bestCombination p)
        ∧ ∀ σ δ : List Nat, StaticAssignment self σ → δ.length = self.dynamicTensors.length →
            (∀ x ∈ δ, x < self.availableMemory.length) →
            ∃ p, p < self.availableMemory.length
              ∧ 0 < self.dynamicOn (σ.map some ++ δ.map some) p
              ∧ planRatio self (σ.map some ++ δ.map some) p
                ≤ planRatio self r.bestCombination b := by
  obtain ⟨F, s, p0, hF, hs, hb0, hplace⟩ := Allocate_ok hrun
  rw [fragSizeOf_eq self hcap, if_pos (Nat.le_of_lt hlt)] at hF
  cases hF
  obtain ⟨hN, hbest⟩ := place_result hplace
  obtain ⟨hB, hDom⟩ := search_bottleneck self hwf hfresh (Nat.le_of_lt hlt) hne hpos hdyn s hs
  have hmemlen : (self.searchInit (self.totalCapacity - self.staticSizes.sum)).availableMemory.length
      = self.availableMemory.length := by simp [searchInit]
  have hSlen : (self.searchInit (self.totalCapacity - self.staticSizes.sum)).staticTensors.length
      = self.staticTensors.length := by simp [searchInit]
  have hDlen : (self.searchInit (self.totalCapacity - self.staticSizes.sum)).dynamicTensors.length
      = self.dynamicTensors.length := by simp [searchInit]
  rcases hB with hrep | ⟨σ, δ, b, hcom⟩
  · exfalso
    rw [hrep, List.getElem?_replicate, if_pos (by omega)] at hb0
    cases hb0
  · have hσ : σ.length = self.staticTensors.length := by rw [hcom.static_len, hSlen]
    have hbn : b < self.availableMemory.length := by rw [← hmemlen]; exact hcom.seg
    have hfits : ∀ (p : Nat) (seg : MemoryData exactRat), self.availableMemory[p]? = some seg →
        assignedSum (σ.map some) self.staticSizes p ≤ seg.size := by
      intro p seg hseg
      have hp : p < (self.searchInit (self.totalCapacity
          - self.staticSizes.sum)).availableMemory.length := by
        rw [hmemlen]
        exact (List.getElem?_eq_some.mp hseg).1
      have h0 := List.getElem?_eq_getElem hp
      obtain ⟨seg1, hseg1, hsz, _⟩ := searchInit_mem self _ p _ h0
      rw [hseg] at hseg1
      cases hseg1
      have := hcom.fits p _ h0
      rw [searchInit_staticSizes, hsz] at this
      exact this
    rw [hbest, hcom.plan]
    refine ⟨⟨σ, δ, rfl, ⟨hσ, fun x hx => by rw [← hmemlen]; exact hcom.static_valid x hx, hfits⟩,
      hcom.dynamic_len.trans hDlen,
      fun x hx => by rw [← hmemlen]; exact hcom.dynamic_valid x hx⟩, ?_⟩
    have h0 := List.getElem?_eq_getElem hcom.seg
    obtain ⟨seg, hseg, hsz, _⟩ := searchInit_mem self _ b _ h0
    refine ⟨b, seg, hseg, ?_, ?_, ?_, ?_, ?_⟩
    · rw [dynamicOn_paths self σ δ hσ, ← searchInit_dynamicSizes self]
      exact hcom.holds
    · rw [staticOn_paths self σ δ hσ]
      exact hfits b seg hseg
    · rw [hN, hcom.count _ h0, staticOn_paths self σ δ hσ, dynamicOn_paths self σ δ hσ,
        searchInit_staticSizes, searchInit_dynamicSizes, hsz]
    · intro p hp hdp
      rw [← pathRatio_eq self σ δ hσ, ← pathRatio_eq self σ δ hσ, ← hcom.ratio_eq]
      refine hcom.least p (by rw [hmemlen]; exact hp) ?_
      rw [searchInit_dynamicSizes, ← dynamicOn_paths self σ δ hσ]
      exact hdp
    · intro σ1 δ1 hσ1 hδ1 hδv
      obtain ⟨p, hp, hdp, hle⟩ := hDom σ1 δ1 hσ1 hδ1 hδv
      refine ⟨p, by rw [← hmemlen]; exact hp, ?_, ?_⟩
      · rw [dynamicOn_paths self σ1 δ1 hσ1.1, ← searchInit_dynamicSizes self]
        exact hdp
      · rw [← pathRatio_eq self σ1 δ1 hσ1.1, ← pathRatio_eq self σ δ hσ, ← hcom.ratio_eq]
        exact hle

/-- The plan of largest bottleneck ratio at a concrete input:
fresh segments of 2 and 6 bytes and two dynamic requests of 1 byte
per batch. -/
theorem exact_bottleneck_ratio_example :
    ∃ (b : Nat) (seg : MemoryData exactRat),
      (pending exactRat [(1000, 2), (2000, 6)] [] [(0, 1), (1, 1)]).availableMemory[b]? = some seg
      ∧ 0 < (pending exactRat [(1000, 2), (2000, 6)] [] [(0, 1), (1, 1)]).dynamicOn
          (resultOr (Allocate exactRat
            (pending exactRat [(1000, 2), (2000, 6)] [] [(0, 1), (1, 1)]))).bestCombination b
      ∧ (resultOr (Allocate exactRat
            (pending exactRat [(1000, 2), (2000, 6)] [] [(0, 1), (1, 1)]))).largestN
        = (seg.size - (pending exactRat [(1000, 2), (2000, 6)] [] [(0, 1), (1, 1)]).staticOn
            (resultOr (Allocate exactRat
              (pending exactRat [(1000, 2), (2000, 6)] [] [(0, 1), (1, 1)]))).bestCombination b)
          / (pending exactRat [(1000, 2), (2000, 6)] [] [(0, 1), (1, 1)]).dynamicOn
            (resultOr (Allocate exactRat
              (pending exactRat [(1000, 2), (2000, 6)] [] [(0, 1), (1, 1)]))).bestCombination b :=
  (exact_bottleneck_ratio (pending exactRat [(1000, 2), (2000, 6)] [] [(0, 1), (1, 1)]) _
    (by unfold SizesInRange; decide) (by unfold Fresh; decide) (by decide) (by decide)
    (by decide) (by decide) (by decide) (Allocate_of_isSome (by decide!))).2.imp
    fun _ h => h.imp fun _ h => ⟨h.1, h.2.1, h.2.2.2.1⟩

end GpuMemoryManager

namespace GpuMemoryManager

variable {A : FloatOps}

/-! ### Registration, and what the placement pass leaves unchanged -/

/-- One placement step writes one address to the slot of its tensor and changes no base
address and no size. -/
theorem placeStep_frame {best : List (Option Nat)} {k a : Nat} {t : TensorData A}
    {mw mw1 : List (MemoryData A) × List (Nat × Nat)}
    (h : placeStep best k t a mw = some mw1) :
    (mw1.1.map fun m => (m.address, m.size)) = (mw.1.map fun m => (m.address, m.size))
      ∧ mw1.2.map Prod.fst = mw.2.map Prod.fst ++ [t.address] := by
  unfold placeStep at h
  split at h
  · split at h
    · rename_i p _ _ m hm
      cases h
      refine ⟨?_, by simp⟩
      simp only [List.map_set]
      apply List.ext_getElem?
      intro i
      by_cases hi : i = p
      · subst hi
        have hlt : i < mw.1.length := (List.getElem?_eq_some.mp hm).1
        rw [List.getElem?_set_self (by simpa using hlt)]
        simp [hm]
      · rw [List.getElem?_set_ne (fun h => hi h.symm)]
    · cases h
  · cases h

/-- A placement loop writes the slots of its tensors in order and changes no base address and
no size. -/
theorem placeLoop_frame (best : List (Option Nat)) (ts : List (TensorData A))
    (f : TensorData A → Nat) (off : Nat) :
    ∀ (n : Nat) (mw mw1 : List (MemoryData A) × List (Nat × Nat)), n ≤ ts.length →
      (List.range n).foldlM
          (fun mw i =>
            match ts[i]? with
            | none => none
            | some t => placeStep best (i + off) t (f t) mw)
          mw = some mw1 →
      (mw1.1.map fun m => (m.address, m.size)) = (mw.1.map fun m => (m.address, m.size))
        ∧ mw1.2.map Prod.fst = mw.2.map Prod.fst ++ (ts.take n).map fun t => t.address
  | 0, mw, mw1, _, hrun => by
    simp only [List.range_zero, List.foldlM_nil, pure, Option.some.injEq] at hrun
    subst hrun
    simp
  | n + 1, mw, mw1, hn, hrun => by
    rw [List.range_succ, List.foldlM_append] at hrun
    simp only [bind, Option.bind, List.foldlM_cons, List.foldlM_nil, pure] at hrun
    cases hmwn : (List.range n).foldlM
        (fun mw i =>
          match ts[i]? with
          | none => none
          | some t => placeStep best (i + off) t (f t) mw) mw with
    | none => rw [hmwn] at hrun; cases hrun
    | some mwn =>
      rw [hmwn] at hrun
      obtain ⟨h1, h2⟩ := placeLoop_frame best ts f off n mw mwn (by omega) hmwn
      cases ht : ts[n]? with
      | none => simp [ht] at hrun
      | some t =>
        simp only [ht] at hrun
        cases hstep : placeStep best (n + off) t (f t) mwn with
        | none => simp [hstep] at hrun
        | some mwn1 =>
          simp only [hstep, Option.some.injEq] at hrun
          subst hrun
          obtain ⟨h3, h4⟩ := placeStep_frame hstep
          refine ⟨h3.trans h1, ?_⟩
          rw [h4, h2, List.take_succ, ht]
          simp

/-- The placement pass and the clean-up: both request lists end empty, one address is written
per pending request, to its slot and in registration order (static requests first), and no
base address and no size changes. -/
theorem place_frame {s : Search A} {r : AllocResult A} (hr : place s = some r) :
    r.self.staticTensors = [] ∧ r.self.dynamicTensors = []
      ∧ r.written.map Prod.fst = s.slots
      ∧ (r.self.availableMemory.map fun m => (m.address, m.size))
        = s.availableMemory.map fun m => (m.address, m.size) := by
  unfold place at hr
  cases h1 : placeStatic s
      (s.availableMemory.map fun memoryPtr => { memoryPtr with dynamicSize := 0 }, []) with
  | none => simp [h1] at hr
  | some mw1 =>
    simp only [h1] at hr
    cases h2 : placeDynamic s mw1 with
    | none => simp [h2] at hr
    | some mw2 =>
      simp only [h2, Option.some.injEq] at hr
      subst hr
      obtain ⟨a1, a2⟩ := placeLoop_frame s.bestCombination s.staticTensors (fun t => t.size) 0
        s.staticTensors.length _ mw1 (Nat.le_refl _) h1
      obtain ⟨b1, b2⟩ := placeLoop_frame s.bestCombination s.dynamicTensors
        (fun t => sizeMul t.size s.largestN) s.staticTensors.length
        s.dynamicTensors.length mw1 mw2 (Nat.le_refl _) h2
      refine ⟨rfl, rfl, ?_, ?_⟩
      · show mw2.2.map Prod.fst = s.slots
        rw [b2, a2]
        simp [slots]
      · show (mw2.1.map fun m => (m.address, m.size)) = _
        rw [b1, a1]
        simp [Function.comp_def]

/-- The search leaves every base address and every size as it found them. -/
theorem search_frame {self : GpuMemoryManager A} {F : Nat} {s : Search A}
    (hwf : SizesInRange self) (hs : self.search F = some s) :
    (s.availableMemory.map fun m => (m.address, m.size))
      = self.availableMemory.map fun m => (m.address, m.size) := by
  have hc := search_core hwf hs
  apply List.ext_getElem?
  intro p
  simp only [List.getElem?_map]
  cases hp : s.availableMemory[p]? with
  | none =>
    have : self.availableMemory[p]? = none := by
      rw [List.getElem?_eq_none_iff] at hp ⊢
      rw [hc.mem_len] at hp
      simpa [searchInit] using hp
    rw [this]
  | some m =>
    obtain ⟨m0, h0, hrel⟩ := hc.seg p m hp
    obtain ⟨seg, hseg, hsz, hadr, _⟩ := searchInit_mem self F p m0 h0
    rw [hseg]
    have := hrel.size
    simp only [List.map_nil, assignedSum_nil_left, Nat.add_zero] at this
    simp [hrel.address, hadr, this, hsz]

end GpuMemoryManager

namespace GpuMemoryManager

end GpuMemoryManager

namespace GpuMemoryManager

/-! ### The constructor -/

theorem probeLoop_succ (cuda : CudaRuntime) (fuel low high calls : Nat) :
    probeLoop cuda (fuel + 1) low high calls
      = if (if (cuda.cudaMalloc calls (sizeAdd low high >>> 1)).1 then
              sizeAdd (sizeAdd low high >>> 1) 1 else low)
            ≤ (if (cuda.cudaMalloc calls (sizeAdd low high >>> 1)).1 then high
              else sizeSub (sizeAdd low high >>> 1) 1) then
          probeLoop cuda fuel
            (if (cuda.cudaMalloc calls (sizeAdd low high >>> 1)).1 then
              sizeAdd (sizeAdd low high >>> 1) 1 else low)
            (if (cuda.cudaMalloc calls (sizeAdd low high >>> 1)).1 then high
              else sizeSub (sizeAdd low high >>> 1) 1)
            (calls + 1)
        else
          some (if (cuda.cudaMalloc calls (sizeAdd low high >>> 1)).1 then
              sizeAdd (sizeAdd low high >>> 1) 1 else low, calls + 1) := rfl

/-- With an allocator that is a downward closed oracle and no overflow of `low + high`, the
binary search keeps the accepted sizes below `low` and the rejected ones above `high`, and ends
with `low` one above the largest accepted size. -/
theorem probeLoop_search (cuda : CudaRuntime) (ok : Nat → Bool) (freeMem : Nat)
    (hok : ∀ k g, (cuda.cudaMalloc k g).1 = ok g)
    (hdc : ∀ g g1, 1 ≤ g1 → g1 ≤ g → g ≤ freeMem → ok g = true → ok g1 = true)
    (hM : freeMem + freeMem < sizeModulus) :
    ∀ fuel low high calls, 1 ≤ low → low ≤ high → high ≤ freeMem → high - low < fuel →
      (∀ g, 1 ≤ g → g < low → ok g = true) →
      (∀ g, high < g → g ≤ freeMem → ok g = false) →
      ∃ r calls1, probeLoop cuda fuel low high calls = some (r + 1, calls1) ∧ r ≤ freeMem
        ∧ (∀ g, 1 ≤ g → g ≤ r → ok g = true) ∧ ∀ g, r < g → g ≤ freeMem → ok g = false
  | 0, _, _, _, _, _, _, hf, _, _ => by omega
  | fuel + 1, low, high, calls, h1, h2, h3, hf, hlo, hhi => by
    rw [probeLoop_succ]
    have hsum : sizeAdd low high = low + high := sizeAdd_of_lt (by omega)
    have hg : sizeAdd low high >>> 1 = (low + high) / 2 := by
      rw [hsum, Nat.shiftRight_eq_div_pow]
    rw [hg, hok]
    have hglo : low ≤ (low + high) / 2 := by omega
    have hghi : (low + high) / 2 ≤ high := by omega
    cases hcase : ok ((low + high) / 2) with
    | true =>
      have hadd : sizeAdd ((low + high) / 2) 1 = (low + high) / 2 + 1 :=
        sizeAdd_of_lt (by omega)
      simp only [if_true, hadd]
      have hlo1 : ∀ g, 1 ≤ g → g < (low + high) / 2 + 1 → ok g = true :=
        fun g hg1 hg2 => hdc _ g hg1 (by omega) (by omega) hcase
      by_cases hle : (low + high) / 2 + 1 ≤ high
      · rw [if_pos hle]
        exact probeLoop_search cuda ok freeMem hok hdc hM fuel _ high (calls + 1) (by omega) hle
          h3 (by omega) hlo1 hhi
      · rw [if_neg hle]
        refine ⟨(low + high) / 2, calls + 1, rfl, by omega, fun g hg1 hg2 => ?_,
          fun g hg1 hg2 => ?_⟩
        · exact hlo1 g hg1 (by omega)
        · exact hhi g (by omega) hg2
    | false =>
      have hsub : sizeSub ((low + high) / 2) 1 = (low + high) / 2 - 1 :=
        sizeSub_of_le (by omega) (by omega)
      simp only [Bool.false_eq_true, if_false, hsub]
      have hhi1 : ∀ g, (low + high) / 2 - 1 < g → g ≤ freeMem → ok g = false := by
        intro g hg1 hg2
        cases hokg : ok g with
        | false => rfl
        | true =>
          have := hdc g ((low + high) / 2) (by omega) (by omega) hg2 hokg
          rw [hcase] at this
          cases this
      by_cases hle : low ≤ (low + high) / 2 - 1
      · rw [if_pos hle]
        exact probeLoop_search cuda ok freeMem hok hdc hM fuel low _ (calls + 1) h1 hle
          (by omega) (by omega) hlo hhi1
      · rw [if_neg hle]
        refine ⟨low - 1, calls + 1, by rw [Nat.sub_add_cancel h1], by omega,
          fun g hg1 hg2 => ?_, fun g hg1 hg2 => ?_⟩
        · exact hlo g hg1 (by omega)
        · exact hhi1 g (by omega) hg2

/-- Whatever the allocator answers, the inner loop of the constructor ends with `low` between 1
and one above the free byte count it started from: the size `low - 1` it finds never exceeds
that count. -/
theorem probeLoop_bound (cuda : CudaRuntime) (freeMem : Nat) (hM : freeMem < sizeModulus) :
    ∀ fuel low high calls low1 calls1, 1 ≤ low → low ≤ freeMem + 1 → low < sizeModulus →
      (high ≤ freeMem ∨ high = sizeModulus - 1) →
      probeLoop cuda fuel low high calls = some (low1, calls1) →
      1 ≤ low1 ∧ low1 ≤ freeMem + 1 ∧ low1 < sizeModulus
  | 0, _, _, _, _, _, _, _, _, _, h => by simp [probeLoop] at h
  | fuel + 1, low, high, calls, low1, calls1, h1, h2, hlM, h3, h => by
    rw [probeLoop_succ] at h
    have hg : sizeAdd low high >>> 1 = ((low + high) % sizeModulus) / 2 := by
      rw [Nat.shiftRight_eq_div_pow]
      rfl
    have hgf : sizeAdd low high >>> 1 ≤ freeMem := by
      rw [hg]
      unfold sizeModulus at *
      omega
    have hgM : sizeAdd low high >>> 1 + 1 < sizeModulus := by
      rw [hg]
      unfold sizeModulus at *
      omega
    have hadd : sizeAdd (sizeAdd low high >>> 1) 1 = sizeAdd low high >>> 1 + 1 :=
      sizeAdd_of_lt hgM
    have hsub : sizeSub (sizeAdd low high >>> 1) 1 ≤ freeMem
        ∨ sizeSub (sizeAdd low high >>> 1) 1 = sizeModulus - 1 := by
      unfold sizeSub
      unfold sizeModulus at *
      omega
    rw [hadd] at h
    cases hcase : (cuda.cudaMalloc calls (sizeAdd low high >>> 1)).1 with
    | true =>
      simp only [hcase, if_true] at h
      split at h
      · exact probeLoop_bound cuda freeMem hM fuel _ _ _ low1 calls1 (by omega) (by omega) hgM
          h3 h
      · simp only [Option.some.injEq, Prod.mk.injEq] at h
        omega
    | false =>
      simp only [hcase, Bool.false_eq_true, if_false] at h
      split at h
      · exact probeLoop_bound cuda freeMem hM fuel _ _ _ low1 calls1 h1 h2 hlM hsub h
      · simp only [Option.some.injEq, Prod.mk.injEq] at h
        omega

/-- Whatever the allocator answers, the segments the outer loop of the constructor adds have a
size of at least 1 and a zero accumulator, and their sizes sum to at most the free byte count
the loop started from. -/
theorem discoverLoop_bound (A : FloatOps) (cuda : CudaRuntime) :
    ∀ fuel freeMem calls (segs res : List (MemoryData A)), freeMem < sizeModulus →
      discoverLoop A cuda fuel freeMem calls segs = some res →
      ∃ more, res = segs ++ more ∧ (∀ m ∈ more, 1 ≤ m.size ∧ m.dynamicSize = 0)
        ∧ (more.map fun m => m.size).sum ≤ freeMem
  | 0, _, _, _, _, _, h => by simp [discoverLoop] at h
  | fuel + 1, freeMem, calls, segs, res, hM, h => by
    unfold discoverLoop at h
    cases hp : probeLoop cuda fuel 1 freeMem calls with
    | none => simp [hp] at h
    | some pr =>
      obtain ⟨low0, calls1⟩ := pr
      simp only [hp] at h
      obtain ⟨hl1, hl2, hl3⟩ := probeLoop_bound cuda freeMem hM fuel 1 freeMem calls low0 calls1
        (Nat.le_refl _) (by omega) (by unfold sizeModulus; omega) (Or.inl (Nat.le_refl _)) hp
      have hsub : sizeSub low0 1 = low0 - 1 := sizeSub_of_le hl1 hl3
      rw [hsub] at h
      split at h
      · rename_i hpos
        have hfree : sizeSub freeMem (low0 - 1) = freeMem - (low0 - 1) :=
          sizeSub_of_le (by omega) hM
        rw [hfree] at h
        obtain ⟨more, hres, hall, hsum⟩ := discoverLoop_bound A cuda fuel _ _ _ res
          (by omega) h
        refine ⟨[(⟨(cuda.cudaMalloc calls1 (low0 - 1)).2, low0 - 1, 0, A.ofInt 0⟩ : MemoryData A)]
          ++ more, by rw [hres]; simp, ?_, ?_⟩
        · intro m hm
          rcases List.mem_append.mp hm with hm0 | hm1
          · rw [List.mem_singleton] at hm0
            subst hm0
            exact ⟨hpos, rfl⟩
          · exact hall m hm1
        · simp only [List.map_append, List.sum_append, List.map_cons, List.map_nil,
            List.sum_cons, List.sum_nil]
          omega
      · simp only [Option.some.injEq] at h
        exact ⟨[], by rw [← h]; simp, by simp, by simp⟩

/-- A constructor run that returns leaves a manager without pending requests whose segment
list is not empty, with segments of at least 1 byte and zero accumulators whose sizes sum to at
most the free byte count that the runtime reported. -/
theorem construct_ok {A : FloatOps} {cuda : CudaRuntime} {fuel : Nat}
    {self : GpuMemoryManager A} (hM : cuda.freeMem < sizeModulus)
    (h : construct A cuda fuel = some (Except.ok self)) :
    self.availableMemory ≠ [] ∧ (∀ m ∈ self.availableMemory, 1 ≤ m.size ∧ m.dynamicSize = 0)
      ∧ self.totalCapacity ≤ cuda.freeMem
      ∧ self.staticTensors = [] ∧ self.dynamicTensors = [] := by
  unfold construct at h
  cases hd : discoverLoop A cuda fuel cuda.freeMem 0 [] with
  | none => simp [hd] at h
  | some segs =>
    simp only [hd] at h
    obtain ⟨more, hres, hall, hsum⟩ := discoverLoop_bound A cuda fuel _ _ _ segs hM hd
    rw [List.nil_append] at hres
    subst hres
    by_cases hlen : segs.length ≤ 0
    · simp [FailIf, hlen] at h
    · simp only [FailIf, hlen, decide_False, Bool.false_eq_true, if_false, Option.some.injEq,
        Except.ok.injEq] at h
      subst h
      refine ⟨?_, hall, hsum, rfl, rfl⟩
      intro hnil
      apply hlen
      simp only [] at hnil
      rw [hnil]
      simp

end GpuMemoryManager

namespace GpuMemoryManager

end GpuMemoryManager

namespace GpuMemoryManager

end GpuMemoryManager

namespace GpuMemoryManager

variable {A : FloatOps}

/-! ### What only the scoring of a complete assignment changes -/

theorem outcome_dynamicChoose {s s1 : Search A} {i p : Nat}
    (h : s.dynamicChoose i p = some s1) : s1.outcome = s.outcome := by
  obtain ⟨t, m, _, _, rfl⟩ := Search.dynamicChoose_eq_some h
  rfl

theorem outcome_dynamicUnchoose {s s1 : Search A} {i p : Nat}
    (h : s.dynamicUnchoose i p = some s1) : s1.outcome = s.outcome := by
  obtain ⟨t, m, _, _, rfl⟩ := Search.dynamicUnchoose_eq_some h
  rfl

theorem outcome_staticChoose {s s1 : Search A} {i p : Nat}
    (h : s.staticChoose i p = some s1) : s1.outcome = s.outcome := by
  obtain ⟨t, m, _, _, rfl⟩ := Search.staticChoose_eq_some h
  rfl

theorem outcome_staticUnchoose {s s1 : Search A} {i p : Nat}
    (h : s.staticUnchoose i p = some s1) : s1.outcome = s.outcome := by
  obtain ⟨t, m, _, _, rfl⟩ := Search.staticUnchoose_eq_some h
  rfl

/-- The proof rule for a property `R` of the result parameters and the trace, in every
arithmetic: the search keeps `R` when the scoring of every complete assignment whose static
part passed the capacity filter keeps it. -/
theorem allocateStatic_outcome {s0 : Search A}
    (R : List (Option Nat) × A.F × Nat × List (List (Option Nat)) → Prop)
    (hscore : ∀ σ δ (s s1 : Search A), Core s0 σ δ s → σ.length = s0.staticTensors.length →
      δ.length = s0.dynamicTensors.length → R s.outcome → s.score = some s1 → R s1.outcome) :
    ∀ fuel σ (s s1 : Search A), Core s0 σ [] s → R s.outcome →
      allocateStatic A fuel σ.length s = some s1 → R s1.outcome := by
  intro fuel σ s s1 hc hR hrun
  have key := allocateStatic_rule (fun σ (s : Search A) => Core s0 σ [] s ∧ R s.outcome)
    (fun _ _ h => ⟨h.1.staticCall, h.2⟩)
    (fun σ s s1 h0 hlen hd =>
      allocateDynamic_rule (fun δ (s : Search A) => Core s0 σ δ s ∧ R s.outcome)
        (fun _ _ h => ⟨h.1.dynamicCall, h.2⟩)
        (fun δ s s1 h hδ hs =>
          ⟨h.1.score hs, hscore σ δ s s1 h.1 (hlen.trans h0.1.static_len)
            (hδ.trans h.1.dynamic_len) h.2 hs⟩)
        (fun _ _ _ _ h hc => ⟨h.1.dynamicChoose hc, by rw [outcome_dynamicChoose hc]; exact h.2⟩)
        (fun _ _ _ _ h hu =>
          ⟨h.1.dynamicUnchoose hu, by rw [outcome_dynamicUnchoose hu]; exact h.2⟩)
        (s.dynamicTensors.length + 1) [] s s1 h0 hd)
    (fun _ _ _ _ h hf hc =>
      ⟨h.1.staticChoose hf hc, by rw [outcome_staticChoose hc]; exact h.2⟩)
    (fun _ _ _ _ h hu => ⟨h.1.staticUnchoose hu, by rw [outcome_staticUnchoose hu]; exact h.2⟩)
    fuel σ s s1 ⟨hc, hR⟩ hrun
  exact key.2

/-- At a complete assignment the static part of the path fits. -/
theorem Core.fits {s0 s : Search A} {σ δ : List Nat} (h : Core s0 σ δ s) :
    ∀ (p : Nat) (m0 : MemoryData A), s0.availableMemory[p]? = some m0 →
      assignedSum (σ.map some) s0.staticSizes p ≤ m0.size := by
  intro p m0 h0
  have hp : p < s.availableMemory.length := by
    rw [h.mem_len]
    exact (List.getElem?_eq_some.mp h0).1
  obtain ⟨m1, h1, hrel⟩ := h.seg p _ (List.getElem?_eq_getElem hp)
  rw [h0] at h1
  cases h1
  have := hrel.size
  omega

/-- In every arithmetic the plan the search leaves is the initial plan of null pointers or a
complete assignment whose static part fits. -/
theorem search_fitting {self : GpuMemoryManager A} {F : Nat} {s : Search A}
    (hwf : SizesInRange self) (hs : self.search F = some s) :
    FittingPlan (self.searchInit F) s.bestCombination := by
  refine @allocateStatic_outcome A (self.searchInit F)
    (fun o => FittingPlan (self.searchInit F) o.1) ?_ (self.staticTensors.length + 1) []
    (self.searchInit F) s (searchInit_core self F hwf)
    (Or.inl (by simp [Search.outcome, searchInit])) hs
  intro σ δ s s1 hc hσ hδ hR hscore
  have e := score_paths hc hσ hδ hscore
  split at e
  · subst e
    exact Or.inr ⟨σ, δ, rfl, hσ, hδ, hc.static_valid, hc.dynamic_valid, hc.fits⟩
  · subst e
    exact hR

end GpuMemoryManager

namespace GpuMemoryManager

variable {A : FloatOps}

theorem staticOn_append (self : GpuMemoryManager A) (σ δ : List Nat)
    (hσ : σ.length = self.staticTensors.length) (p : Nat) :
    self.staticOn (σ.map some ++ δ.map some) p = assignedSum (σ.map some) self.staticSizes p := by
  unfold staticOn
  rw [List.take_left' (by simp [hσ])]

theorem dynamicOn_append (self : GpuMemoryManager A) (σ δ : List Nat)
    (hσ : σ.length = self.staticTensors.length) (p : Nat) :
    self.dynamicOn (σ.map some ++ δ.map some) p
      = assignedSum (δ.map some) self.dynamicSizes p := by
  unfold dynamicOn
  rw [List.drop_left' (by simp [hσ])]

/-- A plan whose first entry is a segment is a complete assignment whose static part fits. -/
theorem FittingPlan.committed {self : GpuMemoryManager A} {F p0 : Nat}
    {best : List (Option Nat)} (h : FittingPlan (self.searchInit F) best)
    (h0 : best[0]? = some (some p0)) :
    ∃ σ δ : List Nat, best = σ.map some ++ δ.map some
      ∧ σ.length = self.staticTensors.length ∧ δ.length = self.dynamicTensors.length
      ∧ (∀ x ∈ σ, x < self.availableMemory.length) ∧ (∀ x ∈ δ, x < self.availableMemory.length)
      ∧ ∀ (p : Nat) (seg : MemoryData A), self.availableMemory[p]? = some seg →
        assignedSum (σ.map some) self.staticSizes p ≤ seg.size := by
  have hmemlen : (self.searchInit F).availableMemory.length = self.availableMemory.length := by
    simp [searchInit]
  rcases h with hrep | ⟨σ, δ, hbest, hσ, hδ, hσv, hδv, hfit⟩
  · exfalso
    rw [hrep, List.getElem?_replicate] at h0
    split at h0 <;> cases h0
  · refine ⟨σ, δ, hbest, by simpa [searchInit] using hσ, by simpa [searchInit] using hδ,
      fun x hx => by rw [← hmemlen]; exact hσv x hx,
      fun x hx => by rw [← hmemlen]; exact hδv x hx, ?_⟩
    intro p seg hseg
    have hp : p < (self.searchInit F).availableMemory.length := by
      rw [hmemlen]
      exact (List.getElem?_eq_some.mp hseg).1
    have h1 := List.getElem?_eq_getElem hp
    obtain ⟨seg1, hseg1, hsz, _⟩ := searchInit_mem self F p _ h1
    rw [hseg] at hseg1
    cases hseg1
    have := hfit p _ h1
    rw [searchInit_staticSizes, hsz] at this
    exact this

/-- In every arithmetic `Allocate` has a defined result when a request is pending: no vector is
read or written out of bounds, no null pointer is dereferenced, and the search returns. -/
theorem Allocate_defined (self : GpuMemoryManager A) (hwf : SizesInRange self)
    (hreq : 0 < self.staticTensors.length + self.dynamicTensors.length) :
    ∃ x, Allocate A self = some x := by
  unfold Allocate
  cases hF : self.fragSizeOf with
  | error e => exact ⟨_, rfl⟩
  | ok F =>
    obtain ⟨s, hs, hcore⟩ := search_total self F hwf
    have hlen : s.bestCombination.length
        = self.staticTensors.length + self.dynamicTensors.length := by
      rw [hcore.best_len]
      simp [searchInit]
    simp only [hs]
    cases hb : s.bestCombination[0]? with
    | none =>
      rw [List.getElem?_eq_none_iff] at hb
      omega
    | some b =>
      cases b with
      | none => exact ⟨_, rfl⟩
      | some p0 =>
        obtain ⟨σ, δ, hbest, hσ, hδ, hσv, hδv, _⟩ := (search_fitting hwf hs).committed hb
        have hml : s.availableMemory.length = self.availableMemory.length := by
          rw [hcore.mem_len]
          simp [searchInit]
        have hcom : CommittedPlan s.availableMemory.length s.bestCombination := by
          intro k hk
          rw [hbest] at hk ⊢
          simp only [List.length_append, List.length_map] at hk
          rw [hml]
          by_cases hks : k < σ.length
          · refine ⟨σ[k], hσv _ (List.getElem_mem _), ?_⟩
            rw [List.getElem?_append_left (by simp; exact hks)]
            simp [List.getElem?_eq_getElem hks]
          · have hkd : k - σ.length < δ.length := by omega
            refine ⟨δ[k - σ.length], hδv _ (List.getElem_mem _), ?_⟩
            rw [List.getElem?_append_right (by simp; omega)]
            simp [List.getElem?_eq_getElem hkd]
        obtain ⟨r, hr⟩ := place_total (s := s) hcom
          (by rw [hlen, hcore.static_len, hcore.dynamic_len]; simp [searchInit])
        simp only [hr]
        exact ⟨_, rfl⟩

end GpuMemoryManager

namespace GpuMemoryManager

/-- With exact ratios, at a complete assignment a segment that holds dynamic tensors has a
ratio strictly below 1. -/
theorem Exact.ratio_lt_one {F D : Nat} {s0 s : Search exactRat} {σ δ : List Nat}
    (hc : Core s0 σ δ s) (he : Exact F D s0 σ δ s)
    (hσ : σ.length = s0.staticTensors.length) (hD : s0.dynamicSizes.sum = D) {p : Nat}
    (hp : p < s0.availableMemory.length)
    (hpos : 0 < assignedSum (δ.map some) s0.dynamicSizes p) :
    pathRatio F D s0 σ δ p < 1 := by
  have hp1 : p < s.availableMemory.length := by rw [hc.mem_len]; exact hp
  have hm := List.getElem?_eq_getElem hp1
  rw [← Exact.ratio_eq hc he hm, he.seg_ratio p _ hm]
  have hsum := he.size_sum
  have htake : (s0.staticSizes.take σ.length).sum = s0.staticSizes.sum := by
    rw [List.take_of_length_le (by simp [staticSizes, hσ])]
  rw [htake] at hsum
  have hsz : (s.availableMemory[p]).size ≤ F := by
    have h5 : (s.availableMemory[p]).size ≤ (s.availableMemory.map fun m => m.size).sum :=
      le_sum_map (fun m : MemoryData exactRat => m.size) s.availableMemory
        (s.availableMemory[p]) (List.getElem_mem _)
    omega
  have h3 := cast_div_le_one _ _ hsz
  have hDpos : (0 : ℚ) < (D : ℚ) := by
    have := assignedSum_le_sum (δ.map some) s0.dynamicSizes p
    exact_mod_cast (by omega : 0 < D)
  have h4 : (0 : ℚ) < (assignedSum (δ.map some) s0.dynamicSizes p : ℚ) / (D : ℚ) :=
    div_pos (by exact_mod_cast hpos) hDpos
  linarith

/-- With exact ratios every complete assignment whose static part fits is scored by the search,
and a segment to which it gives dynamic tensors has a ratio strictly below 1. -/
theorem search_ratio_lt_one (self : GpuMemoryManager exactRat) (hwf : SizesInRange self)
    (hle : self.staticSizes.sum ≤ self.totalCapacity)
    (hdyn : self.dynamicSizes.sum < sizeModulus)
    (σ δ : List Nat) (hσ : StaticAssignment self σ) (hδ : δ.length = self.dynamicTensors.length)
    (hδv : ∀ x ∈ δ, x < self.availableMemory.length) (p : Nat)
    (hp : p < self.availableMemory.length)
    (hpos : 0 < self.dynamicOn (σ.map some ++ δ.map some) p) :
    planRatio self (σ.map some ++ δ.map some) p < 1 := by
  obtain ⟨s, hs, _⟩ := search_total self (self.totalCapacity - self.staticSizes.sum) hwf
  have hcore := searchInit_core self (self.totalCapacity - self.staticSizes.sum) hwf
  have hexact := searchInit_exact self (self.totalCapacity - self.staticSizes.sum) (by omega)
  rw [dynamicTensorSizeOf_eq self hdyn] at hexact
  have hD0 := searchInit_dynamicSizes self (self.totalCapacity - self.staticSizes.sum)
  have hmemlen : (self.searchInit (self.totalCapacity - self.staticSizes.sum)).availableMemory.length
      = self.availableMemory.length := by simp [searchInit]
  obtain ⟨hlen, hvalid, hfit⟩ := hσ
  have hσ0 : σ.length
      = (self.searchInit (self.totalCapacity - self.staticSizes.sum)).staticTensors.length := by
    simpa [searchInit] using hlen
  have hδ0 : δ.length
      = (self.searchInit (self.totalCapacity - self.staticSizes.sum)).dynamicTensors.length := by
    simpa [searchInit] using hδ
  have hpos0 : 0 < assignedSum (δ.map some)
      (self.searchInit (self.totalCapacity - self.staticSizes.sum)).dynamicSizes p := by
    rw [hD0, ← dynamicOn_append self σ δ hlen]
    exact hpos
  have hkeep : CommitKeeps (self.totalCapacity - self.staticSizes.sum) self.dynamicSizes.sum
      (fun _ _ _ => pathRatio (self.totalCapacity - self.staticSizes.sum)
        self.dynamicSizes.sum (self.searchInit (self.totalCapacity - self.staticSizes.sum)) σ δ p
          < 1)
      (self.searchInit (self.totalCapacity - self.staticSizes.sum)) :=
    fun _ _ _ _ _ _ _ h _ => h
  have key := static_visits (commitKeeps_unconstrained _ _ _) hkeep
    σ δ hσ0 hδ0 (by rw [hmemlen]; exact hvalid) (by rw [hmemlen]; exact hδv)
    (fun q m0 h0 => by
      obtain ⟨seg, hseg, hsz, _⟩ := searchInit_mem self _ q m0 h0
      rw [searchInit_staticSizes, hsz]
      exact hfit q seg hseg)
    (fun s s1 hinv _ => Exact.ratio_lt_one hinv.core hinv.exact hσ0 (congrArg List.sum hD0)
      (by rw [hmemlen]; exact hp) hpos0)
    (self.staticTensors.length + 1) [] σ _ s (List.nil_append _)
    ⟨hcore, hexact, trivial⟩ hs
  rw [← pathRatio_eq self σ δ hlen]
  exact key

end GpuMemoryManager

namespace GpuMemoryManager

/-- With exact ratios on a fresh manager with a dynamic tensor pending, a successful `Allocate`
returns the remaining size of a segment that holds dynamic tensors in the committed plan,
divided by the dynamic bytes per batch the plan gives that segment. -/
theorem Allocate_quotient (self : GpuMemoryManager exactRat) (r : AllocResult exactRat)
    (hwf : SizesInRange self) (hfresh : Fresh self) (hcap : self.totalCapacity < sizeModulus)
    (hlt : self.staticSizes.sum < self.totalCapacity)
    (hne : 0 < self.dynamicTensors.length) (hpos : ∀ d ∈ self.dynamicSizes, 0 < d)
    (hdyn : self.dynamicSizes.sum < sizeModulus)
    (hrun : Allocate exactRat self = some (Except.ok r)) :
    ∃ (b : Nat) (seg : MemoryData exactRat), self.availableMemory[b]? = some seg
      ∧ 0 < self.dynamicOn r.bestCombination b
      ∧ self.staticOn r.bestCombination b ≤ seg.size
      ∧ r.largestN
        = (seg.size - self.staticOn r.bestCombination b) / self.dynamicOn r.bestCombination b := by
  obtain ⟨F, s, p0, hF, hs, hb0, hplace⟩ := Allocate_ok hrun
  rw [fragSizeOf_eq self hcap, if_pos (Nat.le_of_lt hlt)] at hF
  cases hF
  obtain ⟨hN, hbest⟩ := place_result hplace
  obtain ⟨hB, _⟩ := search_bottleneck self hwf hfresh (Nat.le_of_lt hlt) hne hpos hdyn s hs
  rcases hB with hrep | ⟨σ, δ, b, hcom⟩
  · exfalso
    rw [hrep, List.getElem?_replicate, if_pos (by omega)] at hb0
    cases hb0
  · have hσ : σ.length = self.staticTensors.length := by
      rw [hcom.static_len]
      simp [searchInit]
    have h0 := List.getElem?_eq_getElem hcom.seg
    obtain ⟨seg, hseg, hsz, _⟩ := searchInit_mem self _ b _ h0
    rw [hbest, hcom.plan]
    refine ⟨b, seg, hseg, ?_, ?_, ?_⟩
    · rw [dynamicOn_append self σ δ hσ, ← searchInit_dynamicSizes self]
      exact hcom.holds
    · rw [staticOn_append self σ δ hσ]
      have := hcom.fits b _ h0
      rw [searchInit_staticSizes, hsz] at this
      exact this
    · rw [hN, hcom.count _ h0, staticOn_append self σ δ hσ, dynamicOn_append self σ δ hσ,
        searchInit_staticSizes, searchInit_dynamicSizes, hsz]

/-- The returned batch count is never too small for the committed plan when ratios are exact:
with exact
ratios, on a freshly constructed manager with at least one dynamic request pending (per-batch
sizes at least 1), the static total strictly below the total capacity and no `size_t`
overflow, every complete assignment whose static part fits gives dynamic tensors to a segment
whose ratio is strictly below 1; a successful `Allocate` returns the remaining size of a
segment `b` that holds dynamic tensors in the committed plan, divided by the dynamic bytes per
batch the plan gives `b`; hence every batch count for which the plan satisfies the capacity
inequality on every segment is at most the batch count returned. -/
theorem exact_batch_count_not_too_small (self : GpuMemoryManager exactRat)
    (r : AllocResult exactRat) (hwf : SizesInRange self) (hfresh : Fresh self)
    (hcap : self.totalCapacity < sizeModulus)
    (hlt : self.staticSizes.sum < self.totalCapacity)
    (hne : 0 < self.dynamicTensors.length) (hpos : ∀ d ∈ self.dynamicSizes, 0 < d)
    (hdyn : self.dynamicSizes.sum < sizeModulus)
    (hrun : Allocate exactRat self = some (Except.ok r)) :
    (∀ σ δ : List Nat, StaticAssignment self σ → δ.length = self.dynamicTensors.length →
        (∀ x ∈ δ, x < self.availableMemory.length) →
        ∃ p, p < self.availableMemory.length ∧ 0 < self.dynamicOn (σ.map some ++ δ.map some) p
          ∧ planRatio self (σ.map some ++ δ.map some) p < 1)
      ∧ (∃ (b : Nat) (seg : MemoryData exactRat), self.availableMemory[b]? = some seg
        ∧ 0 < self.dynamicOn r.bestCombination b
        ∧ self.staticOn r.bestCombination b ≤ seg.size
        ∧ r.largestN
          = (seg.size - self.staticOn r.bestCombination b)
            / self.dynamicOn r.bestCombination b)
      ∧ ∀ n, capacityAll self r.bestCombination n = true → n ≤ r.largestN := by
  have hq := Allocate_quotient self r hwf hfresh hcap hlt hne hpos hdyn hrun
  refine ⟨?_, hq, ?_⟩
  · intro σ δ hσ hδ hδv
    obtain ⟨p, hpδ, hppos⟩ := first_dynamic_pos δ self.dynamicSizes
      (by rw [hδ]; simp [dynamicSizes]) (by simpa [dynamicSizes] using hne) hpos
    have hp := hδv p hpδ
    have hd : 0 < self.dynamicOn (σ.map some ++ δ.map some) p := by
      rw [dynamicOn_append self σ δ hσ.1]
      exact hppos
    exact ⟨p, hp, hd,
      search_ratio_lt_one self hwf (Nat.le_of_lt hlt) hdyn σ δ hσ hδ hδv p hp hd⟩
  · intro n hn
    obtain ⟨b, seg, hseg, hd, hs, hN⟩ := hq
    have hb : b < self.availableMemory.length := (List.getElem?_eq_some.mp hseg).1
    unfold capacityAll at hn
    rw [List.all_eq_true] at hn
    have hnb := hn b (List.mem_range.mpr hb)
    simp only [capacityOk, hseg, decide_eq_true_eq] at hnb
    rw [hN, Nat.le_div_iff_mul_le hd]
    omega

/-- The batch count with exact ratios at a concrete input:
fresh segments of 2, 5 and 9 bytes and dynamic requests of 1 and 3
bytes per batch; the batch count returned is the quotient of a segment that holds dynamic
tensors in the committed plan. -/
theorem exact_batch_count_example :
    ∃ (b : Nat) (seg : MemoryData exactRat),
      (pending exactRat [(1000, 2), (2000, 5), (3000, 9)] [] [(1, 1), (2, 3)]).availableMemory[b]?
        = some seg
      ∧ 0 < (pending exactRat [(1000, 2), (2000, 5), (3000, 9)] [] [(1, 1), (2, 3)]).dynamicOn
        (resultOr (Allocate exactRat
          (pending exactRat [(1000, 2), (2000, 5), (3000, 9)] [] [(1, 1), (2, 3)]))).bestCombination
        b
      ∧ (pending exactRat [(1000, 2), (2000, 5), (3000, 9)] [] [(1, 1), (2, 3)]).staticOn
        (resultOr (Allocate exactRat
          (pending exactRat [(1000, 2), (2000, 5), (3000, 9)] [] [(1, 1), (2, 3)]))).bestCombination
        b ≤ seg.size
      ∧ (resultOr (Allocate exactRat
          (pending exactRat [(1000, 2), (2000, 5), (3000, 9)] [] [(1, 1), (2, 3)]))).largestN
        = (seg.size
            - (pending exactRat [(1000, 2), (2000, 5), (3000, 9)] [] [(1, 1), (2, 3)]).staticOn
              (resultOr (Allocate exactRat (pending exactRat [(1000, 2), (2000, 5), (3000, 9)] []
                [(1, 1), (2, 3)]))).bestCombination b)
          / (pending exactRat [(1000, 2), (2000, 5), (3000, 9)] [] [(1, 1), (2, 3)]).dynamicOn
            (resultOr (Allocate exactRat (pending exactRat [(1000, 2), (2000, 5), (3000, 9)] []
              [(1, 1), (2, 3)]))).bestCombination b :=
  (exact_batch_count_not_too_small
    (pending exactRat [(1000, 2), (2000, 5), (3000, 9)] [] [(1, 1), (2, 3)]) _
    (by unfold SizesInRange; decide) (by unfold Fresh; decide) (by decide) (by decide)
    (by decide) (by decide) (by decide) (Allocate_of_isSome (by decide!))).2.1

end GpuMemoryManager

/-- A loop whose every iteration keeps `I` and appends `g y` to the trace `tr` appends the
concatenation of the `g y`. -/
theorem foldlM_option_trace {α β γ : Type} (f : β → α → Option β) (I : β → Prop)
    (tr : β → List γ) (g : α → List γ) :
    ∀ l : List α, (∀ y ∈ l, ∀ b b1, I b → f b y = some b1 → I b1 ∧ tr b1 = tr b ++ g y) →
      ∀ b b1, I b → l.foldlM f b = some b1 → I b1 ∧ tr b1 = tr b ++ l.flatMap g
  | [], _, b, b1, hb, h => by
    simp only [List.foldlM_nil, pure, Option.some.injEq] at h
    subst h
    exact ⟨hb, by simp⟩
  | y :: ys, hstep, b, b1, hb, h => by
    simp only [List.foldlM_cons, bind, Option.bind] at h
    cases hfy : f b y with
    | none => rw [hfy] at h; cases h
    | some b2 =>
      rw [hfy] at h
      obtain ⟨hb2, htr2⟩ := hstep y (List.mem_cons_self _ _) b b2 hb hfy
      obtain ⟨hb1, htr1⟩ := foldlM_option_trace f I tr g ys
        (fun z hz => hstep z (List.mem_cons_of_mem _ hz)) b2 b1 hb2 h
      refine ⟨hb1, ?_⟩
      rw [htr1, htr2, List.flatMap_cons, List.append_assoc]

namespace GpuMemoryManager

variable {A : FloatOps}

/-! ### The trace of the search -/

theorem scored_of_outcome {s s1 : Search A} (h : s1.outcome = s.outcome) :
    s1.scored = s.scored := by
  have := congrArg (fun o => o.2.2.2) h
  exact this

/-- The dynamic pass scores, in lexicographic order, every completion of the assignment it
starts from. -/
theorem allocateDynamic_scored {s0 : Search A} {σ : List Nat}
    (hσ : σ.length = s0.staticTensors.length) :
    ∀ fuel δ (s s1 : Search A), Core s0 σ δ s →
      allocateDynamic A fuel δ.length s = some s1 →
      s1.scored = s.scored
        ++ (dynamicOrder s0.availableMemory.length (s0.dynamicTensors.length - δ.length)).map
          fun τ => σ.map some ++ (δ ++ τ).map some
  | 0, _, _, _, _, h => by simp [allocateDynamic] at h
  | fuel + 1, δ, s, s1, hc, h => by
    rw [allocateDynamic_succ] at h
    have hc1 := hc.dynamicCall
    split at h
    · rename_i hlen
      have hδ : δ.length = s0.dynamicTensors.length := by rw [hlen, hc.dynamic_len]
      have e := score_paths hc1 hσ hδ h
      rw [hδ, Nat.sub_self]
      simp only [dynamicOrder, List.map_cons, List.map_nil, List.append_nil]
      split at e <;> (subst e; rfl)
    · rename_i hne
      have hlt : δ.length < s0.dynamicTensors.length := by
        have := hc.dynamic_le
        have := hc.dynamic_len
        omega
      obtain ⟨k, hk⟩ : ∃ k, s0.dynamicTensors.length - δ.length = k + 1 :=
        ⟨s0.dynamicTensors.length - δ.length - 1, by omega⟩
      have hloop := foldlM_option_trace (dynamicIter A fuel δ.length)
        (fun b => Core s0 σ δ b) (fun b => b.scored)
        (fun p => (dynamicOrder s0.availableMemory.length k).map
          fun τ => σ.map some ++ (δ ++ p :: τ).map some)
        (List.range s.availableMemory.length)
        (fun p _ b b1 hb hstep => by
          obtain ⟨c, r, hch, hr, hu⟩ := dynamicIter_eq_some hstep
          have hcc := hb.dynamicChoose hch
          have hr1 : allocateDynamic A fuel (δ ++ [p]).length c = some r := by
            simpa using hr
          have hrc := allocateDynamic_core fuel (δ ++ [p]) c r hcc hr1
          have hrs := allocateDynamic_scored hσ fuel (δ ++ [p]) c r hcc hr1
          refine ⟨hrc.dynamicUnchoose hu, ?_⟩
          show b1.scored = b.scored ++ _
          rw [scored_of_outcome (outcome_dynamicUnchoose hu), hrs,
            scored_of_outcome (outcome_dynamicChoose hch)]
          have hk1 : s0.dynamicTensors.length - (δ ++ [p]).length = k := by
            simp only [List.length_append, List.length_singleton]
            omega
          rw [hk1]
          simp)
        _ s1 hc1 h
      have h2 : s1.scored = s.scored ++ _ := hloop.2
      rw [h2, hk, hc.mem_len]
      simp only [dynamicOrder, List.map_flatMap, List.map_map]
      rfl

end GpuMemoryManager

namespace GpuMemoryManager

variable {A : FloatOps}

/-- The sizes of the segments in a state of the search depend only on the static part of the
path. -/
theorem Core.sizes_eq {s0 s s1 : Search A} {σ δ δ1 : List Nat} (h : Core s0 σ δ s)
    (h1 : Core s0 σ δ1 s1) :
    (s1.availableMemory.map fun m => m.size) = s.availableMemory.map fun m => m.size := by
  apply List.ext_getElem?
  intro p
  simp only [List.getElem?_map]
  by_cases hp : p < s0.availableMemory.length
  · have hps : p < s.availableMemory.length := by rw [h.mem_len]; exact hp
    have hps1 : p < s1.availableMemory.length := by rw [h1.mem_len]; exact hp
    obtain ⟨m0, h0, hrel⟩ := h.seg p _ (List.getElem?_eq_getElem hps)
    obtain ⟨m1, h01, hrel1⟩ := h1.seg p _ (List.getElem?_eq_getElem hps1)
    rw [h0] at h01
    cases h01
    have e1 := hrel.size
    have e2 := hrel1.size
    rw [List.getElem?_eq_getElem hps, List.getElem?_eq_getElem hps1]
    simp only [Option.map_some', Option.some.injEq]
    omega
  · have e1 := h.mem_len
    have e2 := h1.mem_len
    rw [List.getElem?_eq_none (by omega), List.getElem?_eq_none (by omega)]

/-- The capacity filter of line 108 in terms of the list of the sizes of the segments. -/
theorem staticFits_sizes {s0 b : Search A} {σ : List Nat} {p : Nat} {fits : Bool}
    (hb : Core s0 σ [] b) (hf : b.staticFits σ.length p = some fits) :
    ∃ t, s0.staticSizes[σ.length]? = some t
      ∧ fits = decide (t ≤ (b.availableMemory.map fun m => m.size).getD p 0) := by
  obtain ⟨t, m, ht, hm, hdec⟩ := Search.staticFits_eq_some hf
  refine ⟨t.size, hb.static_size_at ht, ?_⟩
  rw [hdec]
  simp [List.getD_eq_getElem?_getD, hm]

/-- Lines 110-112 in terms of the list of the sizes of the segments. -/
theorem staticChoose_sizes {s0 b c : Search A} {σ : List Nat} {p t : Nat}
    (hb : Core s0 σ [] b) (ht : s0.staticSizes[σ.length]? = some t)
    (hfit : t ≤ (b.availableMemory.map fun m => m.size).getD p 0)
    (hch : b.staticChoose σ.length p = some c) :
    (c.availableMemory.map fun m => m.size)
      = (b.availableMemory.map fun m => m.size).set p
        ((b.availableMemory.map fun m => m.size).getD p 0 - t) := by
  obtain ⟨td, m, htd, hm, rfl⟩ := Search.staticChoose_eq_some hch
  have hts := hb.static_size_at htd
  rw [ht] at hts
  cases hts
  have hlt := hb.size_lt hm
  have hget : (b.availableMemory.map fun m => m.size).getD p 0 = m.size := by
    simp [List.getD_eq_getElem?_getD, hm]
  rw [hget] at hfit ⊢
  simp only [List.map_set]
  rw [sizeSub_of_le hfit hlt]

/-- The static pass scores, in lexicographic order, every completion of the assignment it starts
from whose static part passes the capacity filter. -/
theorem allocateStatic_scored {s0 : Search A} :
    ∀ fuel σ (s s1 : Search A), Core s0 σ [] s →
      allocateStatic A fuel σ.length s = some s1 →
      s1.scored = s.scored
        ++ (visitOrder s0.dynamicTensors.length (s0.staticSizes.drop σ.length)
            (s.availableMemory.map fun m => m.size)).map
          fun π => σ.map some ++ π.map some
  | 0, _, _, _, _, h => by simp [allocateStatic] at h
  | fuel + 1, σ, s, s1, hc, h => by
    rw [allocateStatic_succ] at h
    have hc1 := hc.staticCall
    split at h
    · rename_i hfull
      have hσ : σ.length = s0.staticTensors.length := by rw [hfull, hc.static_len]
      have hd := allocateDynamic_scored hσ (s.dynamicTensors.length + 1) [] _ s1 hc1 h
      have hdrop : s0.staticSizes.drop σ.length = [] := by
        apply List.drop_of_length_le
        simp [staticSizes, hσ]
      rw [hdrop]
      simp only [visitOrder, List.length_map]
      rw [hc.mem_len]
      simpa using hd
    · rename_i hne
      have hlt : σ.length < s0.staticTensors.length := by
        have := hc.static_le
        have := hc.static_len
        omega
      have hlt1 : σ.length < s0.staticSizes.length := by simpa [staticSizes] using hlt
      have hdrop : s0.staticSizes.drop σ.length
          = s0.staticSizes[σ.length] :: s0.staticSizes.drop (σ.length + 1) :=
        List.drop_eq_getElem_cons hlt1
      have hloop := foldlM_option_trace (staticIter A fuel σ.length)
        (fun b => Core s0 σ [] b) (fun b => b.scored)
        (fun p =>
          if s0.staticSizes[σ.length] ≤ (s.availableMemory.map fun m => m.size).getD p 0 then
            (visitOrder s0.dynamicTensors.length (s0.staticSizes.drop (σ.length + 1))
              ((s.availableMemory.map fun m => m.size).set p
                ((s.availableMemory.map fun m => m.size).getD p 0
                  - s0.staticSizes[σ.length]))).map
              fun π => σ.map some ++ (p :: π).map some
          else [])
        (List.range s.availableMemory.length)
        (fun p _ b b1 hb hstep => by
          have hsz := hc.sizes_eq hb
          beta_reduce
          rcases staticIter_eq_some hstep with ⟨hf, rfl⟩ | ⟨c, r, hf, hch, hr, hu⟩
          · obtain ⟨t, ht, hdec⟩ := staticFits_sizes hb hf
            rw [List.getElem?_eq_getElem hlt1] at ht
            cases ht
            rw [hsz] at hdec
            have hnot : ¬ s0.staticSizes[σ.length]
                ≤ (s.availableMemory.map fun m => m.size).getD p 0 := by
              intro hle
              rw [decide_eq_true hle] at hdec
              cases hdec
            rw [if_neg hnot]
            exact ⟨hb, by simp⟩
          · obtain ⟨t, ht, hdec⟩ := staticFits_sizes hb hf
            have hfit : t ≤ (b.availableMemory.map fun m => m.size).getD p 0 :=
              of_decide_eq_true hdec.symm
            have hcs := staticChoose_sizes hb ht hfit hch
            rw [List.getElem?_eq_getElem hlt1] at ht
            cases ht
            rw [hsz] at hfit hcs
            have hcc := hb.staticChoose hf hch
            have hr1 : allocateStatic A fuel (σ ++ [p]).length c = some r := by
              simpa using hr
            have hrc := allocateStatic_core fuel (σ ++ [p]) c r hcc hr1
            have hrs := allocateStatic_scored fuel (σ ++ [p]) c r hcc hr1
            refine ⟨hrc.staticUnchoose hu, ?_⟩
            rw [if_pos hfit, scored_of_outcome (outcome_staticUnchoose hu), hrs,
              scored_of_outcome (outcome_staticChoose hch), hcs]
            simp)
        _ s1 hc1 h
      have h2 : s1.scored = s.scored ++ _ := hloop.2
      rw [h2, hdrop]
      simp only [visitOrder, List.map_flatMap, List.length_map]
      congr 1
      apply List.flatMap_congr
      intro p _
      split
      · simp
      · rfl

/-- The trace of the search started by `Allocate`: the complete assignments whose static part
passes the capacity filter, in lexicographic order, each once. -/
theorem search_scored {self : GpuMemoryManager A} {F : Nat} {s : Search A}
    (hwf : SizesInRange self) (hs : self.search F = some s) :
    s.scored = (visitOrder self.dynamicTensors.length self.staticSizes
      (self.availableMemory.map fun m => m.size)).map fun π => π.map some := by
  have h := allocateStatic_scored (self.staticTensors.length + 1) [] (self.searchInit F) s
    (searchInit_core self F hwf) hs
  rw [h]
  simp [searchInit, staticSizes, Function.comp_def]

end GpuMemoryManager

namespace GpuMemoryManager

/-! ### The order of the visits -/

theorem mem_dynamicOrder (n : Nat) :
    ∀ (k : Nat) (δ : List Nat), δ ∈ dynamicOrder n k ↔ δ.length = k ∧ ∀ x ∈ δ, x < n
  | 0, δ => by
    simp only [dynamicOrder, List.mem_singleton]
    constructor
    · rintro rfl
      simp
    · rintro ⟨h, _⟩
      exact List.eq_nil_of_length_eq_zero h
  | k + 1, δ => by
    simp only [dynamicOrder, List.mem_flatMap, List.mem_range, List.mem_map]
    constructor
    · rintro ⟨p, hp, τ, hτ, rfl⟩
      obtain ⟨h1, h2⟩ := (mem_dynamicOrder n k τ).mp hτ
      refine ⟨by simp [h1], ?_⟩
      intro x hx
      rcases List.mem_cons.mp hx with rfl | hx1
      · exact hp
      · exact h2 x hx1
    · rintro ⟨h1, h2⟩
      cases δ with
      | nil => simp at h1
      | cons p τ =>
        refine ⟨p, h2 p (List.mem_cons_self _ _), τ, ?_, rfl⟩
        exact (mem_dynamicOrder n k τ).mpr
          ⟨by simpa using h1, fun x hx => h2 x (List.mem_cons_of_mem _ hx)⟩

/-- Blocks of lists that start with increasing heads and are sorted inside are sorted. -/
theorem pairwise_lex_blocks (n : Nat) (f : Nat → List (List Nat))
    (hf : ∀ p, (f p).Pairwise (List.Lex fun a b => a < b)) :
    ((List.range n).flatMap fun p => (f p).map fun π => p :: π).Pairwise
      (List.Lex fun a b => a < b) := by
  rw [List.pairwise_flatMap]
  constructor
  · intro p _
    rw [List.pairwise_map]
    exact (hf p).imp fun h => List.Lex.cons h
  · refine (List.pairwise_lt_range n).imp ?_
    intro a b hab x hx y hy
    obtain ⟨x1, _, rfl⟩ := List.mem_map.mp hx
    obtain ⟨y1, _, rfl⟩ := List.mem_map.mp hy
    exact List.Lex.rel hab

theorem pairwise_dynamicOrder (n : Nat) :
    ∀ k : Nat, (dynamicOrder n k).Pairwise (List.Lex fun a b => a < b)
  | 0 => by simp [dynamicOrder]
  | k + 1 => by
    simp only [dynamicOrder]
    exact pairwise_lex_blocks n (fun _ => dynamicOrder n k) (fun _ => pairwise_dynamicOrder n k)

theorem pairwise_visitOrder (k : Nat) :
    ∀ (ts rem : List Nat), (visitOrder k ts rem).Pairwise (List.Lex fun a b => a < b)
  | [], rem => by
    simp only [visitOrder]
    exact pairwise_dynamicOrder _ k
  | t :: ts, rem => by
    simp only [visitOrder]
    have h := pairwise_lex_blocks rem.length
      (fun p =>
        if t ≤ rem.getD p 0 then visitOrder k ts (rem.set p (rem.getD p 0 - t)) else [])
      (fun p => by
        beta_reduce
        split
        · exact pairwise_visitOrder k ts _
        · exact List.Pairwise.nil)
    have e : ((List.range rem.length).flatMap fun p =>
          if t ≤ rem.getD p 0 then
            (visitOrder k ts (rem.set p (rem.getD p 0 - t))).map fun π => p :: π
          else [])
        = (List.range rem.length).flatMap fun p =>
          (if t ≤ rem.getD p 0 then visitOrder k ts (rem.set p (rem.getD p 0 - t))
            else []).map fun π => p :: π := by
      apply List.flatMap_congr
      intro p _
      split <;> simp
    rw [e]
    exact h

theorem getD_set_sub (rem : List Nat) (p q v : Nat) (hp : p < rem.length) :
    (rem.set p v).getD q 0 = if q = p then v else rem.getD q 0 := by
  simp only [List.getD_eq_getElem?_getD, List.getElem?_set]
  by_cases h : q = p
  · subst h
    simp [hp]
  · have h1 : ¬ p = q := fun e => h e.symm
    simp [h, h1]

/-- The members of the visit order are the complete assignments whose static part fits. -/
theorem mem_visitOrder (k : Nat) :
    ∀ (ts rem π : List Nat), π ∈ visitOrder k ts rem ↔
      π.length = ts.length + k ∧ (∀ x ∈ π, x < rem.length)
        ∧ ∀ q, q < rem.length →
          assignedSum ((π.take ts.length).map some) ts q ≤ rem.getD q 0
  | [], rem, π => by
    simp only [visitOrder, mem_dynamicOrder, List.length_nil, Nat.zero_add, List.take_zero,
      List.map_nil, assignedSum_nil_left, Nat.zero_le, implies_true, and_true]
  | t :: ts, rem, π => by
    simp only [visitOrder, List.mem_flatMap, List.mem_range]
    constructor
    · rintro ⟨p, hp, hπ⟩
      split at hπ
      · rename_i hfit
        obtain ⟨π1, hπ1, rfl⟩ := List.mem_map.mp hπ
        obtain ⟨h1, h2, h3⟩ := (mem_visitOrder k ts _ π1).mp hπ1
        rw [List.length_set] at h2 h3
        refine ⟨by simp [h1]; omega, ?_, ?_⟩
        · intro x hx
          rcases List.mem_cons.mp hx with rfl | hx1
          · exact hp
          · exact h2 x hx1
        · intro q hq
          have h4 := h3 q hq
          rw [getD_set_sub rem p q _ hp] at h4
          simp only [List.length_cons, List.take_succ_cons, List.map_cons, assignedSum_cons]
          by_cases hqp : q = p
          · subst hqp
            rw [if_pos rfl] at h4
            rw [if_pos rfl]
            omega
          · rw [if_neg hqp] at h4
            rw [if_neg (fun e => hqp (Option.some.inj e).symm)]
            omega
      · simp at hπ
    · rintro ⟨h1, h2, h3⟩
      cases π with
      | nil => simp at h1; omega
      | cons p π1 =>
        have hp : p < rem.length := h2 p (List.mem_cons_self _ _)
        have h3p := h3 p hp
        simp only [List.length_cons, List.take_succ_cons, List.map_cons, assignedSum_cons,
          if_true] at h3p
        have hfit : t ≤ rem.getD p 0 := by omega
        refine ⟨p, hp, ?_⟩
        rw [if_pos hfit]
        refine List.mem_map.mpr ⟨π1, ?_, rfl⟩
        refine (mem_visitOrder k ts _ π1).mpr ⟨by simp at h1; omega, ?_, ?_⟩
        · rw [List.length_set]
          exact fun x hx => h2 x (List.mem_cons_of_mem _ hx)
        · rw [List.length_set]
          intro q hq
          have h3q := h3 q hq
          simp only [List.length_cons, List.take_succ_cons, List.map_cons,
            assignedSum_cons] at h3q
          rw [getD_set_sub rem p q _ hp]
          by_cases hqp : q = p
          · subst hqp
            rw [if_pos rfl] at h3q ⊢
            omega
          · rw [if_neg (fun e => hqp (Option.some.inj e).symm)] at h3q
            rw [if_neg hqp]
            omega

end GpuMemoryManager

namespace GpuMemoryManager

/-! ### With exact ratios, the scan computes the bottleneck ratio -/

/-- With exact ratios the ratio that the scan of lines 123-132 ends with is the minimum of the
start value and the ratios of the segments with a positive accumulator. -/
theorem smallest_fold_min (l : List (MemoryData exactRat)) :
    ∀ acc : ℚ × Nat × Nat,
      (l.foldl
          (fun (acc : ℚ × Nat × Nat) (memoryPtr : MemoryData exactRat) =>
            if decide (memoryPtr.dynamicSize > 0) && exactRat.lt memoryPtr.ratio acc.1 then
              (memoryPtr.ratio, memoryPtr.size, memoryPtr.dynamicSize)
            else acc)
          acc).1
        = ((l.map fun m => (decide (m.dynamicSize > 0), m.ratio)).filter fun x => x.1).foldl
            (fun a x => min a x.2) acc.1 := by
  induction l with
  | nil => intro acc; rfl
  | cons m ms ih =>
    intro acc
    simp only [List.foldl_cons, List.map_cons]
    rw [ih]
    by_cases hd : m.dynamicSize > 0
    · rw [List.filter_cons_of_pos (by simpa using hd)]
      simp only [List.foldl_cons]
      congr 1
      by_cases hlt : m.ratio < acc.1
      · rw [if_pos (by simp [hd, hlt])]
        exact (min_eq_right (le_of_lt hlt)).symm
      · rw [if_neg (by simp [hlt])]
        exact (min_eq_left (not_lt.mp hlt)).symm
    · have hdd : decide (m.dynamicSize > 0) = false := decide_eq_false hd
      rw [List.filter_cons_of_neg (by simpa using hd)]
      simp only [hdd, Bool.false_and, Bool.false_eq_true, if_false]

theorem foldl_min_le (l : List (Bool × ℚ)) :
    ∀ a : ℚ, l.foldl (fun a x => min a x.2) a ≤ a := by
  induction l with
  | nil => intro a; exact le_refl a
  | cons x xs ih =>
    intro a
    simp only [List.foldl_cons]
    exact le_trans (ih _) (min_le_left _ _)

/-- The bottleneck ratio is the minimum of 1 and the ratios of the segments that hold dynamic
tensors, when the first of these ratios is at most 1. -/
theorem bottleneckRatio_fold (self : GpuMemoryManager exactRat) (plan : List (Option Nat))
    (h : ∀ r ∈ (((List.range self.availableMemory.length).filter fun p =>
      decide (0 < self.dynamicOn plan p)).map (planRatio self plan)).head?, r ≤ 1) :
    bottleneckRatio self plan
      = (((List.range self.availableMemory.length).filter fun p =>
          decide (0 < self.dynamicOn plan p)).map (planRatio self plan)).foldl min 1 := by
  unfold bottleneckRatio
  generalize ((List.range self.availableMemory.length).filter fun p =>
      decide (0 < self.dynamicOn plan p)).map (planRatio self plan) = l at h
  cases l with
  | nil => rfl
  | cons r rs =>
    simp only [List.foldl_cons]
    rw [min_eq_right (h r (by simp))]

/-- With exact ratios on a fresh manager, at a complete assignment the scan of lines 123-132
ends with the bottleneck ratio of the assignment. -/
theorem smallest_eq_bottleneck (self : GpuMemoryManager exactRat) {σ δ : List Nat}
    {s : Search exactRat}
    (hc : Core (self.searchInit (self.totalCapacity - self.staticSizes.sum)) σ δ s)
    (he : Exact (self.totalCapacity - self.staticSizes.sum) self.dynamicSizes.sum
      (self.searchInit (self.totalCapacity - self.staticSizes.sum)) σ δ s)
    (hσ : σ.length = self.staticTensors.length) (hfresh : Fresh self)
    (hdyn : self.dynamicSizes.sum < sizeModulus) :
    s.smallest.1 = bottleneckRatio self (σ.map some ++ δ.map some) := by
  have hD0 := searchInit_dynamicSizes self (self.totalCapacity - self.staticSizes.sum)
  have hmemlen : (self.searchInit (self.totalCapacity - self.staticSizes.sum)).availableMemory.length
      = self.availableMemory.length := by simp [searchInit]
  have hfresh0 : ∀ m0 ∈ (self.searchInit (self.totalCapacity - self.staticSizes.sum)).availableMemory,
      m0.dynamicSize = 0 := by
    intro m0 hm0
    obtain ⟨p, hp⟩ := List.mem_iff_getElem?.mp hm0
    obtain ⟨seg, hseg, _, _, hd, _⟩ := searchInit_mem self _ p m0 hp
    rw [hd]
    exact hfresh seg (List.getElem?_mem hseg)
  have hσ0 : σ.length
      = (self.searchInit (self.totalCapacity - self.staticSizes.sum)).staticTensors.length := by
    simpa [searchInit] using hσ
  have hslen : s.availableMemory.length = self.availableMemory.length := by
    rw [hc.mem_len, hmemlen]
  have hacc : ∀ (p : Nat) (m : MemoryData exactRat), s.availableMemory[p]? = some m →
      m.dynamicSize = self.dynamicOn (σ.map some ++ δ.map some) p := by
    intro p m hm
    rw [hc.accumulator hfresh0 (by rw [hD0]; exact hdyn) hm, hD0, dynamicOn_append self σ δ hσ]
  have hratio : ∀ (p : Nat) (m : MemoryData exactRat), s.availableMemory[p]? = some m →
      m.ratio = planRatio self (σ.map some ++ δ.map some) p := by
    intro p m hm
    rw [Exact.ratio_eq hc he hm, pathRatio_eq self σ δ hσ]
  have hpairs : (s.availableMemory.map fun m => (decide (m.dynamicSize > 0), m.ratio))
      = (List.range self.availableMemory.length).map fun p =>
        (decide (0 < self.dynamicOn (σ.map some ++ δ.map some) p),
          planRatio self (σ.map some ++ δ.map some) p) := by
    apply List.ext_getElem?
    intro p
    simp only [List.getElem?_map]
    by_cases hp : p < self.availableMemory.length
    · have hps : p < s.availableMemory.length := by omega
      have hm := List.getElem?_eq_getElem hps
      rw [hm, List.getElem?_range hp]
      simp only [Option.map_some', Option.some.injEq, Prod.mk.injEq]
      rw [hacc p _ hm, hratio p _ hm]
      exact ⟨rfl, rfl⟩
    · rw [List.getElem?_eq_none (by omega), List.getElem?_eq_none (by simp; omega)]
      rfl
  unfold Search.smallest
  rw [smallest_fold_min, hpairs]
  rw [bottleneckRatio_fold]
  · simp only [Int.cast_one, List.filter_map, List.foldl_map]
    rfl
  · intro r hr
    have hmem : r ∈ ((List.range self.availableMemory.length).filter fun p =>
        decide (0 < self.dynamicOn (σ.map some ++ δ.map some) p)).map
          (planRatio self (σ.map some ++ δ.map some)) := List.mem_of_mem_head? hr
    obtain ⟨p, hp, rfl⟩ := List.mem_map.mp hmem
    rw [List.mem_filter, List.mem_range] at hp
    rw [← pathRatio_eq self σ δ hσ]
    refine le_of_lt (Exact.ratio_lt_one hc he hσ0 (congrArg List.sum hD0)
      (by rw [hmemlen]; exact hp.1) ?_)
    rw [hD0, ← dynamicOn_append self σ δ hσ]
    exact of_decide_eq_true hp.2

end GpuMemoryManager

namespace GpuMemoryManager

/-! ### With exact ratios, the recorded plan is the first of largest bottleneck ratio -/

/-- The proof rule for a property `R` of the result parameters and the trace, with exact
ratios. -/
theorem exact_outcome {F D : Nat} {s0 : Search exactRat}
    (R : List (Option Nat) × ℚ × Nat × List (List (Option Nat)) → Prop)
    (hscore : ∀ σ δ (s s1 : Search exactRat), Core s0 σ δ s → Exact F D s0 σ δ s →
      σ.length = s0.staticTensors.length → δ.length = s0.dynamicTensors.length →
      R s.outcome → s.score = some s1 → R s1.outcome) :
    ∀ fuel σ (s s1 : Search exactRat), Core s0 σ [] s → Exact F D s0 σ [] s → R s.outcome →
      allocateStatic exactRat fuel σ.length s = some s1 → R s1.outcome := by
  intro fuel σ s s1 hc he hR hrun
  have hJ := commitKeeps_unconstrained F D s0
  have key := allocateStatic_rule
    (fun σ (s : Search exactRat) => ExactInv F D Unconstrained s0 σ [] s ∧ R s.outcome)
    (fun _ _ h => ⟨h.1.staticCall_inv, h.2⟩)
    (fun σ s s1 h0 hlen hd =>
      allocateDynamic_rule
        (fun δ (s : Search exactRat) => ExactInv F D Unconstrained s0 σ δ s ∧ R s.outcome)
        (fun _ _ h => ⟨h.1.dynamicCall_inv, h.2⟩)
        (fun δ s s1 h hδ hs =>
          ⟨h.1.score_inv hJ (hlen.trans h0.1.core.static_len) hδ hs,
            hscore σ δ s s1 h.1.core h.1.exact (hlen.trans h0.1.core.static_len)
              (hδ.trans h.1.core.dynamic_len) h.2 hs⟩)
        (fun _ _ _ _ h hc =>
          ⟨h.1.dynamicChoose_inv hc, by rw [outcome_dynamicChoose hc]; exact h.2⟩)
        (fun _ _ _ _ h hu =>
          ⟨h.1.dynamicUnchoose_inv hu, by rw [outcome_dynamicUnchoose hu]; exact h.2⟩)
        (s.dynamicTensors.length + 1) [] s s1 h0 hd)
    (fun _ _ _ _ h hf hc =>
      ⟨h.1.staticChoose_inv hf hc, by rw [outcome_staticChoose hc]; exact h.2⟩)
    (fun _ _ _ _ h hu =>
      ⟨h.1.staticUnchoose_inv hu, by rw [outcome_staticUnchoose hu]; exact h.2⟩)
    fuel σ s s1 ⟨⟨hc, he, trivial⟩, hR⟩ hrun
  exact key.2

/-- The scoring of a complete assignment keeps the selection: the plan is replaced exactly when
the bottleneck ratio of the assignment exceeds `largestRatio`. -/
theorem selection_score (self : GpuMemoryManager exactRat) {σ δ : List Nat}
    {s s1 : Search exactRat}
    (hc : Core (self.searchInit (self.totalCapacity - self.staticSizes.sum)) σ δ s)
    (he : Exact (self.totalCapacity - self.staticSizes.sum) self.dynamicSizes.sum
      (self.searchInit (self.totalCapacity - self.staticSizes.sum)) σ δ s)
    (hσ : σ.length = self.staticTensors.length) (hδ : δ.length = self.dynamicTensors.length)
    (hfresh : Fresh self) (hdyn : self.dynamicSizes.sum < sizeModulus)
    (hR : Selection self s.outcome) (hs : s.score = some s1) :
    Selection self s1.outcome := by
  have e := score_paths hc (by simpa [searchInit] using hσ) (by simpa [searchInit] using hδ) hs
  have hr := smallest_eq_bottleneck self hc he hσ hfresh hdyn
  by_cases hlt : exactRat.lt s.largestRatio s.smallest.1 = true
  · rw [if_pos hlt] at e
    subst e
    have hlt1 : s.largestRatio < bottleneckRatio self (σ.map some ++ δ.map some) := by
      rw [← hr]
      exact of_decide_eq_true hlt
    have hold : ∀ plan ∈ s.scored,
        bottleneckRatio self plan < bottleneckRatio self (σ.map some ++ δ.map some) := by
      intro plan hplan
      rcases hR with ⟨_, hrat, hall⟩ | ⟨i, _, _, hall, _⟩
      · have h1 := hall plan hplan
        have h2 : s.largestRatio = -1 := hrat
        linarith
      · exact lt_of_le_of_lt (hall plan hplan) hlt1
    refine Or.inr ⟨s.scored.length, ?_, ?_, ?_, ?_⟩
    · simp [Search.outcome]
    · exact hr
    · intro plan hplan
      simp only [Search.outcome, List.mem_append, List.mem_singleton] at hplan
      show bottleneckRatio self plan ≤ s.smallest.1
      rw [hr]
      rcases hplan with h1 | rfl
      · exact le_of_lt (hold plan h1)
      · exact le_refl _
    · intro j plan hj hplan
      simp only [Search.outcome] at hplan
      rw [List.getElem?_append_left hj] at hplan
      show bottleneckRatio self plan < s.smallest.1
      rw [hr]
      exact hold plan (List.getElem?_mem hplan)
  · rw [if_neg hlt] at e
    subst e
    have hle : bottleneckRatio self (σ.map some ++ δ.map some) ≤ s.largestRatio := by
      rw [← hr]
      exact not_lt.mp (fun h => hlt (decide_eq_true h))
    rcases hR with ⟨hb, hrat, hall⟩ | ⟨i, hi, hrat, hall, hfirst⟩
    · refine Or.inl ⟨hb, hrat, ?_⟩
      intro plan hplan
      simp only [Search.outcome, List.mem_append, List.mem_singleton] at hplan
      rcases hplan with h1 | rfl
      · exact hall plan h1
      · have h2 : s.largestRatio = -1 := hrat
        rw [← h2]
        exact hle
    · have hilt : i < s.scored.length := (List.getElem?_eq_some.mp hi).1
      refine Or.inr ⟨i, ?_, hrat, ?_, ?_⟩
      · simp only [Search.outcome]
        rw [List.getElem?_append_left hilt]
        exact hi
      · intro plan hplan
        simp only [Search.outcome, List.mem_append, List.mem_singleton] at hplan
        rcases hplan with h1 | rfl
        · exact hall plan h1
        · exact hle
      · intro j plan hj hplan
        simp only [Search.outcome] at hplan
        rw [List.getElem?_append_left (by omega)] at hplan
        exact hfirst j plan hj hplan

/-- With exact ratios on a fresh manager the search keeps the selection. -/
theorem search_selection (self : GpuMemoryManager exactRat) (hwf : SizesInRange self)
    (hfresh : Fresh self) (hle : self.staticSizes.sum ≤ self.totalCapacity)
    (hdyn : self.dynamicSizes.sum < sizeModulus) (s : Search exactRat)
    (hs : self.search (self.totalCapacity - self.staticSizes.sum) = some s) :
    Selection self s.outcome := by
  have hcore := searchInit_core self (self.totalCapacity - self.staticSizes.sum) hwf
  have hexact := searchInit_exact self (self.totalCapacity - self.staticSizes.sum) (by omega)
  rw [dynamicTensorSizeOf_eq self hdyn] at hexact
  refine exact_outcome (Selection self)
    (fun σ δ s s1 hc he hσ hδ hR hscore =>
      selection_score self hc he (by simpa [searchInit] using hσ)
        (by simpa [searchInit] using hδ) hfresh hdyn hR hscore)
    (self.staticTensors.length + 1) [] _ s hcore hexact ?_ hs
  refine Or.inl ⟨rfl, ?_, ?_⟩
  · simp [Search.outcome, searchInit]
  · intro plan hplan
    simp [Search.outcome, searchInit] at hplan

end GpuMemoryManager

namespace GpuMemoryManager

/-- Without dynamic tensors the bottleneck ratio of every plan is 1. -/
theorem bottleneckRatio_static (self : GpuMemoryManager exactRat) (plan : List (Option Nat))
    (h : self.dynamicTensors = []) : bottleneckRatio self plan = 1 := by
  have hz : ∀ p, self.dynamicOn plan p = 0 := by
    intro p
    simp [dynamicOn, dynamicSizes, h]
  unfold bottleneckRatio
  have : ((List.range self.availableMemory.length).filter fun p =>
      decide (0 < self.dynamicOn plan p)) = [] := by
    rw [List.filter_eq_nil_iff]
    intro p _
    simp [hz p]
  rw [this]
  rfl

/-- The members of the visit order of a manager are the concatenations of a static assignment
that fits and of an arbitrary dynamic assignment. -/
theorem mem_visitOrder_iff {A : FloatOps} (self : GpuMemoryManager A) (π : List Nat) :
    π ∈ visitOrder self.dynamicTensors.length self.staticSizes
        (self.availableMemory.map fun m => m.size)
      ↔ ∃ σ δ : List Nat, π = σ ++ δ ∧ StaticAssignment self σ
        ∧ δ.length = self.dynamicTensors.length ∧ ∀ x ∈ δ, x < self.availableMemory.length := by
  rw [mem_visitOrder]
  simp only [List.length_map]
  have hsl : self.staticSizes.length = self.staticTensors.length := by simp [staticSizes]
  rw [hsl]
  constructor
  · rintro ⟨h1, h2, h3⟩
    refine ⟨π.take self.staticTensors.length, π.drop self.staticTensors.length,
      (List.take_append_drop _ _).symm, ⟨?_, ?_, ?_⟩, ?_, ?_⟩
    · rw [List.length_take]
      omega
    · exact fun x hx => h2 x (List.mem_of_mem_take hx)
    · intro p seg hseg
      have hp : p < self.availableMemory.length := (List.getElem?_eq_some.mp hseg).1
      have := h3 p hp
      simpa [List.getD_eq_getElem?_getD, hseg] using this
    · rw [List.length_drop]
      omega
    · exact fun x hx => h2 x (List.mem_of_mem_drop hx)
  · rintro ⟨σ, δ, rfl, ⟨hσ, hσv, hfit⟩, hδ, hδv⟩
    refine ⟨by simp [hσ, hδ], ?_, ?_⟩
    · intro x hx
      rcases List.mem_append.mp hx with h | h
      · exact hσv x h
      · exact hδv x h
    · intro q hq
      rw [List.take_left' hσ]
      have hseg := List.getElem?_eq_getElem hq
      have := hfit q _ hseg
      simpa [List.getD_eq_getElem?_getD, hseg] using this

/-- The selection rule with exact ratios: on a freshly constructed manager with the static
total strictly below the total capacity (`fragSize > 0`) and no `size_t` overflow, the search
returns; the complete assignments it scored are, each once and in lexicographic order (tensors
in registration order, static tensors first, segments in list order), the concatenations of a
static assignment that fits with an arbitrary dynamic assignment; and when any was scored, the
plan recorded at the end is the first scored assignment whose bottleneck ratio is largest:
every scored assignment has a bottleneck ratio at most that of the plan, and every assignment
scored before the plan a strictly smaller one; a successful `Allocate` places by that plan. -/
theorem exact_selection_rule (self : GpuMemoryManager exactRat) (hwf : SizesInRange self)
    (hfresh : Fresh self) (hcap : self.totalCapacity < sizeModulus)
    (hlt : self.staticSizes.sum < self.totalCapacity)
    (hdyn : self.dynamicSizes.sum < sizeModulus) :
    ∃ s, self.search (self.totalCapacity - self.staticSizes.sum) = some s
      ∧ (∃ L : List (List Nat), s.scored = L.map (fun π => π.map some)
        ∧ L.Pairwise (List.Lex fun a b => a < b)
        ∧ ∀ π, π ∈ L ↔ ∃ σ δ : List Nat, π = σ ++ δ ∧ StaticAssignment self σ
          ∧ δ.length = self.dynamicTensors.length
          ∧ ∀ x ∈ δ, x < self.availableMemory.length)
      ∧ (s.scored ≠ [] → Selected self s.bestCombination s.largestRatio s.scored)
      ∧ ∀ r, Allocate exactRat self = some (Except.ok r) →
        r.bestCombination = s.bestCombination := by
  obtain ⟨s, hs, hcore⟩ := search_total self (self.totalCapacity - self.staticSizes.sum) hwf
  have htrace := search_scored hwf hs
  refine ⟨s, hs, ⟨_, htrace, pairwise_visitOrder _ _ _, mem_visitOrder_iff self⟩, ?_, ?_⟩
  · intro hne
    rcases search_selection self hwf hfresh (Nat.le_of_lt hlt) hdyn s hs with
      ⟨hb, _, hall⟩ | hsel
    · exfalso
      obtain ⟨plan, hplan⟩ := List.exists_mem_of_ne_nil _ hne
      have hbn := hall plan hplan
      by_cases hreq : 0 < self.staticTensors.length + self.dynamicTensors.length
      · rw [htrace] at hplan
        obtain ⟨π, hπ, _⟩ := List.mem_map.mp hplan
        obtain ⟨σ, δ, _, hσ, _, _⟩ := (mem_visitOrder_iff self π).mp hπ
        have hcom := search_commits self hwf hlt hdyn ⟨σ, hσ⟩ s hs
        have hbl : s.bestCombination.length
            = self.staticTensors.length + self.dynamicTensors.length := by
          rw [hcore.best_len]
          simp [searchInit]
        obtain ⟨p, _, hp⟩ := hcom 0 (by omega)
        have hb1 : s.bestCombination
            = List.replicate (self.staticTensors.length + self.dynamicTensors.length) none := hb
        rw [hb1, List.getElem?_replicate, if_pos hreq] at hp
        cases hp
      · have hD : self.dynamicTensors = [] := List.eq_nil_of_length_eq_zero (by omega)
        rw [bottleneckRatio_static self plan hD] at hbn
        norm_num at hbn
    · exact hsel
  · intro r hrun
    obtain ⟨F, s1, p0, hF, hs1, _, hplace⟩ := Allocate_ok hrun
    rw [fragSizeOf_eq self hcap, if_pos (Nat.le_of_lt hlt)] at hF
    cases hF
    rw [hs] at hs1
    cases hs1
    exact (place_result hplace).2

/-- The selection rule with exact ratios at a concrete input:
fresh segments of 2 and 6 bytes and two dynamic requests of 1 byte
per batch. -/
theorem exact_selection_rule_example :
    ∃ s, (pending exactRat [(1000, 2), (2000, 6)] [] [(0, 1), (1, 1)]).search
        ((pending exactRat [(1000, 2), (2000, 6)] [] [(0, 1), (1, 1)]).totalCapacity
          - (pending exactRat [(1000, 2), (2000, 6)] [] [(0, 1), (1, 1)]).staticSizes.sum)
        = some s
      ∧ (s.scored ≠ [] →
        Selected (pending exactRat [(1000, 2), (2000, 6)] [] [(0, 1), (1, 1)])
          s.bestCombination s.largestRatio s.scored) :=
  (exact_selection_rule (pending exactRat [(1000, 2), (2000, 6)] [] [(0, 1), (1, 1)])
    (by unfold SizesInRange; decide) (by unfold Fresh; decide) (by decide) (by decide)
    (by decide)).imp fun _ h => ⟨h.1, h.2.2.1⟩

end GpuMemoryManager

namespace GpuMemoryManager

variable {A : FloatOps}

/-! ### In every arithmetic: where the batch count comes from -/

end GpuMemoryManager

/-! ## Claims -/

namespace GpuMemoryManager

/-- C1 (capacity invariant), evaluated on the code: with segments of 1, 7 and 8 bytes and two
dynamic requests of 1 and 3 bytes per batch on a freshly constructed manager, `Allocate`
succeeds with batch count 2 and the plan (segment 0, segment 2); segment 0 then holds
2 * 1 = 2 bytes although its size is 1, and its accumulator after the placement pass is 2. -/
theorem C1_capacity_violated :
    batchesOf (Allocate binary32
        (pending binary32 [(1000, 1), (2000, 7), (3000, 8)] [] [(1, 1), (2, 3)])) = some 2
      ∧ planOf (Allocate binary32
        (pending binary32 [(1000, 1), (2000, 7), (3000, 8)] [] [(1, 1), (2, 3)]))
          = some [some 0, some 2]
      ∧ capacityOk (pending binary32 [(1000, 1), (2000, 7), (3000, 8)] [] [(1, 1), (2, 3)])
          [some 0, some 2] 2 0 = false
      ∧ usedOf (Allocate binary32
        (pending binary32 [(1000, 1), (2000, 7), (3000, 8)] [] [(1, 1), (2, 3)]))
          = some [(1, 2), (7, 0), (8, 6)] := by
  refine ⟨?_, ?_, ?_, ?_⟩ <;> decide!

/-- C2 (containment), evaluated on the code: one segment of 100 bytes at byte address 1000, one
static request of 50 bytes and one dynamic request of 10 bytes per batch.  `Allocate` returns
batch count 5 and writes the byte address 1000 + 4 * 50 = 1200 for the dynamic tensor, because
the accumulator is added to a `float*`; the range [1200, 1250) is not inside [1000, 1100). -/
theorem C2_containment_violated :
    batchesOf (Allocate binary32 (pending binary32 [(1000, 100)] [(0, 50)] [(1, 10)])) = some 5
      ∧ planOf (Allocate binary32 (pending binary32 [(1000, 100)] [(0, 50)] [(1, 10)]))
          = some [some 0, some 0]
      ∧ writtenOf (Allocate binary32 (pending binary32 [(1000, 100)] [(0, 50)] [(1, 10)]))
          = some [(0, 1000), (1, 1200)]
      ∧ (resultOf (Allocate binary32 (pending binary32 [(1000, 100)] [(0, 50)] [(1, 10)]))).map
          (fun r => containedAt (pending binary32 [(1000, 100)] [(0, 50)] [(1, 10)]) r 1)
          = some false := by
  refine ⟨?_, ?_, ?_, ?_⟩ <;> decide!

/-- C4 (maximality for the chosen assignment), evaluated on the code: with segments of 2, 5 and
9 bytes and dynamic requests of 1 and 3 bytes per batch on a fresh manager, `Allocate` returns
batch count 3 with the plan (segment 0, segment 2); the plan satisfies the capacity inequality
of every segment for 2 batches and not for 3 (segment 0 has 2 bytes), so the largest batch count
of the committed plan is 2, the floor of 2 / 1, and not the 3 = floor of 9 / 3 returned. -/
theorem C4_batch_count_exceeds_plan :
    batchesOf (Allocate binary32
        (pending binary32 [(1000, 2), (2000, 5), (3000, 9)] [] [(1, 1), (2, 3)])) = some 3
      ∧ planOf (Allocate binary32
        (pending binary32 [(1000, 2), (2000, 5), (3000, 9)] [] [(1, 1), (2, 3)]))
          = some [some 0, some 2]
      ∧ capacityAll (pending binary32 [(1000, 2), (2000, 5), (3000, 9)] [] [(1, 1), (2, 3)])
          [some 0, some 2] 2 = true
      ∧ capacityAll (pending binary32 [(1000, 2), (2000, 5), (3000, 9)] [] [(1, 1), (2, 3)])
          [some 0, some 2] 3 = false := by
  refine ⟨?_, ?_, ?_, ?_⟩ <;> decide!

/-- C5 (bump-pointer address formula in bytes), evaluated on the code: one segment of 100 bytes
at byte address 1000, static requests of 10 and 20 bytes and a dynamic request of 5 bytes per
batch.  `Allocate` returns batch count 14 and writes 1000, 1040 and 1120: the offsets are
4 * 10 and 4 * 30, not the accumulator values 10 and 30 of the formula (1010 and 1030). -/
theorem C5_offsets_scaled_by_four :
    batchesOf (Allocate binary32 (pending binary32 [(1000, 100)] [(0, 10), (1, 20)] [(2, 5)]))
        = some 14
      ∧ planOf (Allocate binary32 (pending binary32 [(1000, 100)] [(0, 10), (1, 20)] [(2, 5)]))
        = some [some 0, some 0, some 0]
      ∧ writtenOf (Allocate binary32 (pending binary32 [(1000, 100)] [(0, 10), (1, 20)] [(2, 5)]))
        = some [(0, 1000), (1, 1040), (2, 1120)] := by
  refine ⟨?_, ?_, ?_⟩ <;> decide!

/-- C7 (single-segment scenario for all sizes), evaluated on the code: with one segment of
16777219 bytes, a static request of 16777217 bytes and a dynamic request of 1 byte per batch on
a fresh manager, `Allocate` succeeds and returns 0, not (16777219 - 16777217) / 1 = 2: in
binary32 the two sizes round to 16777220 and 16777216, the ratio of the segment ends at 1, and
no bottleneck is found. -/
theorem C7_rounding_counterexample :
    batchesOf (Allocate binary32 (pending binary32 [(1000, 16777219)] [(0, 16777217)] [(1, 1)]))
        = some 0
      ∧ (16777219 - 16777217) / 1 = 2 := by
  refine ⟨?_, ?_⟩ <;> decide!

/-- C8 (static-only boundary), evaluated on the code: on a fresh manager with segments of 8 and
9 bytes, a first round with one static request of 1 byte returns 0 and leaves the accumulator of
segment 0 at 1; a second round with one static request of 1 byte and no dynamic request returns
batch count 8, not 0. -/
theorem C8_second_round_nonzero :
    (allocationRound binary32 (fresh binary32 [(1000, 8), (2000, 9)]) [(0, 1)] []).map
        (fun r1 => (r1.largestN, r1.self.availableMemory.map fun seg => seg.dynamicSize))
        = some (0, [1, 0])
      ∧ (allocationRound binary32 (fresh binary32 [(1000, 8), (2000, 9)]) [(0, 1)] []).bind
        (fun r1 => (allocationRound binary32 r1.self [(1, 1)] []).map fun r2 => r2.largestN)
        = some 8 := by
  refine ⟨?_, ?_⟩ <;> decide!

/-- C9 (capacity error before the search): when the segment sizes do not overflow `size_t`,
`Allocate` exits with "Static tensor size is larger than total memory size" if and only if the
pending static sizes exceed the total capacity; it then has not invoked `allocateStatic` nor
`allocateDynamic`; and it does so whenever a single static tensor exceeds the total capacity. -/
theorem C9_capacity_precheck (A : FloatOps) (self : GpuMemoryManager A)
    (h : self.totalCapacity < sizeModulus) :
    ((∃ e, Allocate A self = some (Except.error e) ∧ e.message = staticTooLarge)
        ↔ self.totalCapacity < self.staticSizes.sum)
      ∧ (∀ e, Allocate A self = some (Except.error e) → e.message = staticTooLarge →
          e.staticCalls = 0 ∧ e.dynamicCalls = 0)
      ∧ (∀ t ∈ self.staticTensors, self.totalCapacity < t.size →
          Allocate A self = some (Except.error
            { message := staticTooLarge, staticCalls := 0, dynamicCalls := 0 })) := by
  have hne : noCombination ≠ staticTooLarge := by decide
  refine ⟨⟨?_, ?_⟩, ?_, ?_⟩
  · rintro ⟨e, he, hmsg⟩
    by_contra hle
    have := Allocate_message_of_fits self h (by omega) e he
    exact hne (this ▸ hmsg)
  · intro hgt
    exact ⟨_, Allocate_of_too_large self h hgt, rfl⟩
  · intro e he hmsg
    by_cases hgt : self.totalCapacity < self.staticSizes.sum
    · rw [Allocate_of_too_large self h hgt] at he
      simp only [Option.some.injEq, Except.error.injEq] at he
      subst he
      exact ⟨rfl, rfl⟩
    · have := Allocate_message_of_fits self h (by omega) e he
      exact absurd (this ▸ hmsg) hne
  · intro t ht hgt
    exact Allocate_of_too_large self h (by have := single_le_sum self t ht; omega)

/-- C9 at a concrete input: 100 bytes of capacity, static requests of 60 and 50 bytes. -/
theorem C9_capacity_precheck_witness :
    (pending binary32 [(1000, 100)] [(0, 60), (1, 50)] []).totalCapacity < sizeModulus
      ∧ (((∃ e, Allocate binary32 (pending binary32 [(1000, 100)] [(0, 60), (1, 50)] [])
              = some (Except.error e) ∧ e.message = staticTooLarge)
          ↔ (pending binary32 [(1000, 100)] [(0, 60), (1, 50)] []).totalCapacity
              < (pending binary32 [(1000, 100)] [(0, 60), (1, 50)] []).staticSizes.sum)
        ∧ (∀ e, Allocate binary32 (pending binary32 [(1000, 100)] [(0, 60), (1, 50)] [])
              = some (Except.error e) → e.message = staticTooLarge →
            e.staticCalls = 0 ∧ e.dynamicCalls = 0)
        ∧ (∀ t ∈ (pending binary32 [(1000, 100)] [(0, 60), (1, 50)] []).staticTensors,
            (pending binary32 [(1000, 100)] [(0, 60), (1, 50)] []).totalCapacity < t.size →
            Allocate binary32 (pending binary32 [(1000, 100)] [(0, 60), (1, 50)] [])
              = some (Except.error
                { message := staticTooLarge, staticCalls := 0, dynamicCalls := 0 }))) :=
  ⟨by decide, C9_capacity_precheck binary32 _ (by decide)⟩

/-- C10 (infeasibility error), evaluated on the code: with one segment of 16777217 bytes, a
static request of 16777216 bytes and a dynamic request of 1 byte per batch, the static total is
below the capacity and the static tensor fits the segment; the search scores the only complete
assignment (segment 0, segment 0) and leaves the plan all null, and `Allocate` exits with
"No combination found": in binary32 both sizes round to 16777216, the assignment has ratio -1,
which is not greater than the initial -1. -/
theorem C10_rounding_counterexample :
    messageOf (Allocate binary32 (pending binary32 [(1000, 16777217)] [(0, 16777216)] [(1, 1)]))
        = some "No combination found\n"
      ∧ capacityAll (pending binary32 [(1000, 16777217)] [(0, 16777216)] [(1, 1)])
          [some 0, some 0] 0 = true
      ∧ ((pending binary32 [(1000, 16777217)] [(0, 16777216)] [(1, 1)]).search 1).map
          (fun s => (s.scored, s.bestCombination))
        = some ([[some 0, some 0]], [none, none]) := by
  refine ⟨?_, ?_, ?_⟩ <;> decide!

/-- C11 (registration rejection): `ManageStatic` and `ManageDynamic` exit in `FailIf` exactly
when the size is 0; for every size of at least 1 the call returns, and the manager it leaves
differs from the one before only in that one request with the given slot and size is appended
to the end of the static list, respectively of the dynamic list. -/
theorem C11_registration (A : FloatOps) (self : GpuMemoryManager A) (slot size : Nat) :
    ((∃ e, ManageStatic self slot size = Except.error e) ↔ size = 0)
      ∧ ((∃ e, ManageDynamic self slot size = Except.error e) ↔ size = 0)
      ∧ (1 ≤ size → ∃ t : TensorData A, t.address = slot ∧ t.size = size
          ∧ ManageStatic self slot size
            = Except.ok { self with staticTensors := self.staticTensors ++ [t] })
      ∧ (1 ≤ size → ∃ t : TensorData A, t.address = slot ∧ t.size = size
          ∧ ManageDynamic self slot size
            = Except.ok { self with dynamicTensors := self.dynamicTensors ++ [t] }) := by
  refine ⟨?_, ?_, ?_, ?_⟩
  · by_cases h : size = 0
    · subst h
      simp [ManageStatic, FailIf]
    · have h1 : ¬ size ≤ 0 := by omega
      simp [ManageStatic, FailIf, h, h1]
  · by_cases h : size = 0
    · subst h
      simp [ManageDynamic, FailIf]
    · have h1 : ¬ size ≤ 0 := by omega
      simp [ManageDynamic, FailIf, h, h1]
  · intro h
    have h1 : ¬ size ≤ 0 := by omega
    exact ⟨{ address := slot, size := size, ratio := A.ofInt 0, memoryPtr := none }, rfl, rfl,
      by simp [ManageStatic, FailIf, h1]⟩
  · intro h
    have h1 : ¬ size ≤ 0 := by omega
    exact ⟨{ address := slot, size := size, ratio := A.ofInt 0, memoryPtr := none }, rfl, rfl,
      by simp [ManageDynamic, FailIf, h1]⟩

/-- C11 at a concrete input: registering a static request of 40 bytes for slot 7 on a fresh
manager with one segment. -/
theorem C11_registration_witness :
    1 ≤ 40 ∧ ∃ t : TensorData binary32, t.address = 7 ∧ t.size = 40
      ∧ ManageStatic (fresh binary32 [(1000, 100)]) 7 40
        = Except.ok { fresh binary32 [(1000, 100)] with
            staticTensors := (fresh binary32 [(1000, 100)]).staticTensors ++ [t] } :=
  ⟨by decide, (C11_registration binary32 (fresh binary32 [(1000, 100)]) 7 40).2.2.1 (by decide)⟩

/-- C12 (registries are consumed): after a successful `Allocate` both request lists are empty,
and the addresses written are one per pending request, to the slot of that request, the static
requests first and each list in registration order. -/
theorem C12_registries_consumed (A : FloatOps) (self : GpuMemoryManager A) (r : AllocResult A)
    (hwf : SizesInRange self) (hrun : Allocate A self = some (Except.ok r)) :
    r.self.staticTensors = [] ∧ r.self.dynamicTensors = []
      ∧ r.written.length = self.staticTensors.length + self.dynamicTensors.length
      ∧ r.written.map Prod.fst = self.slots := by
  obtain ⟨F, s, p, _, hs, _, hplace⟩ := Allocate_ok hrun
  obtain ⟨h1, h2, h3, _⟩ := place_frame hplace
  have hslots : s.slots = self.slots := by
    rw [(search_core hwf hs).slots_eq, searchInit_slots]
  rw [hslots] at h3
  refine ⟨h1, h2, ?_, h3⟩
  have := congrArg List.length h3
  simpa [slots] using this

/-- C12 at a concrete input: one segment of 100 bytes, a static request for slot 0 and a
dynamic request for slot 1. -/
theorem C12_registries_consumed_witness :
    (resultOr (Allocate binary32
        (pending binary32 [(1000, 100)] [(0, 50)] [(1, 10)]))).self.staticTensors = []
      ∧ (resultOr (Allocate binary32
        (pending binary32 [(1000, 100)] [(0, 50)] [(1, 10)]))).self.dynamicTensors = []
      ∧ (resultOr (Allocate binary32
        (pending binary32 [(1000, 100)] [(0, 50)] [(1, 10)]))).written.length
          = (pending binary32 [(1000, 100)] [(0, 50)] [(1, 10)]).staticTensors.length
            + (pending binary32 [(1000, 100)] [(0, 50)] [(1, 10)]).dynamicTensors.length
      ∧ (resultOr (Allocate binary32
        (pending binary32 [(1000, 100)] [(0, 50)] [(1, 10)]))).written.map Prod.fst
          = (pending binary32 [(1000, 100)] [(0, 50)] [(1, 10)]).slots :=
  C12_registries_consumed binary32 _ _ (by unfold SizesInRange; decide)
    (Allocate_of_isSome (by decide!))

/-- C13 (segment sizes are immutable across allocation): the search started by
`allocateStatic(0, ...)` returns, and the segment list it leaves has the base addresses and the
sizes it had before, in the same order; so has the segment list a successful `Allocate`
leaves. -/
theorem C13_segments_restored (A : FloatOps) (self : GpuMemoryManager A)
    (hwf : SizesInRange self) :
    (∀ F, ∃ s, self.search F = some s)
      ∧ (∀ F s, self.search F = some s →
        (s.availableMemory.map fun m => (m.address, m.size))
          = self.availableMemory.map fun m => (m.address, m.size))
      ∧ ∀ r, Allocate A self = some (Except.ok r) →
        (r.self.availableMemory.map fun m => (m.address, m.size))
          = self.availableMemory.map fun m => (m.address, m.size) := by
  refine ⟨fun F => ?_, fun F s hs => search_frame hwf hs, fun r hrun => ?_⟩
  · obtain ⟨s, hs, _⟩ := search_total self F hwf
    exact ⟨s, hs⟩
  · obtain ⟨F, s, p, _, hs, _, hplace⟩ := Allocate_ok hrun
    rw [(place_frame hplace).2.2.2]
    exact search_frame hwf hs

/-- C13 at a concrete input: segments of 8 and 9 bytes with static requests of 5 and 4 bytes
and a dynamic request of 1 byte per batch. -/
theorem C13_segments_restored_witness :
    (∃ s, (pending binary32 [(1000, 8), (2000, 9)] [(0, 5), (1, 4)] [(2, 1)]).search 8 = some s)
      ∧ ((resultOr (Allocate binary32 (pending binary32 [(1000, 8), (2000, 9)] [(0, 5), (1, 4)]
          [(2, 1)]))).self.availableMemory.map fun m => (m.address, m.size))
        = (pending binary32 [(1000, 8), (2000, 9)] [(0, 5), (1, 4)]
          [(2, 1)]).availableMemory.map fun m => (m.address, m.size) :=
  ⟨(C13_segments_restored binary32 _ (by unfold SizesInRange; decide)).1 8,
    (C13_segments_restored binary32 _ (by unfold SizesInRange; decide)).2.2 _
      (Allocate_of_isSome (by decide!))⟩

/-- C14 (discovery probe): with the allocator an oracle `ok` on sizes that is downward closed
on `[1, freeMem]`, `freeMem` at least 1 and small enough for `low + high` never to overflow
(`2 * freeMem < 2 ^ 64`; in every iteration `low <= high <= freeMem`), the inner loop of the
constructor returns when given `freeMem` iterations or more, and `low - 1` then is 0 if `ok`
rejects every size in `[1, freeMem]` and otherwise the largest size in `[1, freeMem]` that `ok`
accepts. -/
theorem C14_discovery_probe (ok : Nat → Bool) (freeMem base fuel calls : Nat)
    (hfree : 1 ≤ freeMem) (hM : freeMem + freeMem < sizeModulus)
    (hdc : ∀ g g1, 1 ≤ g1 → g1 ≤ g → g ≤ freeMem → ok g = true → ok g1 = true)
    (hfuel : freeMem ≤ fuel) :
    ∃ low calls1,
      probeLoop (oracleRuntime freeMem base ok) fuel 1 freeMem calls = some (low, calls1)
        ∧ ((sizeSub low 1 = 0 ∧ ∀ g, 1 ≤ g → g ≤ freeMem → ok g = false)
          ∨ (1 ≤ sizeSub low 1 ∧ sizeSub low 1 ≤ freeMem ∧ ok (sizeSub low 1) = true
            ∧ ∀ g, sizeSub low 1 < g → g ≤ freeMem → ok g = false)) := by
  obtain ⟨r, calls1, hrun, hr, hlo, hhi⟩ :=
    probeLoop_search (oracleRuntime freeMem base ok) ok freeMem (fun _ _ => rfl) hdc hM fuel 1
      freeMem calls (Nat.le_refl _) hfree (Nat.le_refl _) (by omega)
      (fun g h1 h2 => by omega) (fun g h1 h2 => by omega)
  refine ⟨r + 1, calls1, hrun, ?_⟩
  have hsub : sizeSub (r + 1) 1 = r := by
    rw [sizeSub_of_le (by omega) (by omega)]
    omega
  rw [hsub]
  by_cases h0 : r = 0
  · left
    exact ⟨h0, fun g h1 h2 => hhi g (by omega) h2⟩
  · right
    exact ⟨by omega, hr, hlo r (by omega) (Nat.le_refl _), hhi⟩

/-- C14 at a concrete input: 100 free bytes and an allocator that accepts the sizes up to 37:
the loop ends with `low = 38`. -/
theorem C14_discovery_probe_witness :
    ∃ low calls1,
      probeLoop (oracleRuntime 100 0 fun g => decide (g ≤ 37)) 100 1 100 0 = some (low, calls1)
        ∧ ((sizeSub low 1 = 0 ∧ ∀ g, 1 ≤ g → g ≤ 100 → decide (g ≤ 37) = false)
          ∨ (1 ≤ sizeSub low 1 ∧ sizeSub low 1 ≤ 100 ∧ decide (sizeSub low 1 ≤ 37) = true
            ∧ ∀ g, sizeSub low 1 < g → g ≤ 100 → decide (g ≤ 37) = false)) :=
  C14_discovery_probe (fun g => decide (g ≤ 37)) 100 0 100 0 (by decide) (by decide)
    (fun g g1 _ h2 _ h4 => by
      simp only [decide_eq_true_eq] at h4 ⊢
      omega)
    (by decide)

/-- C15 (discovery totality): whatever the allocator answers, a constructor run that returns
leaves a segment list that is not empty, with segments of at least 1 byte whose sizes sum to at
most the free byte count that the runtime reported at the start; every run of the inner loop
ends with `low - 1`, the size of the segment found, at most the free byte count it started
from, so `freeMem -= low` does not underflow; the accumulators are 0 and no request is
pending. -/
theorem C15_discovery_bounds (A : FloatOps) (cuda : CudaRuntime) (fuel : Nat)
    (self : GpuMemoryManager A) (hM : cuda.freeMem < sizeModulus)
    (hrun : construct A cuda fuel = some (Except.ok self)) :
    self.availableMemory ≠ [] ∧ (∀ m ∈ self.availableMemory, 1 ≤ m.size)
      ∧ self.totalCapacity ≤ cuda.freeMem
      ∧ (∀ fuel1 freeMem calls low calls1, freeMem < sizeModulus →
          probeLoop cuda fuel1 1 freeMem calls = some (low, calls1) →
          sizeSub low 1 ≤ freeMem)
      ∧ Fresh self ∧ self.staticTensors = [] ∧ self.dynamicTensors = [] := by
  obtain ⟨h1, h2, h3, h4, h5⟩ := construct_ok hM hrun
  refine ⟨h1, fun m hm => (h2 m hm).1, h3, ?_, fun m hm => (h2 m hm).2, h4, h5⟩
  intro fuel1 freeMem calls low calls1 hfree hp
  obtain ⟨hl1, hl2, hl3⟩ := probeLoop_bound cuda freeMem hfree fuel1 1 freeMem calls low calls1
    (Nat.le_refl _) (by omega) (by unfold sizeModulus; omega) (Or.inl (Nat.le_refl _)) hp
  rw [sizeSub_of_le hl1 hl3]
  omega

/-- C15 at a concrete input: 12 free bytes and an allocator that accepts the sizes up to 5:
the constructor returns with segments of 5, 5 and 2 bytes. -/
theorem C15_discovery_bounds_witness :
    construct binary32 (oracleRuntime 12 0 fun g => decide (g ≤ 5)) 20
        = some (Except.ok (fresh binary32 [(0, 5), (0, 5), (0, 2)]))
      ∧ (fresh binary32 [(0, 5), (0, 5), (0, 2)]).availableMemory ≠ []
      ∧ (∀ m ∈ (fresh binary32 [(0, 5), (0, 5), (0, 2)]).availableMemory, 1 ≤ m.size)
      ∧ (fresh binary32 [(0, 5), (0, 5), (0, 2)]).totalCapacity ≤ 12 :=
  ⟨rfl,
    (C15_discovery_bounds binary32 (oracleRuntime 12 0 fun g => decide (g ≤ 5)) 20 _
      (by decide) rfl).1,
    (C15_discovery_bounds binary32 (oracleRuntime 12 0 fun g => decide (g ≤ 5)) 20 _
      (by decide) rfl).2.1,
    (C15_discovery_bounds binary32 (oracleRuntime 12 0 fun g => decide (g ≤ 5)) 20 _
      (by decide) rfl).2.2.1⟩

/-- C16 (scoring uses only the current assignment), evaluated on the code: on a fresh manager
with one segment of 100 bytes, a first round with one static request of 50 bytes returns 0 and
leaves the accumulator of the segment at 50; in the second round, with one dynamic request of
10 bytes per batch, the scan of the only complete assignment reads the accumulator 60 = 50 + 10,
not the 10 bytes per batch of the current assignment, and `Allocate` returns 100 / 60 = 1, while
the same request on a fresh manager returns 100 / 10 = 10. -/
theorem C16_stale_accumulator :
    (allocationRound binary32 (fresh binary32 [(1000, 100)]) [(0, 50)] []).map
        (fun r1 => (r1.largestN, r1.self.availableMemory.map fun seg => seg.dynamicSize))
        = some (0, [50])
      ∧ (allocationRound binary32 (fresh binary32 [(1000, 100)]) [(0, 50)] []).bind
        (fun r1 =>
          match ManageDynamic r1.self 1 10 with
          | Except.ok m =>
            ((m.searchInit 100).dynamicChoose 0 0).map fun s => (s.smallest.2.1, s.smallest.2.2)
          | Except.error _ => none)
        = some (100, 60)
      ∧ (allocationRound binary32 (fresh binary32 [(1000, 100)]) [(0, 50)] []).bind
        (fun r1 => (allocationRound binary32 r1.self [] [(1, 10)]).map fun r2 => r2.largestN)
        = some 1
      ∧ (allocationRound binary32 (fresh binary32 [(1000, 100)]) [] [(1, 10)]).map
        (fun r => r.largestN) = some 10 := by
  refine ⟨?_, ?_, ?_, ?_⟩ <;> decide!

/-- C18 (the static part of every committed plan fits): after a successful `Allocate`, in every
arithmetic, on every segment the sizes of the static tensors that the committed plan places
there sum to at most the size of the segment. -/
theorem C18_static_part_fits (A : FloatOps) (self : GpuMemoryManager A) (r : AllocResult A)
    (hwf : SizesInRange self) (hrun : Allocate A self = some (Except.ok r)) :
    ∀ (p : Nat) (seg : MemoryData A), self.availableMemory[p]? = some seg →
      self.staticOn r.bestCombination p ≤ seg.size := by
  obtain ⟨F, s, p0, _, hs, hb0, hplace⟩ := Allocate_ok hrun
  obtain ⟨_, hbest⟩ := place_result hplace
  obtain ⟨σ, δ, hplan, hσ, _, _, _, hfit⟩ := (search_fitting hwf hs).committed hb0
  intro p seg hseg
  rw [hbest, hplan, staticOn_append self σ δ hσ]
  exact hfit p seg hseg

/-- C18 at a concrete input: segments of 8 and 9 bytes, static requests of 5 and 4 bytes and a
dynamic request of 1 byte per batch; the static bytes of the committed plan fit on both
segments. -/
theorem C18_static_part_fits_witness :
    SizesInRange (pending binary32 [(1000, 8), (2000, 9)] [(0, 5), (1, 4)] [(2, 1)])
      ∧ (pending binary32 [(1000, 8), (2000, 9)] [(0, 5), (1, 4)] [(2, 1)]).staticOn
        (resultOr (Allocate binary32
          (pending binary32 [(1000, 8), (2000, 9)] [(0, 5), (1, 4)] [(2, 1)]))).bestCombination 0
        ≤ 8
      ∧ (pending binary32 [(1000, 8), (2000, 9)] [(0, 5), (1, 4)] [(2, 1)]).staticOn
        (resultOr (Allocate binary32
          (pending binary32 [(1000, 8), (2000, 9)] [(0, 5), (1, 4)] [(2, 1)]))).bestCombination 1
        ≤ 9 :=
  have h := C18_static_part_fits binary32
    (pending binary32 [(1000, 8), (2000, 9)] [(0, 5), (1, 4)] [(2, 1)]) _
    (by unfold SizesInRange; decide) (Allocate_of_isSome (by decide!))
  ⟨by unfold SizesInRange; decide,
    h 0 ⟨1000, 8, 0, binary32.ofInt 0⟩ rfl, h 1 ⟨2000, 9, 0, binary32.ofInt 0⟩ rfl⟩

/-- C19 (index safety of the plan check): the vector `bestCombination` that the search leaves
has one entry per pending request, so the read of `bestCombination[0]` is in bounds exactly
when a request is pending; with a request pending every run of `Allocate` has a defined result,
which in the model means that no index into a vector made by `Allocate`, `allocateStatic` or
`allocateDynamic` is out of bounds; with no request pending the read of `bestCombination[0]` is
out of bounds and the run has no defined result. -/
theorem C19_index_safety (A : FloatOps) (self : GpuMemoryManager A) (hwf : SizesInRange self) :
    (∀ F s, self.search F = some s →
        s.bestCombination.length = self.staticTensors.length + self.dynamicTensors.length
          ∧ ((s.bestCombination[0]?).isSome = true
            ↔ 0 < self.staticTensors.length + self.dynamicTensors.length))
      ∧ (0 < self.staticTensors.length + self.dynamicTensors.length →
        ∃ x, Allocate A self = some x)
      ∧ (self.staticTensors.length + self.dynamicTensors.length = 0 →
        Allocate A self = none) := by
  have hlen : ∀ F s, self.search F = some s →
      s.bestCombination.length = self.staticTensors.length + self.dynamicTensors.length := by
    intro F s hs
    rw [(search_core hwf hs).best_len]
    simp [searchInit]
  refine ⟨fun F s hs => ⟨hlen F s hs, ?_⟩, Allocate_defined self hwf, ?_⟩
  · rw [← hlen F s hs]
    cases hb : s.bestCombination with
    | nil => simp
    | cons x xs => simp
  · intro h0
    have hS : self.staticTensors = [] := List.eq_nil_of_length_eq_zero (by omega)
    unfold Allocate
    have hF : self.fragSizeOf = Except.ok
        (self.availableMemory.foldl (fun fragSize memoryPtr => sizeAdd fragSize memoryPtr.size)
          0) := by
      unfold fragSizeOf
      rw [hS]
      rfl
    rw [hF]
    obtain ⟨s, hs, _⟩ := search_total self
      (self.availableMemory.foldl (fun fragSize memoryPtr => sizeAdd fragSize memoryPtr.size) 0)
      hwf
    simp only [hs]
    have hl := hlen _ s hs
    rw [h0] at hl
    rw [List.eq_nil_of_length_eq_zero hl]
    rfl

/-- C19 at concrete inputs: one segment of 100 bytes with a static request of 50 bytes and a
dynamic request of 10 bytes per batch, and the same segment with no request. -/
theorem C19_index_safety_witness :
    (∃ x, Allocate binary32 (pending binary32 [(1000, 100)] [(0, 50)] [(1, 10)]) = some x)
      ∧ Allocate binary32 (pending binary32 [(1000, 100)] [] []) = none :=
  ⟨(C19_index_safety binary32 _ (by unfold SizesInRange; decide)).2.1 (by decide),
    (C19_index_safety binary32 _ (by unfold SizesInRange; decide)).2.2 (by decide)⟩

end GpuMemoryManager
